import Mathlib

/-!
# Memory core of the Prolog runtime: heap allocator, tagged pointers, indirect objects

A shallow embedding of `src/pl-alloc.c`.  Addresses and sizes are natural numbers,
`NULL` is `0`.  The chunk memory of the heap allocator is a map from the address of a
`struct chunk` to the value of its `next` field; the memory of the stacks is a map from
byte addresses to bytes.  A call that ends in `outOfCore()` (a fatal error that never
returns) yields `none`.

The last part embeds the two functions of `src/os/pl-locale.c` that write and read the
digit grouping of a locale, `set_grouping` and `locale_grouping_property`.
-/

namespace PlAlloc

/-! ## Heap allocator: data model -/

/-- Platform constants and helpers of `pl-incl.h` that `pl-alloc.c` uses without defining them.
`ALIGN_SIZE` is `sizeof(long)` or `sizeof(double)`, `sizeofChunk` is `sizeof(struct chunk)`,
which is also `ALLOC_MIN = sizeof(Chunk)`; `SetHBase old v` and `SetHTop old v` give the new
value of the heap base and heap top mark. -/
structure Config where
  ALIGN_SIZE : Nat
  sizeofChunk : Nat
  ALLOCFAST : Nat
  ALLOCSIZE : Nat
  SetHBase : Nat → Nat → Nat
  SetHTop : Nat → Nat → Nat

/-- Modelled from the spec: the rounding helper `ROUND(p, n)` of `pl-incl.h` is not among the
sources; the spec describes it as `round_up(n, align)`, the least multiple of the alignment
that is not below the request. -/
def ROUND (p n : Nat) : Nat := (p + n - 1) / n * n

/-- The source line `#define ALLOCROUND(n) ROUND(n, ALIGN_SIZE)`. -/
def Config.ALLOCROUND (c : Config) (n : Nat) : Nat := ROUND n c.ALIGN_SIZE

/-- The shared variables of the allocator. -/
inductive Var where
  | heap
  | freeChains
  | spaceptr
  | spacefree
  | chunk
  | marks
  deriving DecidableEq, Repr

/-- Observable events of a run: taking and releasing `L_ALLOC`, touching a shared variable,
and the calls to the platform allocator with the size asked and the address obtained. -/
inductive Ev where
  | lock
  | unlock
  | access (v : Var)
  | Allocate (size addr : Nat)
  | malloc (size addr : Nat)
  | free (addr : Nat)
  deriving DecidableEq, Repr

/-- The allocator instance: `mem a` is the `next` field of the chunk at address `a`,
`heap` is `GD->statistics.heap`, `hBase` and `hTop` the heap marks, `log` the events so far,
most recent first. -/
structure State where
  mem : Nat → Nat
  spaceptr : Nat
  spacefree : Nat
  freeChains : Nat → Nat
  heap : Int
  hBase : Nat
  hTop : Nat
  log : List Ev

/-- The state of a freshly loaded program: static storage is zeroed. -/
def State.IsInitial (s : State) : Prop :=
  s.spaceptr = 0 ∧ s.spacefree = 0 ∧ (∀ m, s.freeChains m = 0) ∧ s.log = []

/-! ## Heap allocator: operations -/

/-- The source function `allocate(n)`; `plat` is what `Allocate(ALLOCSIZE)` returns if it
is called. -/
def allocate (c : Config) (plat n : Nat) (s : State) : Option (Nat × State) :=
  if n ≤ s.spacefree then
    some (s.spaceptr,
      { s with
        spaceptr := s.spaceptr + n
        spacefree := s.spacefree - n
        log := Ev.access Var.spacefree :: Ev.access Var.spaceptr :: Ev.access Var.spaceptr ::
                 Ev.access Var.spacefree :: s.log })
  else
    let s1 : State :=
      if c.sizeofChunk ≤ s.spacefree then
        if s.spacefree / c.ALIGN_SIZE ≤ c.ALLOCFAST / c.ALIGN_SIZE then
          { s with
            mem := Function.update s.mem s.spaceptr (s.freeChains (s.spacefree / c.ALIGN_SIZE))
            freeChains := Function.update s.freeChains (s.spacefree / c.ALIGN_SIZE) s.spaceptr
            log := Ev.access Var.freeChains :: Ev.access Var.chunk :: Ev.access Var.freeChains ::
                     Ev.access Var.spaceptr :: Ev.access Var.spacefree ::
                     Ev.access Var.spacefree :: Ev.access Var.spacefree :: s.log }
        else
          { s with
            log := Ev.access Var.spacefree :: Ev.access Var.spacefree ::
                     Ev.access Var.spacefree :: s.log }
      else { s with log := Ev.access Var.spacefree :: Ev.access Var.spacefree :: s.log }
    if plat = 0 then none
    else
      some (plat,
        { s1 with
          spacefree := c.ALLOCSIZE - n
          spaceptr := plat + n
          log := Ev.access Var.spacefree :: Ev.access Var.spaceptr :: Ev.access Var.spacefree ::
                   Ev.Allocate c.ALLOCSIZE plat :: s1.log })

/-- The source function `allocHeap(n)`; `plat` is what the platform allocator returns if this
call reaches it (`Allocate(ALLOCSIZE)` inside `allocate`, or `malloc(n)` on the large path).
The rounding is that of unbounded numbers: this is the function for the requests whose
rounding does not wrap in `size_t`, `n <= SIZE_MAX - ALIGN_SIZE + 1`; `SizeT.allocHeap` below
is the function for every `size_t`. -/
def allocHeap (c : Config) (plat n : Nat) (s : State) : Option (Nat × State) :=
  if n = 0 then some (0, s)
  else
    let s1 : State :=
      { s with
        heap := s.heap + (c.ALLOCROUND n : Nat)
        log := Ev.access Var.heap :: Ev.lock :: s.log }
    if c.ALLOCROUND n ≤ c.ALLOCFAST then
      if s1.freeChains (c.ALLOCROUND n / c.ALIGN_SIZE) ≠ 0 then
        some (s1.freeChains (c.ALLOCROUND n / c.ALIGN_SIZE),
          { s1 with
            freeChains := Function.update s1.freeChains (c.ALLOCROUND n / c.ALIGN_SIZE)
              (s1.mem (s1.freeChains (c.ALLOCROUND n / c.ALIGN_SIZE)))
            mem := Function.update s1.mem (s1.freeChains (c.ALLOCROUND n / c.ALIGN_SIZE)) 0
            log := Ev.unlock :: Ev.access Var.chunk :: Ev.access Var.freeChains ::
                     Ev.access Var.chunk :: Ev.access Var.freeChains :: s1.log })
      else
        match allocate c plat (c.ALLOCROUND n) { s1 with log := Ev.access Var.freeChains :: s1.log } with
        | none => none
        | some (f, s2) =>
          some (f,
            { s2 with
              hBase := c.SetHBase s2.hBase f
              hTop := c.SetHTop s2.hTop (f + c.ALLOCROUND n)
              log := Ev.unlock :: Ev.access Var.marks :: Ev.access Var.marks :: s2.log })
    else
      if plat = 0 then none
      else
        some (plat,
          { s1 with
            hBase := c.SetHBase s1.hBase plat
            hTop := c.SetHTop s1.hTop (plat + c.ALLOCROUND n)
            log := Ev.unlock :: Ev.access Var.marks :: Ev.access Var.marks ::
                     Ev.malloc (c.ALLOCROUND n) plat :: s1.log })

/-- The source function `freeHeap(mem, n)`, with the rounding of unbounded numbers as in
`allocHeap`; `SizeT.freeHeap` below is the function for every `size_t`. -/
def freeHeap (c : Config) (p n : Nat) (s : State) : State :=
  if p = 0 then s
  else if c.ALLOCROUND n ≤ c.ALLOCFAST then
    { s with
      heap := s.heap - (c.ALLOCROUND n : Nat)
      mem := Function.update s.mem p (s.freeChains (c.ALLOCROUND n / c.ALIGN_SIZE))
      freeChains := Function.update s.freeChains (c.ALLOCROUND n / c.ALIGN_SIZE) p
      log := Ev.unlock :: Ev.access Var.freeChains :: Ev.access Var.chunk ::
               Ev.access Var.freeChains :: Ev.access Var.heap :: Ev.lock :: s.log }
  else
    { s with
      heap := s.heap - (c.ALLOCROUND n : Nat)
      log := Ev.unlock :: Ev.free p :: Ev.access Var.heap :: Ev.lock :: s.log }

/-! ## Heap allocator: the operations in the arithmetic of `size_t` -/

/-- Modelled from the spec: the rounding helper `ROUND(p, n)` of `pl-incl.h` is not among the
sources; this is the `round_up` of the spec computed in `size_t`, where the sum `p + n - 1`
and the product are taken modulo `SIZE_MAX + 1`.  For `p > SIZE_MAX - n + 1` the sum wraps
and the result is `0`. -/
def SizeT.ROUND (SIZE_MAX p n : Nat) : Nat :=
  (p + n - 1) % (SIZE_MAX + 1) / n * n % (SIZE_MAX + 1)

/-- The source line `#define ALLOCROUND(n) ROUND(n, ALIGN_SIZE)`, applied to a `size_t`. -/
def SizeT.ALLOCROUND (c : Config) (SIZE_MAX n : Nat) : Nat :=
  SizeT.ROUND SIZE_MAX n c.ALIGN_SIZE

/-- The source function `allocHeap(n)` with its argument a `size_t`: the assignment
`n = ALLOCROUND(n)` wraps modulo `SIZE_MAX + 1`; `plat` is what the platform allocator returns
if this call reaches it.  It is `allocHeap` above wherever the rounding does not wrap. -/
def SizeT.allocHeap (c : Config) (SIZE_MAX plat n : Nat) (s : State) : Option (Nat × State) :=
  if n = 0 then some (0, s)
  else
    let s1 : State :=
      { s with
        heap := s.heap + (SizeT.ALLOCROUND c SIZE_MAX n : Nat)
        log := Ev.access Var.heap :: Ev.lock :: s.log }
    if SizeT.ALLOCROUND c SIZE_MAX n ≤ c.ALLOCFAST then
      if s1.freeChains (SizeT.ALLOCROUND c SIZE_MAX n / c.ALIGN_SIZE) ≠ 0 then
        some (s1.freeChains (SizeT.ALLOCROUND c SIZE_MAX n / c.ALIGN_SIZE),
          { s1 with
            freeChains :=
              Function.update s1.freeChains (SizeT.ALLOCROUND c SIZE_MAX n / c.ALIGN_SIZE)
                (s1.mem (s1.freeChains (SizeT.ALLOCROUND c SIZE_MAX n / c.ALIGN_SIZE)))
            mem :=
              Function.update s1.mem
                (s1.freeChains (SizeT.ALLOCROUND c SIZE_MAX n / c.ALIGN_SIZE)) 0
            log := Ev.unlock :: Ev.access Var.chunk :: Ev.access Var.freeChains ::
                     Ev.access Var.chunk :: Ev.access Var.freeChains :: s1.log })
      else
        match allocate c plat (SizeT.ALLOCROUND c SIZE_MAX n)
            { s1 with log := Ev.access Var.freeChains :: s1.log } with
        | none => none
        | some (f, s2) =>
          some (f,
            { s2 with
              hBase := c.SetHBase s2.hBase f
              hTop := c.SetHTop s2.hTop (f + SizeT.ALLOCROUND c SIZE_MAX n)
              log := Ev.unlock :: Ev.access Var.marks :: Ev.access Var.marks :: s2.log })
    else
      if plat = 0 then none
      else
        some (plat,
          { s1 with
            hBase := c.SetHBase s1.hBase plat
            hTop := c.SetHTop s1.hTop (plat + SizeT.ALLOCROUND c SIZE_MAX n)
            log := Ev.unlock :: Ev.access Var.marks :: Ev.access Var.marks ::
                     Ev.malloc (SizeT.ALLOCROUND c SIZE_MAX n) plat :: s1.log })

/-- The source function `freeHeap(mem, n)` with `n` a `size_t`: the assignment
`n = ALLOCROUND(n)` wraps modulo `SIZE_MAX + 1`. -/
def SizeT.freeHeap (c : Config) (SIZE_MAX p n : Nat) (s : State) : State :=
  if p = 0 then s
  else if SizeT.ALLOCROUND c SIZE_MAX n ≤ c.ALLOCFAST then
    { s with
      heap := s.heap - (SizeT.ALLOCROUND c SIZE_MAX n : Nat)
      mem :=
        Function.update s.mem p (s.freeChains (SizeT.ALLOCROUND c SIZE_MAX n / c.ALIGN_SIZE))
      freeChains :=
        Function.update s.freeChains (SizeT.ALLOCROUND c SIZE_MAX n / c.ALIGN_SIZE) p
      log := Ev.unlock :: Ev.access Var.freeChains :: Ev.access Var.chunk ::
               Ev.access Var.freeChains :: Ev.access Var.heap :: Ev.lock :: s.log }
  else
    { s with
      heap := s.heap - (SizeT.ALLOCROUND c SIZE_MAX n : Nat)
      log := Ev.unlock :: Ev.free p :: Ev.access Var.heap :: Ev.lock :: s.log }

/-- A configuration as on a 64-bit machine: 8-byte longs and pointers, the fast path up to
512 bytes, bulk regions of 32768 bytes, marks kept as minimum and maximum. -/
def cfg64 : Config where
  ALIGN_SIZE := 8
  sizeofChunk := 8
  ALLOCFAST := 512
  ALLOCSIZE := 32768
  SetHBase := fun old v => if v < old then v else old
  SetHTop := fun old v => if v > old then v else old

/-- An initial allocator state with zeroed chunk memory. -/
def s0 : State where
  mem := fun _ => 0
  spaceptr := 0
  spacefree := 0
  freeChains := fun _ => 0
  heap := 0
  hBase := 0
  hTop := 0
  log := []

/-! ## Tagged pointers, the global stack and strings: data model and operations -/

/-- Platform constants and helpers of `pl-data.h` and `pl-incl.h` that the stack part of
`pl-alloc.c` uses without defining them.  `wordSize` is `sizeof(word)`, which is also the size
of `unsigned long`; `bigEndian` is the byte order; `base_addresses` is the table of base
addresses indexed by storage class; `mkStrHdr n p` builds the header of a string of `n` payload
words with `p` pad bytes, `wsizeofInd` and `padHdr` read the two numbers back; `mkIndHdr n t`
builds the header of an indirect object of `n` payload words with tag `t`; `tag w` is the tag
of a word; `arityFunctor f` is the arity of the functor `f`; `intBits` is the number of bits
of the C type `int`; `passDouble d` is the bit pattern that a `double` with bit pattern `d`
has after it was passed, assigned or returned by value on this platform. -/
structure Layout where
  wordSize : Nat
  bigEndian : Bool
  base_addresses : Nat → Nat
  STG_MASK : Nat
  MAXTAGGEDPTR : Nat
  STG_GLOBAL : Nat
  TAG_STRING : Nat
  mkStrHdr : Nat → Nat → Nat
  wsizeofInd : Nat → Nat
  padHdr : Nat → Nat
  TAG_INTEGER : Nat
  TAG_FLOAT : Nat
  TAG_COMPOUND : Nat
  tag : Nat → Nat
  mkIndHdr : Nat → Nat → Nat
  arityFunctor : Nat → Nat
  intBits : Nat
  passDouble : Nat → Nat

/-- Number of bits of a `word`. -/
def Layout.bits (L : Layout) : Nat := 8 * L.wordSize

/-- The value of the variable `v` of `__consPtr` after `v -= base_addresses[ts&STG_MASK]`:
`p` minus the base address of the storage class of `ts`, in the arithmetic of
`unsigned long`, modulo `2 ^ bits`. -/
def unsignedOffset (L : Layout) (p ts : Nat) : Nat :=
  (p % 2 ^ L.bits + (2 ^ L.bits - L.base_addresses (ts &&& L.STG_MASK) % 2 ^ L.bits))
    % 2 ^ L.bits

/-- The source function `__consPtr(p, ts)`.  The shift is that of `unsigned long`, modulo
`2 ^ bits`; a failing `assert` yields `none`. -/
def __consPtr (L : Layout) (p ts : Nat) : Option Nat :=
  let v := unsignedOffset L p ts
  if v < L.MAXTAGGEDPTR then some (((v <<< 5) % 2 ^ L.bits) ||| ts) else none

/-- The source function `consPtr(p, ts)`. -/
def consPtr (L : Layout) (p ts : Nat) : Option Nat := __consPtr L p ts

/-- Modelled from the spec: the decoder `valPtr` of `pl-data.h` is not among the sources; the
spec describes it as the exact inverse of the encoder, which undoes the shift and adds the
base address of the storage class found in the word. -/
def valPtr (L : Layout) (w : Nat) : Nat :=
  ((w >>> 5) + L.base_addresses (w &&& L.STG_MASK)) % 2 ^ L.bits

/-- Modelled from the spec: `addressIndirect(w)` of `pl-data.h` is not among the sources; it
is the address of the header of the indirect object that the tagged word `w` refers to. -/
def addressIndirect (L : Layout) (w : Nat) : Nat := valPtr L w

/-- The stacks of `LD->stacks`. -/
inductive StackId where
  | global
  | locals
  | trail
  | argument
  deriving DecidableEq, Repr

/-- The overflow policies, the values of the argument `how` of `outOfStack`. -/
inductive Overflow where
  | STACK_OVERFLOW_FATAL
  | STACK_OVERFLOW_SIGNAL_IMMEDIATELY
  | STACK_OVERFLOW_SIGNAL
  deriving DecidableEq, Repr

/-- Calls that leave this module. -/
inductive Ext where
  | growStacks
  | warning (s : StackId)
  | pl_abort
  | PL_unify_term (s : StackId)
  | PL_throw
  deriving DecidableEq, Repr

/-- The part of the local data `LD` that the stack code touches: the byte memory, the base,
the top and the limit of the global stack as byte addresses, `LD->outofstack`,
`LD->trim_stack_requested`, `gc_status.requested`, and the calls made to other modules, most
recent first. -/
structure LD where
  mem : Nat → Nat
  gBase : Nat
  gTop : Nat
  gMax : Nat
  outofstack : Option StackId
  trim_stack_requested : Bool
  gc_requested : Bool
  calls : List Ext

/-- Ways in which a call does not return to its caller. -/
inductive Stop where
  | aborted
  | thrown
  | assertion
  deriving DecidableEq, Repr

/-- Result of a call: a value and the new state, or the state in which control was lost. -/
inductive Res (α : Type) where
  | ret (a : α) (ld : LD)
  | stop (why : Stop) (ld : LD)

/-- The `k` low bytes of `v`, least significant first. -/
def toBytesLE : Nat → Nat → List Nat
  | 0, _ => []
  | k + 1, v => v % 256 :: toBytesLE k (v / 256)

/-- The number whose bytes, least significant first, are `bs`. -/
def ofBytesLE : List Nat → Nat
  | [] => 0
  | b :: bs => b + 256 * ofBytesLE bs

/-- The bytes of the word `v` in memory order. -/
def wordBytes (L : Layout) (v : Nat) : List Nat :=
  if L.bigEndian then (toBytesLE L.wordSize v).reverse else toBytesLE L.wordSize v

/-- The word whose bytes in memory order are `bs`. -/
def wordOfBytes (L : Layout) (bs : List Nat) : Nat :=
  ofBytesLE (if L.bigEndian then bs.reverse else bs)

/-- The `k` bytes of memory from address `a`. -/
def loadBytes (mem : Nat → Nat) : Nat → Nat → List Nat
  | _, 0 => []
  | a, k + 1 => mem a :: loadBytes mem (a + 1) k

/-- Memory after the bytes `bs` were written from address `a` on. -/
def storeBytes (mem : Nat → Nat) : Nat → List Nat → Nat → Nat
  | _, [] => mem
  | a, b :: bs => Function.update (storeBytes mem (a + 1) bs) a b

/-- The word read at address `a`: `*(Word)a`. -/
def loadWord (L : Layout) (mem : Nat → Nat) (a : Nat) : Nat :=
  wordOfBytes L (loadBytes mem a L.wordSize)

/-- Memory after the word `v` was written at address `a`: `*(Word)a = v`. -/
def storeWord (L : Layout) (mem : Nat → Nat) (a v : Nat) : Nat → Nat :=
  storeBytes mem a (wordBytes L v)

/-- Modelled from the spec: `roomStack(global)` of `pl-incl.h` is not among the sources; it is
the capacity left, the bytes between the top and the limit of the stack. -/
def roomStack (ld : LD) : Nat := ld.gMax - ld.gTop

/-- The source function `outOfStack(s, how)`.  The calls `pl_abort()` and `PL_throw()` leave
this module and are not among the sources: following the spec neither returns, and the
`assert(0)` that follows each stops the call in any case, so no case of the `switch` falls
through to the next. -/
def outOfStack (s : StackId) (how : Overflow) (ld : LD) : Res Unit :=
  match how with
  | Overflow.STACK_OVERFLOW_FATAL =>
    Res.stop Stop.aborted
      { ld with
        trim_stack_requested := true
        outofstack := some s
        calls := Ext.pl_abort :: Ext.warning s :: ld.calls }
  | Overflow.STACK_OVERFLOW_SIGNAL_IMMEDIATELY =>
    Res.stop Stop.thrown
      { ld with
        trim_stack_requested := true
        outofstack := none
        gc_requested := false
        calls := Ext.PL_throw :: Ext.PL_unify_term s :: ld.calls }
  | Overflow.STACK_OVERFLOW_SIGNAL =>
    Res.ret ()
      { ld with
        trim_stack_requested := true
        outofstack := some s }

/-- The source function `allocGlobal(n)`, in the variant with shifting stacks; `grow` is the
effect of `growStacks(NULL, NULL, FALSE, TRUE, FALSE)` on the local data. -/
def allocGlobal (L : Layout) (grow : LD → LD) (n : Nat) (ld : LD) : Res Nat :=
  if roomStack ld / L.wordSize < n then
    let ld1 : LD := grow { ld with calls := Ext.growStacks :: ld.calls }
    if roomStack ld1 / L.wordSize < n then
      match outOfStack StackId.global Overflow.STACK_OVERFLOW_FATAL ld1 with
      | Res.stop why ld2 => Res.stop why ld2
      | Res.ret _ ld2 => Res.ret ld2.gTop { ld2 with gTop := ld2.gTop + n * L.wordSize }
    else Res.ret ld1.gTop { ld1 with gTop := ld1.gTop + n * L.wordSize }
  else Res.ret ld.gTop { ld with gTop := ld.gTop + n * L.wordSize }

/-- The value that the integer `x` has after conversion to a signed C integer type of `b`
bits: the number congruent to `x` modulo `2 ^ b` that lies from `-2 ^ (b - 1)` up to
`2 ^ (b - 1) - 1`. -/
def toSigned (b : Nat) (x : Int) : Int := (x + 2 ^ (b - 1)) % 2 ^ b - 2 ^ (b - 1)

/-- The source function `sizeString(w)`.  The locals `wn` and `pad` and the result are of
type `int`; the product and the difference are computed in `size_t`, of the size of a word,
after the conversion of `wn` and `pad`, and the result is converted to `int`. -/
def sizeString (L : Layout) (ld : LD) (w : Nat) : Int :=
  let m := loadWord L ld.mem (addressIndirect L w)
  let wn : Int := toSigned L.intBits (L.wsizeofInd m)
  let pad : Int := toSigned L.intBits (L.padHdr m)
  toSigned L.intBits ((wn * L.wordSize - pad) % 2 ^ L.bits)

/-- The source function `globalNString(l, s)`; `s` lists the bytes found at the source
address, of which the first `l` are copied. -/
def globalNString (L : Layout) (grow : LD → LD) (l : Nat) (s : List Nat) (ld : LD) :
    Res Nat :=
  match allocGlobal L grow (2 + (l + L.wordSize) / L.wordSize) ld with
  | Res.stop why ld1 => Res.stop why ld1
  | Res.ret p ld1 =>
    match consPtr L p (L.TAG_STRING ||| L.STG_GLOBAL) with
    | none => Res.stop Stop.assertion ld1
    | some r =>
      Res.ret r
        { ld1 with
          mem :=
            storeWord L
              (storeBytes
                (storeWord L
                  (storeWord L ld1.mem p
                    (L.mkStrHdr ((l + L.wordSize) / L.wordSize)
                      ((l + L.wordSize) / L.wordSize * L.wordSize - l)))
                  (p + L.wordSize + ((l + L.wordSize) / L.wordSize - 1) * L.wordSize) 0)
                (p + L.wordSize) (s.take l))
              (p + L.wordSize + (l + L.wordSize) / L.wordSize * L.wordSize)
              (L.mkStrHdr ((l + L.wordSize) / L.wordSize)
                ((l + L.wordSize) / L.wordSize * L.wordSize - l)) }

/-- The source function `globalString(s)`, for a string without a zero byte. -/
def globalString (L : Layout) (grow : LD → LD) (s : List Nat) (ld : LD) : Res Nat :=
  globalNString L grow s.length s ld

/-- Modelled from the spec: `setVar` of `pl-data.h` is not among the sources; it makes the
word at address `a` an unbound variable, which is the word `0`. -/
def setVar (L : Layout) (mem : Nat → Nat) (a : Nat) : Nat → Nat := storeWord L mem a 0

/-- The loop `while( --arity >= 0 ) setVar(*++a);` of `globalFunctor`. -/
def setVars (L : Layout) : Nat → Nat → (Nat → Nat) → Nat → Nat
  | 0, _, mem => mem
  | k + 1, a, mem => setVars L k (a + L.wordSize) (setVar L mem (a + L.wordSize))

/-- The source function `globalFunctor(f)`. -/
def globalFunctor (L : Layout) (grow : LD → LD) (f : Nat) (ld : LD) : Res Nat :=
  match allocGlobal L grow (1 + L.arityFunctor f) ld with
  | Res.stop why ld1 => Res.stop why ld1
  | Res.ret a ld1 =>
    match consPtr L a (L.TAG_COMPOUND ||| L.STG_GLOBAL) with
    | none =>
      Res.stop Stop.assertion
        { ld1 with mem := setVars L (L.arityFunctor f) a (storeWord L ld1.mem a f) }
    | some r =>
      Res.ret r { ld1 with mem := setVars L (L.arityFunctor f) a (storeWord L ld1.mem a f) }

/-- The source line `#define WORDS_PER_DOUBLE ((sizeof(double)+sizeof(word)-1)/sizeof(word))`,
for a `double` of eight bytes. -/
def WORDS_PER_DOUBLE (L : Layout) : Nat := (8 + L.wordSize - 1) / L.wordSize

/-- The eight bytes of the `double` with bit pattern `d`, in memory order. -/
def doubleBytes (L : Layout) (d : Nat) : List Nat :=
  if L.bigEndian then (toBytesLE 8 d).reverse else toBytesLE 8 d

/-- The bit pattern of the `double` whose bytes in memory order are `bs`. -/
def doubleOfBytes (L : Layout) (bs : List Nat) : Nat :=
  ofBytesLE (if L.bigEndian then bs.reverse else bs)

/-- The bytes of the union `val` of `globalReal` after `val.d = d`, read as the `fword`
`val.l`: the bytes of the `double`, then the bytes of the `fword` that the `double` does not
cover (none when the word size is 4 or 8), taken as zero. -/
def fwordOfDouble (L : Layout) (d : Nat) : List Nat :=
  doubleBytes L d ++ List.replicate (WORDS_PER_DOUBLE L * L.wordSize - 8) 0

/-- Modelled from the spec: `valIndirectP(w)` of `pl-data.h` is not among the sources; it is
the address of the payload of the indirect object, the word after its header. -/
def valIndirectP (L : Layout) (w : Nat) : Nat := addressIndirect L w + L.wordSize

/-- The bit pattern `d` is that of a finite `double`: its eleven exponent bits are not all
ones, so it is neither an infinity nor a NaN. -/
def finiteDouble (d : Nat) : Prop := (d / 2 ^ 52) % 2048 ≠ 2047

instance (d : Nat) : Decidable (finiteDouble d) := by
  unfold finiteDouble; infer_instance

/-- The source function `valReal(w)`; the result is the bit pattern of the `double` that the
caller receives: the `fword` is copied byte for byte into the union, and `val.d` is returned
by value. -/
def valReal (L : Layout) (ld : LD) (w : Nat) : Nat :=
  L.passDouble
    (doubleOfBytes L
      ((loadBytes ld.mem (valIndirectP L w) (WORDS_PER_DOUBLE L * L.wordSize)).take 8))

/-- The source function `globalReal(d)`; `d` is the bit pattern of the `double` that the
caller passes.  The function takes it by value and assigns it to `val.d`, so the `fword`
written holds `passDouble d`. -/
def globalReal (L : Layout) (grow : LD → LD) (d : Nat) (ld : LD) : Res Nat :=
  match allocGlobal L grow (2 + WORDS_PER_DOUBLE L) ld with
  | Res.stop why ld1 => Res.stop why ld1
  | Res.ret p ld1 =>
    match consPtr L p (L.TAG_FLOAT ||| L.STG_GLOBAL) with
    | none => Res.stop Stop.assertion ld1
    | some r =>
      Res.ret r
        { ld1 with
          mem :=
            storeWord L
              (storeBytes
                (storeWord L ld1.mem p (L.mkIndHdr (WORDS_PER_DOUBLE L) L.TAG_FLOAT))
                (p + L.wordSize) (fwordOfDouble L (L.passDouble d)))
              (p + L.wordSize + WORDS_PER_DOUBLE L * L.wordSize)
              (L.mkIndHdr (WORDS_PER_DOUBLE L) L.TAG_FLOAT) }

/-- A layout as on a 64-bit little-endian machine: 8-byte words, 5 tag and storage bits,
storage bits `0x18`, a header with the word count above bit 10, the pad count, taken modulo
the word size, in bits 7 to 9, and the tag below; an `int` of 32 bits, and doubles that
pass by value with all their bits. -/
def layout64 : Layout where
  wordSize := 8
  bigEndian := false
  base_addresses := fun _ => 0x10000
  STG_MASK := 0x18
  MAXTAGGEDPTR := 2 ^ 59 - 1
  STG_GLOBAL := 0x08
  TAG_STRING := 0x05
  mkStrHdr := fun n p => (n <<< 10) ||| ((p % 8) <<< 7) ||| 0x15
  wsizeofInd := fun m => m >>> 10
  padHdr := fun m => if (m >>> 7) % 8 = 0 then 8 else (m >>> 7) % 8
  TAG_INTEGER := 0x03
  TAG_FLOAT := 0x02
  TAG_COMPOUND := 0x06
  tag := fun w => w &&& 0x07
  mkIndHdr := fun n t => (n <<< 10) ||| t ||| 0x10
  arityFunctor := fun f => (f >>> 7) % 32
  intBits := 32
  passDouble := fun d => d

/-- A layout as on a 32-bit machine whose stacks lie at the top of the address space, and
whose floating-point unit sets the quiet bit of a NaN that passes through it. -/
def layout32 : Layout where
  wordSize := 4
  bigEndian := false
  base_addresses := fun _ => 0xF9000000
  STG_MASK := 0x18
  MAXTAGGEDPTR := 2 ^ 27 - 1
  STG_GLOBAL := 0x08
  TAG_STRING := 0x05
  mkStrHdr := fun n p => (n <<< 9) ||| ((p % 4) <<< 7) ||| 0x15
  wsizeofInd := fun m => m >>> 9
  padHdr := fun m => if (m >>> 7) % 4 = 0 then 4 else (m >>> 7) % 4
  TAG_INTEGER := 0x03
  TAG_FLOAT := 0x02
  TAG_COMPOUND := 0x06
  tag := fun w => w &&& 0x07
  mkIndHdr := fun n t => (n <<< 9) ||| t ||| 0x10
  arityFunctor := fun f => (f >>> 7) % 32
  intBits := 32
  passDouble := fun d =>
    if (d / 2 ^ 52) % 2048 = 2047 ∧ d % 2 ^ 52 ≠ 0 then d ||| 2 ^ 51 else d

/-- Local data with an empty global stack of 4096 bytes at address `0x20000`. -/
def ld0 : LD where
  mem := fun _ => 0
  gBase := 0x20000
  gTop := 0x20000
  gMax := 0x21000
  outofstack := none
  trim_stack_requested := false
  gc_requested := false
  calls := []

/-- Local data for `layout32` with an empty global stack of 4096 bytes at address
`0xF9100000`. -/
def ld32 : LD := { ld0 with gBase := 0xF9100000, gTop := 0xF9100000, gMax := 0xF9101000 }

/-- Local data with an empty global stack of `2 ^ 32` bytes at address `0x20000`. -/
def ldWide : LD := { ld0 with gMax := 0x20000 + 2 ^ 32 }

/-- Local data like `ld0` in which a garbage collection has been requested. -/
def ldGC : LD := { ld0 with gc_requested := true }

/-- Whether `L_ALLOC` is held after the events of a log (most recent first). -/
def held : List Ev → Bool
  | [] => false
  | Ev.lock :: _ => true
  | Ev.unlock :: _ => false
  | _ :: l => held l

/-- Lock discipline of a log: the lock is taken only when free, released only when held,
and every access to a shared variable happens while it is held. -/
def lockOK : List Ev → Bool
  | [] => true
  | Ev.lock :: l => !held l && lockOK l
  | Ev.unlock :: l => held l && lockOK l
  | Ev.access _ :: l => held l && lockOK l
  | _ :: l => lockOK l

/-- The events of one call respect the lock: they keep the discipline of `lockOK`, leave the
lock released, and take it at most once, as often as they release it. -/
def callOK (es : List Ev) : Bool :=
  lockOK es && !held es && decide (es.count Ev.lock ≤ 1)
    && decide (es.count Ev.lock = es.count Ev.unlock)

/-- The state in which a call that returned leaves the allocator. -/
def stateOf (o : Option (Nat × State)) (dflt : State) : State :=
  match o with
  | some (_, s) => s
  | none => dflt

/-- The allocator after a first `allocHeap(64)` that obtained the bulk region at 4096. -/
def sA : State := stateOf (allocHeap cfg64 4096 64 s0) s0

/-- Two byte ranges `[a, a+la)` and `[b, b+lb)` share no byte: one of them is empty, or one
ends before the other starts. -/
def Disj (a la b lb : Nat) : Prop := la = 0 ∨ lb = 0 ∨ a + la ≤ b ∨ b + lb ≤ a

instance (a la b lb : Nat) : Decidable (Disj a la b lb) := by
  unfold Disj; infer_instance

/-- The regions obtained from the platform allocator and not yet given back to it,
as pairs of start address and size. -/
def outstanding : List Ev → List (Nat × Nat)
  | [] => []
  | Ev.Allocate sz a :: l => (a, sz) :: outstanding l
  | Ev.malloc sz a :: l => (a, sz) :: outstanding l
  | Ev.free a :: l => (outstanding l).filter (fun r => r.1 ≠ a)
  | _ :: l => outstanding l

/-- The bulk regions obtained through `Allocate`, as pairs of start address and size. -/
def bulk : List Ev → List (Nat × Nat)
  | [] => []
  | Ev.Allocate sz a :: l => (a, sz) :: bulk l
  | _ :: l => bulk l

/-- The assumption on the platform allocator: each region it hands out shares no byte with
a region that is outstanding at that moment. -/
def PlatOK : List Ev → Prop
  | [] => True
  | Ev.Allocate sz a :: l => (∀ r ∈ outstanding l, Disj a sz r.1 r.2) ∧ PlatOK l
  | Ev.malloc sz a :: l => (∀ r ∈ outstanding l, Disj a sz r.1 r.2) ∧ PlatOK l
  | _ :: l => PlatOK l

/-- The assumption that the platform hands out bulk regions aligned to `al` bytes. -/
def PlatAligned (al : Nat) : List Ev → Prop
  | [] => True
  | Ev.Allocate _ a :: l => al ∣ a ∧ PlatAligned al l
  | _ :: l => PlatAligned al l

/-- The assumptions on the constants that the sources do not define: a chunk fits in an
alignment unit (the assertion of `initMemAlloc`), a bulk region is a whole number of
alignment units and is at least as large as the largest fast-path block. -/
structure Config.WF (c : Config) : Prop where
  chunk_pos : 0 < c.sizeofChunk
  chunk_le : c.sizeofChunk ≤ c.ALIGN_SIZE
  size_dvd : c.ALIGN_SIZE ∣ c.ALLOCSIZE
  fast_le : c.ALLOCFAST ≤ c.ALLOCSIZE

/-- The states reachable from the initial state `i` by calls of `allocHeap` and `freeHeap`,
together with the blocks that are live: the pairs of an address returned by `allocHeap(n)`
with `n > 0` and that `n`, not yet freed.  Each `freeHeap(p, n)` with `p` not `NULL` frees
a live block with the size used to allocate it. -/
inductive Reach (c : Config) (i : State) : State → List (Nat × Nat) → Prop
  | init : i.IsInitial → Reach c i i []
  | alloc {s s' : State} {live : List (Nat × Nat)} {plat n p : Nat} :
      Reach c i s live → allocHeap c plat n s = some (p, s') →
      Reach c i s' (if n = 0 then live else (p, n) :: live)
  | free {s : State} {live : List (Nat × Nat)} {p n : Nat} :
      Reach c i s live → (p, n) ∈ live → Reach c i (freeHeap c p n s) (live.erase (p, n))
  | freeNull {s : State} {live : List (Nat × Nat)} {n : Nat} :
      Reach c i s live → Reach c i (freeHeap c 0 n s) live

/-- The states reachable from the initial state `i` by calls of the functions in `size_t`
arithmetic whose request does not wrap when rounded, `n + ALIGN_SIZE - 1 <= SIZE_MAX`,
together with the live blocks; each `freeHeap(p, n)` with `p` not `NULL` frees a live block
with the size used to allocate it. -/
inductive SizeT.Reach (c : Config) (SIZE_MAX : Nat) (i : State) :
    State → List (Nat × Nat) → Prop
  | init : i.IsInitial → SizeT.Reach c SIZE_MAX i i []
  | alloc {s s' : State} {live : List (Nat × Nat)} {plat n p : Nat} :
      SizeT.Reach c SIZE_MAX i s live → n + c.ALIGN_SIZE - 1 ≤ SIZE_MAX →
      SizeT.allocHeap c SIZE_MAX plat n s = some (p, s') →
      SizeT.Reach c SIZE_MAX i s' (if n = 0 then live else (p, n) :: live)
  | free {s : State} {live : List (Nat × Nat)} {p n : Nat} :
      SizeT.Reach c SIZE_MAX i s live → n + c.ALIGN_SIZE - 1 ≤ SIZE_MAX → (p, n) ∈ live →
      SizeT.Reach c SIZE_MAX i (SizeT.freeHeap c SIZE_MAX p n s) (live.erase (p, n))
  | freeNull {s : State} {live : List (Nat × Nat)} {n : Nat} :
      SizeT.Reach c SIZE_MAX i s live →
      SizeT.Reach c SIZE_MAX i (SizeT.freeHeap c SIZE_MAX 0 n s) live

/-- The list `L` is the chain of nodes that starts at `h` and follows the `next` fields
up to `NULL`. -/
def IsChain (mem : Nat → Nat) : Nat → List Nat → Prop
  | h, [] => h = 0
  | h, x :: xs => h = x ∧ x ≠ 0 ∧ IsChain mem (mem x) xs

/-- The free chains are well formed and hold exactly the nodes listed in `fl`, a list of
pairs of a node address and its size class: the chain of every class `m` is a finite list
without repetition that ends in `NULL`, and its nodes are the `x` with `(x, m)` in `fl`. -/
def ChainsOK (mem fc : Nat → Nat) (fl : List (Nat × Nat)) : Prop :=
  ∀ m, ∃ L, IsChain mem (fc m) L ∧ L.Nodup ∧ ∀ x, x ∈ L ↔ (x, m) ∈ fl

/-- The ownership invariant of the allocator.  `live` lists the live blocks as pairs of
address and requested size, `fl` the free nodes as pairs of address and size class.  A free
node of class `m` stands for the `m * ALIGN_SIZE` bytes from its address, a live block for
the `ALLOCROUND n` bytes from its address, and the unused tail of the current bulk region is
the `spacefree` bytes from `spaceptr`.  All of these share no byte with one another, the
free nodes, the tail and the fast-path live blocks lie inside bulk regions, and their sizes
add up to the size of all bulk regions, so that they tile the bulk regions exactly. -/
structure Inv (c : Config) (s : State) (live fl : List (Nat × Nat)) : Prop where
  chains : ChainsOK s.mem s.freeChains fl
  cls : ∀ b ∈ fl, 1 ≤ b.2 ∧ b.2 * c.ALIGN_SIZE ≤ c.ALLOCFAST
  freeDisj : fl.Pairwise
    (fun a b => Disj a.1 (a.2 * c.ALIGN_SIZE) b.1 (b.2 * c.ALIGN_SIZE))
  freeRem : ∀ b ∈ fl, Disj b.1 (b.2 * c.ALIGN_SIZE) s.spaceptr s.spacefree
  freeLive : ∀ b ∈ fl, ∀ q ∈ live,
    Disj b.1 (b.2 * c.ALIGN_SIZE) q.1 (c.ALLOCROUND q.2)
  freeIn : ∀ b ∈ fl, ∃ r ∈ bulk s.log,
    r.1 ≤ b.1 ∧ b.1 + b.2 * c.ALIGN_SIZE ≤ r.1 + r.2
  liveDisj : live.Pairwise
    (fun a b => Disj a.1 (c.ALLOCROUND a.2) b.1 (c.ALLOCROUND b.2))
  liveRem : ∀ q ∈ live, Disj q.1 (c.ALLOCROUND q.2) s.spaceptr s.spacefree
  liveIn : ∀ q ∈ live, c.ALLOCROUND q.2 ≤ c.ALLOCFAST →
    ∃ r ∈ bulk s.log, r.1 ≤ q.1 ∧ q.1 + c.ALLOCROUND q.2 ≤ r.1 + r.2
  liveBig : ∀ q ∈ live, c.ALLOCFAST < c.ALLOCROUND q.2 →
    (q.1, c.ALLOCROUND q.2) ∈ outstanding s.log
  livePos : ∀ q ∈ live, 0 < q.2 ∧ q.1 ≠ 0
  remIn : s.spacefree = 0 ∨ ∃ r ∈ bulk s.log,
    r.1 ≤ s.spaceptr ∧ s.spaceptr + s.spacefree ≤ r.1 + r.2
  remAl : c.ALIGN_SIZE ∣ s.spacefree
  bulkOut : ∀ r ∈ bulk s.log, r ∈ outstanding s.log ∧ r.2 = c.ALLOCSIZE ∧ 0 < r.2 ∧ r.1 ≠ 0
  bulkBig : ∀ r ∈ bulk s.log, ∀ q ∈ live, c.ALLOCFAST < c.ALLOCROUND q.2 →
    Disj r.1 r.2 q.1 (c.ALLOCROUND q.2)
  tiling : (fl.map (fun b => b.2 * c.ALIGN_SIZE)).sum + s.spacefree
      + ((live.filter (fun q => c.ALLOCROUND q.2 ≤ c.ALLOCFAST)).map
          (fun q => c.ALLOCROUND q.2)).sum
    = (bulk s.log).length * c.ALLOCSIZE

/-- The alignment invariant: the bulk cursor and the free count are multiples of the alignment,
the live fast-path blocks are aligned, and there is a set `W` of aligned addresses that holds
`NULL` and every chain head and is closed under following the `next` field. -/
def AlignInv (c : Config) (s : State) (live : List (Nat × Nat)) : Prop :=
  c.ALIGN_SIZE ∣ s.spaceptr ∧ c.ALIGN_SIZE ∣ s.spacefree ∧
    (∀ q ∈ live, c.ALLOCROUND q.2 ≤ c.ALLOCFAST → c.ALIGN_SIZE ∣ q.1) ∧
    ∃ W : Nat → Prop, W 0 ∧ (∀ m, W (s.freeChains m)) ∧
      ∀ x, W x → c.ALIGN_SIZE ∣ x ∧ (x ≠ 0 → W (s.mem x))

/-! ## Heap allocator: the indices of `freeChains` that each call uses -/

/-- The indices at which `allocate(n)` reads and writes `freeChains`: none when the request
fits the region or the remainder fails one of the two tests, else `m = spacefree/ALIGN_SIZE`
for `ch->next = freeChains[m]` and for `freeChains[m] = ch`. -/
def allocateIdx (c : Config) (n : Nat) (s : State) : List Nat :=
  if n ≤ s.spacefree then []
  else if c.sizeofChunk ≤ s.spacefree then
    if s.spacefree / c.ALIGN_SIZE ≤ c.ALLOCFAST / c.ALIGN_SIZE then
      [s.spacefree / c.ALIGN_SIZE, s.spacefree / c.ALIGN_SIZE]
    else []
  else []

/-- The indices at which `allocHeap(n)` reads and writes `freeChains`: on the fast path
`m = n / ALIGN_SIZE` of the rounded `n` for `f = freeChains[m]`, then either the same `m` for
`freeChains[m] = f->next` or the indices of `allocate(n)`; none for `n == 0` and on the large
path. -/
def allocHeapIdx (c : Config) (n : Nat) (s : State) : List Nat :=
  if n = 0 then []
  else if c.ALLOCROUND n ≤ c.ALLOCFAST then
    if s.freeChains (c.ALLOCROUND n / c.ALIGN_SIZE) ≠ 0 then
      [c.ALLOCROUND n / c.ALIGN_SIZE, c.ALLOCROUND n / c.ALIGN_SIZE]
    else c.ALLOCROUND n / c.ALIGN_SIZE :: allocateIdx c (c.ALLOCROUND n) s
  else []

/-- The indices at which `freeHeap(mem, n)` reads and writes `freeChains`: on the fast path
the rounded `n` divided by `ALIGN_SIZE`, for `p->next = freeChains[n]` and for
`freeChains[n] = p`. -/
def freeHeapIdx (c : Config) (p n : Nat) : List Nat :=
  if p = 0 then []
  else if c.ALLOCROUND n ≤ c.ALLOCFAST then
    [c.ALLOCROUND n / c.ALIGN_SIZE, c.ALLOCROUND n / c.ALIGN_SIZE]
  else []

/-- A configuration with small regions: 8-byte alignment and chunks, the fast path up to 64
bytes, bulk regions of 128 bytes. -/
def cfgSmall : Config where
  ALIGN_SIZE := 8
  sizeofChunk := 8
  ALLOCFAST := 64
  ALLOCSIZE := 128
  SetHBase := fun old v => if v < old then v else old
  SetHTop := fun old v => if v > old then v else old

/-- The small allocator after a first `allocHeap(48)` that obtained the region at 4096. -/
def sC1 : State := stateOf (allocHeap cfgSmall 4096 48 s0) s0

/-- The small allocator after a second `allocHeap(48)`: 32 bytes remain at 4192. -/
def sC2 : State := stateOf (allocHeap cfgSmall 0 48 sC1) sC1

/-- The Prolog terms met in a grouping list: an integer, `repeat(Arg)`, and anything else,
such as an unbound variable. -/
inductive GTerm where
  | int (i : Int)
  | repeat1 (arg : GTerm)
  | var
  deriving DecidableEq, Repr

/-- The source function `get_group_size_ex(t, &s)` of `pl-locale.c`: the size when `t` is an
integer `i` with `0 < i < CHAR_MAX`, else failure (with an error). -/
def get_group_size_ex (CHAR_MAX : Nat) (t : GTerm) : Option Nat :=
  match t with
  | GTerm.int i => if 0 < i ∧ i < (CHAR_MAX : Int) then some i.toNat else none
  | _ => none

/-- The C library function `strdup` on a buffer: the bytes before the first zero byte. -/
def strdup (buf : List Nat) : List Nat := buf.takeWhile (fun b => b ≠ 0)

/-- The loop of the source function `set_grouping(t, valp)` and what follows it; `o` holds the
bytes written to the buffer `s` so far, so `o - s` is its length.  The result is the string
stored in `*valp`, or `none` when the function returns `FALSE`. -/
def set_grouping_loop (CHAR_MAX MAX_GROUPING : Nat) : List GTerm → List Nat → Option (List Nat)
  | [], o => some (strdup (o ++ [0]))
  | head :: tail, o =>
    if o.length + 2 ≥ MAX_GROUPING then none
    else
      match head with
      | GTerm.repeat1 arg =>
        match get_group_size_ex CHAR_MAX arg with
        | some g => if tail = [] then some (strdup (o ++ [g, CHAR_MAX] ++ [0])) else none
        | none => none
      | _ =>
        match get_group_size_ex CHAR_MAX head with
        | some g => set_grouping_loop CHAR_MAX MAX_GROUPING tail (o ++ [g])
        | none => none

/-- The source function `set_grouping(t, valp)` on a proper list `t`. -/
def set_grouping (CHAR_MAX MAX_GROUPING : Nat) (t : List GTerm) : Option (List Nat) :=
  set_grouping_loop CHAR_MAX MAX_GROUPING t []

/-- The loop of the source function `locale_grouping_property`, with `s` standing on the
first byte of the list given; the zero byte that ends the string is not part of the list, so
`s[1] == 0` says that one byte is left.  The result is the list unified with an unbound
`prop`. -/
def grouping_loop (CHAR_MAX : Nat) : List Nat → Option (List GTerm)
  | [] => none
  | [a] => some [GTerm.repeat1 (GTerm.int a)]
  | a :: b :: rest =>
    if b = a ∧ rest = [] then some [GTerm.repeat1 (GTerm.int a)]
    else if a = CHAR_MAX then some [GTerm.var]
    else (grouping_loop CHAR_MAX (b :: rest)).map (fun l => GTerm.int a :: l)

/-- The source function `locale_grouping_property(l, prop)` for an unbound `prop`;
`grouping` is `l->grouping`, `none` for `NULL`. -/
def locale_grouping_property (CHAR_MAX : Nat) (grouping : Option (List Nat)) :
    Option (List GTerm) :=
  match grouping with
  | none => none
  | some [] => none
  | some (a :: rest) => grouping_loop CHAR_MAX (a :: rest)

/-! ## Heap allocator: auxiliary facts -/

theorem ROUND_dvd (n a : Nat) : a ∣ ROUND n a := Nat.dvd_mul_left _ _

theorem ROUND_ge (n : Nat) {a : Nat} (ha : 0 < a) : n ≤ ROUND n a := by
  unfold ROUND
  have h1 := Nat.div_add_mod (n + a - 1) a
  have h2 := Nat.mod_lt (n + a - 1) ha
  have h3 : (n + a - 1) / a * a = a * ((n + a - 1) / a) := Nat.mul_comm _ _
  omega

theorem ROUND_lt (n : Nat) {a : Nat} (ha : 0 < a) : ROUND n a < n + a := by
  unfold ROUND
  have h1 := Nat.div_add_mod (n + a - 1) a
  have h3 : (n + a - 1) / a * a = a * ((n + a - 1) / a) := Nat.mul_comm _ _
  omega

theorem ROUND_div_mul (n a : Nat) : ROUND n a / a * a = ROUND n a :=
  Nat.div_mul_cancel (ROUND_dvd n a)

theorem ROUND_least (n : Nat) {a k : Nat} (ha : 0 < a) (hk : a ∣ k) (hn : n ≤ k) :
    ROUND n a ≤ k := by
  obtain ⟨q, rfl⟩ := hk
  have h1 := ROUND_lt n ha
  obtain ⟨r, hr⟩ := ROUND_dvd n a
  rw [hr] at h1 ⊢
  have : r < q + 1 := by
    by_contra hc
    have h2 : q + 1 ≤ r := by omega
    have h3 : a * (q + 1) ≤ a * r := Nat.mul_le_mul_left a h2
    have h4 : a * (q + 1) = a * q + a := by ring
    omega
  exact Nat.mul_le_mul_left a (by omega)

theorem IsChain.update_of_not_mem {mem : Nat → Nat} {x v : Nat} :
    ∀ {L : List Nat} {h : Nat}, x ∉ L → IsChain mem h L →
      IsChain (Function.update mem x v) h L
  | [], _, _, hc => hc
  | y :: ys, _, hx, hc => by
      obtain ⟨h1, h2, h3⟩ := hc
      have hxy : y ≠ x := fun e => hx (by simp [e])
      refine ⟨h1, h2, ?_⟩
      rw [Function.update_noteq hxy]
      exact IsChain.update_of_not_mem (fun hm => hx (List.mem_cons_of_mem _ hm)) h3

theorem ChainsOK.pushNode {mem fc : Nat → Nat} {fl : List (Nat × Nat)} (h : ChainsOK mem fc fl)
    {x m : Nat} (hx0 : x ≠ 0) (hx : ∀ k, (x, k) ∉ fl) :
    ChainsOK (Function.update mem x (fc m)) (Function.update fc m x) ((x, m) :: fl) := by
  intro k
  obtain ⟨L, hc, hnd, hmem⟩ := h k
  have hxL : x ∉ L := fun hm => hx k ((hmem x).1 hm)
  by_cases hk : k = m
  · subst hk
    refine ⟨x :: L, ?_, ?_, ?_⟩
    · refine ⟨by simp, hx0, ?_⟩
      simp only [Function.update_same]
      exact hc.update_of_not_mem hxL
    · exact List.nodup_cons.2 ⟨hxL, hnd⟩
    · intro y
      simp [hmem y]
  · refine ⟨L, ?_, hnd, ?_⟩
    · rw [Function.update_noteq hk]
      exact hc.update_of_not_mem hxL
    · intro y
      simp [hmem y, hk]

theorem ChainsOK.popHead {mem fc : Nat → Nat} {fl : List (Nat × Nat)} (h : ChainsOK mem fc fl)
    (hnd : fl.Nodup) (hinj : ∀ a ∈ fl, ∀ b ∈ fl, a.1 = b.1 → a = b) {m : Nat}
    (hf : fc m ≠ 0) :
    (fc m, m) ∈ fl ∧
      ChainsOK (Function.update mem (fc m) 0) (Function.update fc m (mem (fc m)))
        (fl.erase (fc m, m)) := by
  obtain ⟨L, hc, hLnd, hmem⟩ := h m
  cases L with
  | nil => exact absurd hc hf
  | cons y ys =>
    obtain ⟨h1, h2, h3⟩ := hc
    have hy : y ∉ ys := (List.nodup_cons.1 hLnd).1
    have hin : (fc m, m) ∈ fl := (hmem (fc m)).1 (by simp [h1])
    refine ⟨hin, ?_⟩
    intro k
    by_cases hk : k = m
    · subst hk
      refine ⟨ys, ?_, (List.nodup_cons.1 hLnd).2, ?_⟩
      · simp only [Function.update_same]
        rw [h1]
        exact h3.update_of_not_mem hy
      · intro x
        constructor
        · intro hxs
          have hne : x ≠ y := fun e => hy (e ▸ hxs)
          have : (x, k) ∈ fl := (hmem x).1 (List.mem_cons_of_mem _ hxs)
          exact (List.mem_erase_of_ne (by simp [h1, hne])).2 this
        · intro hxe
          have hxfl : (x, k) ∈ fl := List.mem_of_mem_erase hxe
          rcases List.mem_cons.1 ((hmem x).2 hxfl) with e | hxs
          · exfalso
            rw [e, ← h1] at hxe
            exact (List.Nodup.not_mem_erase hnd) hxe
          · exact hxs
    · obtain ⟨L, hc, hLnd', hmem'⟩ := h k
      have hfL : fc m ∉ L := by
        intro hm
        have h5 := hinj _ ((hmem' _).1 hm) _ hin rfl
        exact hk (Prod.mk.inj h5).2
      refine ⟨L, ?_, hLnd', ?_⟩
      · rw [Function.update_noteq hk]
        exact hc.update_of_not_mem hfL
      · intro x
        rw [hmem' x]
        constructor
        · intro hx
          exact (List.mem_erase_of_ne (by simp [hk])).2 hx
        · exact List.mem_of_mem_erase

theorem Disj.symm {a la b lb : Nat} (h : Disj a la b lb) : Disj b lb a la := by
  unfold Disj at *; omega

theorem ALLOCROUND_pos (c : Config) (hA : 0 < c.ALIGN_SIZE) {n : Nat} (hn : 0 < n) :
    0 < c.ALLOCROUND n := lt_of_lt_of_le hn (ROUND_ge n hA)

theorem ALLOCROUND_div_mul (c : Config) (n : Nat) :
    c.ALLOCROUND n / c.ALIGN_SIZE * c.ALIGN_SIZE = c.ALLOCROUND n := ROUND_div_mul _ _

theorem Config.WF.align_pos {c : Config} (wf : c.WF) : 0 < c.ALIGN_SIZE :=
  lt_of_lt_of_le wf.chunk_pos wf.chunk_le

theorem perm_cons_erase_pair {x : Nat × Nat} :
    ∀ {l : List (Nat × Nat)}, x ∈ l → l.Perm (x :: l.erase x)
  | [], h => by cases h
  | y :: ys, h => by
      by_cases e : y = x
      · subst e
        simp
      · have hx : x ∈ ys := by
          rcases List.mem_cons.1 h with h | h
          · exact absurd h.symm e
          · exact h
        have hb : ¬ (y == x) = true := by simpa using e
        rw [List.erase_cons_tail hb]
        exact ((perm_cons_erase_pair hx).cons y).trans (List.Perm.swap x y _)

theorem sum_map_erase_pair (g : Nat × Nat → Nat) {l : List (Nat × Nat)} {x : Nat × Nat}
    (hx : x ∈ l) : (l.map g).sum = g x + ((l.erase x).map g).sum := by
  rw [((perm_cons_erase_pair hx).map g).sum_eq]
  simp

theorem sum_fast_erase (c : Config) {live : List (Nat × Nat)} {x : Nat × Nat} (hx : x ∈ live) :
    ((live.filter (fun q => c.ALLOCROUND q.2 ≤ c.ALLOCFAST)).map
        (fun q => c.ALLOCROUND q.2)).sum
      = (if c.ALLOCROUND x.2 ≤ c.ALLOCFAST then c.ALLOCROUND x.2 else 0)
        + (((live.erase x).filter (fun q => c.ALLOCROUND q.2 ≤ c.ALLOCFAST)).map
            (fun q => c.ALLOCROUND q.2)).sum := by
  have hp : live.Perm (x :: live.erase x) := perm_cons_erase_pair hx
  have h1 := ((hp.filter (fun q => c.ALLOCROUND q.2 ≤ c.ALLOCFAST)).map
    (fun q => c.ALLOCROUND q.2)).sum_eq
  rw [h1]
  by_cases hf : c.ALLOCROUND x.2 ≤ c.ALLOCFAST
  · simp [List.filter_cons, hf]
  · simp [List.filter_cons, hf]

theorem live_erase_disj (c : Config) {live : List (Nat × Nat)} {x : Nat × Nat}
    (hx : x ∈ live)
    (hd : live.Pairwise (fun a b => Disj a.1 (c.ALLOCROUND a.2) b.1 (c.ALLOCROUND b.2))) :
    ∀ q ∈ live.erase x, Disj x.1 (c.ALLOCROUND x.2) q.1 (c.ALLOCROUND q.2) := by
  have hp : live.Perm (x :: live.erase x) := perm_cons_erase_pair hx
  have hs : Symmetric (fun a b : Nat × Nat =>
      Disj a.1 (c.ALLOCROUND a.2) b.1 (c.ALLOCROUND b.2)) := fun _ _ h => h.symm
  have h2 := (hp.pairwise_iff (fun {_ _} h => hs h)).1 hd
  exact (List.pairwise_cons.1 h2).1

theorem Inv.free_pos {c : Config} {s : State} {live fl : List (Nat × Nat)}
    (h : Inv c s live fl) (hA : 0 < c.ALIGN_SIZE) :
    ∀ b ∈ fl, 0 < b.2 * c.ALIGN_SIZE :=
  fun b hb => Nat.mul_pos (h.cls b hb).1 hA

theorem Inv.free_inj {c : Config} {s : State} {live fl : List (Nat × Nat)}
    (h : Inv c s live fl) (hA : 0 < c.ALIGN_SIZE) :
    ∀ a ∈ fl, ∀ b ∈ fl, a.1 = b.1 → a = b := by
  intro a ha b hb hab
  by_contra hne
  have hs : Symmetric (fun a b : Nat × Nat =>
      Disj a.1 (a.2 * c.ALIGN_SIZE) b.1 (b.2 * c.ALIGN_SIZE)) := fun _ _ h => h.symm
  have hd := h.freeDisj.forall hs ha hb hne
  have h1 := h.free_pos hA a ha
  have h2 := h.free_pos hA b hb
  unfold Disj at hd
  omega

theorem Inv.free_nodup {c : Config} {s : State} {live fl : List (Nat × Nat)}
    (h : Inv c s live fl) (hA : 0 < c.ALIGN_SIZE) : fl.Nodup := by
  refine List.Pairwise.imp_of_mem ?_ h.freeDisj
  intro a b ha hb hd hab
  have h1 := h.free_pos hA a ha
  subst hab
  unfold Disj at hd
  omega

theorem Inv.pop {c : Config} {s s' : State} {live fl : List (Nat × Nat)}
    (h : Inv c s live fl) (wf : c.WF) {n : Nat} (hn : 0 < n)
    (hfast : c.ALLOCROUND n ≤ c.ALLOCFAST)
    (hf : s.freeChains (c.ALLOCROUND n / c.ALIGN_SIZE) ≠ 0)
    (hmem : s'.mem
      = Function.update s.mem (s.freeChains (c.ALLOCROUND n / c.ALIGN_SIZE)) 0)
    (hfc : s'.freeChains
      = Function.update s.freeChains (c.ALLOCROUND n / c.ALIGN_SIZE)
          (s.mem (s.freeChains (c.ALLOCROUND n / c.ALIGN_SIZE))))
    (hsp : s'.spaceptr = s.spaceptr) (hsf : s'.spacefree = s.spacefree)
    (hb : bulk s'.log = bulk s.log) (ho : outstanding s'.log = outstanding s.log) :
    Inv c s' ((s.freeChains (c.ALLOCROUND n / c.ALIGN_SIZE), n) :: live)
      (fl.erase (s.freeChains (c.ALLOCROUND n / c.ALIGN_SIZE),
        c.ALLOCROUND n / c.ALIGN_SIZE)) := by
  have hA := wf.align_pos
  have hmA : c.ALLOCROUND n / c.ALIGN_SIZE * c.ALIGN_SIZE = c.ALLOCROUND n :=
    ALLOCROUND_div_mul c n
  generalize c.ALLOCROUND n / c.ALIGN_SIZE = m at *
  obtain ⟨hin, hch⟩ := h.chains.popHead (h.free_nodup hA) (h.free_inj hA) hf
  generalize s.freeChains m = f at *
  have hme : ∀ b ∈ fl.erase (f, m), b ∈ fl := fun b hb => List.mem_of_mem_erase hb
  have hne : ∀ b ∈ fl.erase (f, m), b ≠ (f, m) :=
    fun b hb e => (h.free_nodup hA).not_mem_erase (e ▸ hb)
  have hs : Symmetric (fun a b : Nat × Nat =>
      Disj a.1 (a.2 * c.ALIGN_SIZE) b.1 (b.2 * c.ALIGN_SIZE)) := fun _ _ h => h.symm
  have hdf : ∀ b ∈ fl.erase (f, m),
      Disj b.1 (b.2 * c.ALIGN_SIZE) f (c.ALLOCROUND n) := by
    intro b hb
    have h1 := h.freeDisj.forall hs (hme b hb) hin (hne b hb)
    simpa [hmA] using h1
  have hfr := h.freeRem _ hin
  have hfl := h.freeLive _ hin
  have hfi := h.freeIn _ hin
  simp only [hmA] at hfr hfl hfi
  refine ⟨?_, ?_, ?_, ?_, ?_, ?_, ?_, ?_, ?_, ?_, ?_, ?_, ?_, ?_, ?_, ?_⟩
  · rw [hmem, hfc]; exact hch
  · exact fun b hb => h.cls b (hme b hb)
  · exact h.freeDisj.sublist (List.erase_sublist _ _)
  · rw [hsp, hsf]; exact fun b hb => h.freeRem b (hme b hb)
  · intro b hb q hq
    rcases List.mem_cons.1 hq with rfl | hq
    · exact hdf b hb
    · exact h.freeLive b (hme b hb) q hq
  · rw [hb]; exact fun b hb => h.freeIn b (hme b hb)
  · exact List.pairwise_cons.2 ⟨fun q hq => hfl q hq, h.liveDisj⟩
  · rw [hsp, hsf]
    intro q hq
    rcases List.mem_cons.1 hq with rfl | hq
    · exact hfr
    · exact h.liveRem q hq
  · rw [hb]
    intro q hq hqf
    rcases List.mem_cons.1 hq with rfl | hq
    · exact hfi
    · exact h.liveIn q hq hqf
  · rw [ho]
    intro q hq hqf
    rcases List.mem_cons.1 hq with rfl | hq
    · exact absurd hfast (not_le.2 hqf)
    · exact h.liveBig q hq hqf
  · intro q hq
    rcases List.mem_cons.1 hq with rfl | hq
    · exact ⟨hn, hf⟩
    · exact h.livePos q hq
  · rw [hsp, hsf, hb]; exact h.remIn
  · rw [hsf]; exact h.remAl
  · rw [hb, ho]; exact h.bulkOut
  · rw [hb]
    intro r hr q hq hqf
    rcases List.mem_cons.1 hq with rfl | hq
    · exact absurd hfast (not_le.2 hqf)
    · exact h.bulkBig r hr q hq hqf
  · have h1 := h.tiling
    have h2 := sum_map_erase_pair (fun b : Nat × Nat => b.2 * c.ALIGN_SIZE) hin
    rw [hsf, hb]
    simp only [List.filter_cons, hfast, decide_True, if_true, List.map_cons, List.sum_cons]
    simp only [hmA] at h2
    omega

theorem Inv.pushLive {c : Config} {s s' : State} {live fl : List (Nat × Nat)}
    (h : Inv c s live fl) (wf : c.WF) {p n : Nat} (hq : (p, n) ∈ live)
    (hfast : c.ALLOCROUND n ≤ c.ALLOCFAST)
    (hmem : s'.mem
      = Function.update s.mem p (s.freeChains (c.ALLOCROUND n / c.ALIGN_SIZE)))
    (hfc : s'.freeChains
      = Function.update s.freeChains (c.ALLOCROUND n / c.ALIGN_SIZE) p)
    (hsp : s'.spaceptr = s.spaceptr) (hsf : s'.spacefree = s.spacefree)
    (hb : bulk s'.log = bulk s.log) (ho : outstanding s'.log = outstanding s.log) :
    Inv c s' (live.erase (p, n)) ((p, c.ALLOCROUND n / c.ALIGN_SIZE) :: fl) := by
  have hA := wf.align_pos
  have hmA : c.ALLOCROUND n / c.ALIGN_SIZE * c.ALIGN_SIZE = c.ALLOCROUND n :=
    ALLOCROUND_div_mul c n
  obtain ⟨hn, hp0⟩ := h.livePos _ hq
  have hRpos : 0 < c.ALLOCROUND n := ALLOCROUND_pos c hA hn
  generalize c.ALLOCROUND n / c.ALIGN_SIZE = m at *
  have hme : ∀ q ∈ live.erase (p, n), q ∈ live := fun q hq => List.mem_of_mem_erase hq
  have hld := live_erase_disj c hq h.liveDisj
  have hnot : ∀ k, (p, k) ∉ fl := by
    intro k hk
    have h1 := h.freeLive _ hk _ hq
    have h2 := h.free_pos hA _ hk
    unfold Disj at h1
    simp only at h1 h2
    omega
  have hm1 : 1 ≤ m := by
    rcases Nat.eq_zero_or_pos m with h0 | h0
    · rw [h0] at hmA; omega
    · exact h0
  refine ⟨?_, ?_, ?_, ?_, ?_, ?_, ?_, ?_, ?_, ?_, ?_, ?_, ?_, ?_, ?_, ?_⟩
  · rw [hmem, hfc]; exact h.chains.pushNode hp0 hnot
  · intro b hb
    rcases List.mem_cons.1 hb with rfl | hb
    · exact ⟨hm1, by simpa [hmA] using hfast⟩
    · exact h.cls b hb
  · refine List.pairwise_cons.2 ⟨fun b hb => ?_, h.freeDisj⟩
    have h1 := (h.freeLive b hb _ hq).symm
    simpa [hmA] using h1
  · rw [hsp, hsf]
    intro b hb
    rcases List.mem_cons.1 hb with rfl | hb
    · simpa [hmA] using h.liveRem _ hq
    · exact h.freeRem b hb
  · intro b hb q hq'
    rcases List.mem_cons.1 hb with rfl | hb
    · simpa [hmA] using hld q hq'
    · exact h.freeLive b hb q (hme q hq')
  · rw [hb]
    intro b hb'
    rcases List.mem_cons.1 hb' with rfl | hb'
    · simpa [hmA] using h.liveIn _ hq hfast
    · exact h.freeIn b hb'
  · exact h.liveDisj.sublist (List.erase_sublist _ _)
  · rw [hsp, hsf]; exact fun q hq' => h.liveRem q (hme q hq')
  · rw [hb]; exact fun q hq' => h.liveIn q (hme q hq')
  · rw [ho]; exact fun q hq' => h.liveBig q (hme q hq')
  · exact fun q hq' => h.livePos q (hme q hq')
  · rw [hsp, hsf, hb]; exact h.remIn
  · rw [hsf]; exact h.remAl
  · rw [hb, ho]; exact h.bulkOut
  · rw [hb]; exact fun r hr q hq' => h.bulkBig r hr q (hme q hq')
  · have h1 := h.tiling
    have h2 := sum_fast_erase c hq
    simp only [hfast, if_true] at h2
    rw [hsf, hb]
    simp only [List.map_cons, List.sum_cons, hmA]
    omega

theorem Inv.bump {c : Config} {s s' : State} {live fl : List (Nat × Nat)}
    (h : Inv c s live fl) (wf : c.WF) {n : Nat} (hn : 0 < n)
    (hfast : c.ALLOCROUND n ≤ c.ALLOCFAST) (hfit : c.ALLOCROUND n ≤ s.spacefree)
    (hmem : s'.mem = s.mem) (hfc : s'.freeChains = s.freeChains)
    (hsp : s'.spaceptr = s.spaceptr + c.ALLOCROUND n)
    (hsf : s'.spacefree = s.spacefree - c.ALLOCROUND n)
    (hb : bulk s'.log = bulk s.log) (ho : outstanding s'.log = outstanding s.log) :
    Inv c s' ((s.spaceptr, n) :: live) fl := by
  have hA := wf.align_pos
  have hRpos : 0 < c.ALLOCROUND n := ALLOCROUND_pos c hA hn
  have hrem : ∃ r ∈ bulk s.log,
      r.1 ≤ s.spaceptr ∧ s.spaceptr + s.spacefree ≤ r.1 + r.2 := by
    rcases h.remIn with h0 | h1
    · omega
    · exact h1
  refine ⟨?_, ?_, ?_, ?_, ?_, ?_, ?_, ?_, ?_, ?_, ?_, ?_, ?_, ?_, ?_, ?_⟩
  · rw [hmem, hfc]; exact h.chains
  · exact h.cls
  · exact h.freeDisj
  · rw [hsp, hsf]
    intro b hb
    have h1 := h.freeRem b hb
    unfold Disj at *
    omega
  · intro b hb q hq
    rcases List.mem_cons.1 hq with rfl | hq
    · have h1 := h.freeRem b hb
      unfold Disj at *
      simp only
      omega
    · exact h.freeLive b hb q hq
  · rw [hb]; exact h.freeIn
  · refine List.pairwise_cons.2 ⟨fun q hq => ?_, h.liveDisj⟩
    have h1 := h.liveRem q hq
    unfold Disj at *
    simp only
    omega
  · rw [hsp, hsf]
    intro q hq
    rcases List.mem_cons.1 hq with rfl | hq
    · unfold Disj
      simp only
      omega
    · have h1 := h.liveRem q hq
      unfold Disj at *
      omega
  · rw [hb]
    intro q hq hqf
    rcases List.mem_cons.1 hq with rfl | hq
    · obtain ⟨r, hr, h1, h2⟩ := hrem
      exact ⟨r, hr, h1, by simp only; omega⟩
    · exact h.liveIn q hq hqf
  · rw [ho]
    intro q hq hqf
    rcases List.mem_cons.1 hq with rfl | hq
    · exact absurd hfast (not_le.2 hqf)
    · exact h.liveBig q hq hqf
  · intro q hq
    rcases List.mem_cons.1 hq with rfl | hq
    · obtain ⟨r, hr, h1, _⟩ := hrem
      have h3 := (h.bulkOut r hr).2.2.2
      exact ⟨hn, by simp only; omega⟩
    · exact h.livePos q hq
  · rw [hsp, hsf, hb]
    obtain ⟨r, hr, h1, h2⟩ := hrem
    exact Or.inr ⟨r, hr, by omega, by omega⟩
  · rw [hsf]; exact Nat.dvd_sub' h.remAl (ROUND_dvd _ _)
  · rw [hb, ho]; exact h.bulkOut
  · rw [hb]
    intro r hr q hq hqf
    rcases List.mem_cons.1 hq with rfl | hq
    · exact absurd hfast (not_le.2 hqf)
    · exact h.bulkBig r hr q hq hqf
  · have h1 := h.tiling
    rw [hsf, hb]
    simp only [List.filter_cons, hfast, decide_True, if_true, List.map_cons, List.sum_cons]
    omega

theorem Inv.retire {c : Config} {s s' : State} {live fl : List (Nat × Nat)}
    (h : Inv c s live fl) (wf : c.WF) (hpos : 0 < s.spacefree)
    (hfast : s.spacefree ≤ c.ALLOCFAST)
    (hmem : s'.mem
      = Function.update s.mem s.spaceptr (s.freeChains (s.spacefree / c.ALIGN_SIZE)))
    (hfc : s'.freeChains
      = Function.update s.freeChains (s.spacefree / c.ALIGN_SIZE) s.spaceptr)
    (hsp : s'.spaceptr = s.spaceptr) (hsf : s'.spacefree = 0)
    (hb : bulk s'.log = bulk s.log) (ho : outstanding s'.log = outstanding s.log) :
    Inv c s' live ((s.spaceptr, s.spacefree / c.ALIGN_SIZE) :: fl) := by
  have hA := wf.align_pos
  have hmA : s.spacefree / c.ALIGN_SIZE * c.ALIGN_SIZE = s.spacefree :=
    Nat.div_mul_cancel h.remAl
  obtain ⟨r, hr, hr1, hr2⟩ : ∃ r ∈ bulk s.log,
      r.1 ≤ s.spaceptr ∧ s.spaceptr + s.spacefree ≤ r.1 + r.2 := by
    rcases h.remIn with h0 | h1
    · omega
    · exact h1
  have hp0 : s.spaceptr ≠ 0 := by
    have h3 := (h.bulkOut r hr).2.2.2
    omega
  generalize s.spacefree / c.ALIGN_SIZE = m at *
  have hnot : ∀ k, (s.spaceptr, k) ∉ fl := by
    intro k hk
    have h1 := h.freeRem _ hk
    have h2 := h.free_pos hA _ hk
    unfold Disj at h1
    simp only at h1 h2
    omega
  have hm1 : 1 ≤ m := by
    rcases Nat.eq_zero_or_pos m with h0 | h0
    · rw [h0] at hmA; omega
    · exact h0
  refine ⟨?_, ?_, ?_, ?_, ?_, ?_, ?_, ?_, ?_, ?_, ?_, ?_, ?_, ?_, ?_, ?_⟩
  · rw [hmem, hfc]; exact h.chains.pushNode hp0 hnot
  · intro b hb'
    rcases List.mem_cons.1 hb' with rfl | hb'
    · exact ⟨hm1, by simpa [hmA] using hfast⟩
    · exact h.cls b hb'
  · refine List.pairwise_cons.2 ⟨fun b hb' => ?_, h.freeDisj⟩
    have h1 := (h.freeRem b hb').symm
    simpa [hmA] using h1
  · rw [hsp, hsf]
    intro b _
    unfold Disj
    omega
  · intro b hb' q hq
    rcases List.mem_cons.1 hb' with rfl | hb'
    · simpa [hmA] using (h.liveRem q hq).symm
    · exact h.freeLive b hb' q hq
  · rw [hb]
    intro b hb'
    rcases List.mem_cons.1 hb' with rfl | hb'
    · exact ⟨r, hr, hr1, by simpa [hmA] using hr2⟩
    · exact h.freeIn b hb'
  · exact h.liveDisj
  · rw [hsp, hsf]
    intro q _
    unfold Disj
    omega
  · rw [hb]; exact h.liveIn
  · rw [ho]; exact h.liveBig
  · exact h.livePos
  · exact Or.inl hsf
  · rw [hsf]; exact Nat.dvd_zero _
  · rw [hb, ho]; exact h.bulkOut
  · rw [hb]; exact h.bulkBig
  · have h1 := h.tiling
    rw [hsf, hb]
    simp only [List.map_cons, List.sum_cons, hmA]
    omega

theorem Inv.region {c : Config} {s s' : State} {live fl : List (Nat × Nat)}
    (h : Inv c s live fl) (wf : c.WF) {n plat : Nat} (hn : 0 < n)
    (hfast : c.ALLOCROUND n ≤ c.ALLOCFAST) (hempty : s.spacefree = 0) (hplat : plat ≠ 0)
    (hok : ∀ r ∈ outstanding s.log, Disj plat c.ALLOCSIZE r.1 r.2)
    (hmem : s'.mem = s.mem) (hfc : s'.freeChains = s.freeChains)
    (hsp : s'.spaceptr = plat + c.ALLOCROUND n)
    (hsf : s'.spacefree = c.ALLOCSIZE - c.ALLOCROUND n)
    (hb : bulk s'.log = (plat, c.ALLOCSIZE) :: bulk s.log)
    (ho : outstanding s'.log = (plat, c.ALLOCSIZE) :: outstanding s.log) :
    Inv c s' ((plat, n) :: live) fl := by
  have hA := wf.align_pos
  have hRpos : 0 < c.ALLOCROUND n := ALLOCROUND_pos c hA hn
  have hfit : c.ALLOCROUND n ≤ c.ALLOCSIZE := le_trans hfast wf.fast_le
  have hin : ∀ (x l : Nat), (∃ r ∈ bulk s.log, r.1 ≤ x ∧ x + l ≤ r.1 + r.2) →
      Disj plat c.ALLOCSIZE x l := by
    rintro x l ⟨r, hr, h1, h2⟩
    have h3 := hok r (h.bulkOut r hr).1
    unfold Disj at *
    omega
  have hlive : ∀ q ∈ live, Disj plat c.ALLOCSIZE q.1 (c.ALLOCROUND q.2) := by
    intro q hq
    by_cases hqf : c.ALLOCROUND q.2 ≤ c.ALLOCFAST
    · exact hin _ _ (h.liveIn q hq hqf)
    · exact hok _ (h.liveBig q hq (not_le.1 hqf))
  refine ⟨?_, ?_, ?_, ?_, ?_, ?_, ?_, ?_, ?_, ?_, ?_, ?_, ?_, ?_, ?_, ?_⟩
  · rw [hmem, hfc]; exact h.chains
  · exact h.cls
  · exact h.freeDisj
  · rw [hsp, hsf]
    intro b hb'
    have h1 := hin _ _ (h.freeIn b hb')
    unfold Disj at *
    omega
  · intro b hb' q hq
    rcases List.mem_cons.1 hq with rfl | hq
    · have h1 := hin _ _ (h.freeIn b hb')
      unfold Disj at *
      simp only
      omega
    · exact h.freeLive b hb' q hq
  · rw [hb]
    intro b hb'
    obtain ⟨r, hr, h1⟩ := h.freeIn b hb'
    exact ⟨r, List.mem_cons_of_mem _ hr, h1⟩
  · refine List.pairwise_cons.2 ⟨fun q hq => ?_, h.liveDisj⟩
    have h1 := hlive q hq
    unfold Disj at *
    simp only
    omega
  · rw [hsp, hsf]
    intro q hq
    rcases List.mem_cons.1 hq with rfl | hq
    · unfold Disj
      simp only
      omega
    · have h1 := hlive q hq
      unfold Disj at *
      omega
  · rw [hb]
    intro q hq hqf
    rcases List.mem_cons.1 hq with rfl | hq
    · exact ⟨(plat, c.ALLOCSIZE), List.mem_cons_self _ _, le_refl _, by simp only; omega⟩
    · obtain ⟨r, hr, h1⟩ := h.liveIn q hq hqf
      exact ⟨r, List.mem_cons_of_mem _ hr, h1⟩
  · rw [ho]
    intro q hq hqf
    rcases List.mem_cons.1 hq with rfl | hq
    · exact absurd hfast (not_le.2 hqf)
    · exact List.mem_cons_of_mem _ (h.liveBig q hq hqf)
  · intro q hq
    rcases List.mem_cons.1 hq with rfl | hq
    · exact ⟨hn, hplat⟩
    · exact h.livePos q hq
  · rw [hsp, hsf, hb]
    exact Or.inr ⟨(plat, c.ALLOCSIZE), List.mem_cons_self _ _, by simp only; omega,
      by simp only; omega⟩
  · rw [hsf]; exact Nat.dvd_sub' wf.size_dvd (ROUND_dvd _ _)
  · rw [hb, ho]
    intro r hr
    rcases List.mem_cons.1 hr with rfl | hr
    · exact ⟨List.mem_cons_self _ _, rfl, by simp only; omega, hplat⟩
    · obtain ⟨h1, h2⟩ := h.bulkOut r hr
      exact ⟨List.mem_cons_of_mem _ h1, h2⟩
  · rw [hb]
    intro r hr q hq hqf
    rcases List.mem_cons.1 hq with rfl | hq
    · exact absurd hfast (not_le.2 hqf)
    · rcases List.mem_cons.1 hr with rfl | hr
      · exact hok _ (h.liveBig q hq hqf)
      · exact h.bulkBig r hr q hq hqf
  · have h1 := h.tiling
    rw [hsf, hb]
    simp only [List.filter_cons, hfast, decide_True, if_true, List.map_cons, List.sum_cons,
      List.length_cons, Nat.add_mul, Nat.one_mul]
    omega

theorem Inv.big {c : Config} {s s' : State} {live fl : List (Nat × Nat)}
    (h : Inv c s live fl) {n plat : Nat} (hn : 0 < n)
    (hbig : c.ALLOCFAST < c.ALLOCROUND n) (hplat : plat ≠ 0)
    (hok : ∀ r ∈ outstanding s.log, Disj plat (c.ALLOCROUND n) r.1 r.2)
    (hmem : s'.mem = s.mem) (hfc : s'.freeChains = s.freeChains)
    (hsp : s'.spaceptr = s.spaceptr) (hsf : s'.spacefree = s.spacefree)
    (hb : bulk s'.log = bulk s.log)
    (ho : outstanding s'.log = (plat, c.ALLOCROUND n) :: outstanding s.log) :
    Inv c s' ((plat, n) :: live) fl := by
  have hin : ∀ (x l : Nat), (∃ r ∈ bulk s.log, r.1 ≤ x ∧ x + l ≤ r.1 + r.2) →
      Disj plat (c.ALLOCROUND n) x l := by
    rintro x l ⟨r, hr, h1, h2⟩
    have h3 := hok r (h.bulkOut r hr).1
    unfold Disj at *
    omega
  have hlive : ∀ q ∈ live, Disj plat (c.ALLOCROUND n) q.1 (c.ALLOCROUND q.2) := by
    intro q hq
    by_cases hqf : c.ALLOCROUND q.2 ≤ c.ALLOCFAST
    · exact hin _ _ (h.liveIn q hq hqf)
    · exact hok _ (h.liveBig q hq (not_le.1 hqf))
  refine ⟨?_, ?_, ?_, ?_, ?_, ?_, ?_, ?_, ?_, ?_, ?_, ?_, ?_, ?_, ?_, ?_⟩
  · rw [hmem, hfc]; exact h.chains
  · exact h.cls
  · exact h.freeDisj
  · rw [hsp, hsf]; exact h.freeRem
  · intro b hb' q hq
    rcases List.mem_cons.1 hq with rfl | hq
    · exact (hin _ _ (h.freeIn b hb')).symm
    · exact h.freeLive b hb' q hq
  · rw [hb]; exact h.freeIn
  · exact List.pairwise_cons.2 ⟨hlive, h.liveDisj⟩
  · rw [hsp, hsf]
    intro q hq
    rcases List.mem_cons.1 hq with rfl | hq
    · rcases h.remIn with h0 | h1
      · unfold Disj; omega
      · exact hin _ _ h1
    · exact h.liveRem q hq
  · rw [hb]
    intro q hq hqf
    rcases List.mem_cons.1 hq with rfl | hq
    · exact absurd hqf (not_le.2 hbig)
    · exact h.liveIn q hq hqf
  · rw [ho]
    intro q hq hqf
    rcases List.mem_cons.1 hq with rfl | hq
    · exact List.mem_cons_self _ _
    · exact List.mem_cons_of_mem _ (h.liveBig q hq hqf)
  · intro q hq
    rcases List.mem_cons.1 hq with rfl | hq
    · exact ⟨hn, hplat⟩
    · exact h.livePos q hq
  · rw [hsp, hsf, hb]; exact h.remIn
  · rw [hsf]; exact h.remAl
  · rw [hb, ho]
    intro r hr
    obtain ⟨h1, h2⟩ := h.bulkOut r hr
    exact ⟨List.mem_cons_of_mem _ h1, h2⟩
  · rw [hb]
    intro r hr q hq hqf
    rcases List.mem_cons.1 hq with rfl | hq
    · exact (hok r (h.bulkOut r hr).1).symm
    · exact h.bulkBig r hr q hq hqf
  · have h1 := h.tiling
    have h2 : ¬ c.ALLOCROUND n ≤ c.ALLOCFAST := not_le.2 hbig
    rw [hsf, hb]
    simp only [List.filter_cons, h2, decide_False, Bool.false_eq_true, if_false]
    exact h1

theorem Inv.freeBig {c : Config} {s s' : State} {live fl : List (Nat × Nat)}
    (h : Inv c s live fl) (wf : c.WF) {p n : Nat} (hq : (p, n) ∈ live)
    (hbig : c.ALLOCFAST < c.ALLOCROUND n)
    (hmem : s'.mem = s.mem) (hfc : s'.freeChains = s.freeChains)
    (hsp : s'.spaceptr = s.spaceptr) (hsf : s'.spacefree = s.spacefree)
    (hb : bulk s'.log = bulk s.log)
    (ho : outstanding s'.log = (outstanding s.log).filter (fun r => r.1 ≠ p)) :
    Inv c s' (live.erase (p, n)) fl := by
  have hA := wf.align_pos
  obtain ⟨hn, hp0⟩ := h.livePos _ hq
  have hRpos : 0 < c.ALLOCROUND n := ALLOCROUND_pos c hA hn
  have hme : ∀ q ∈ live.erase (p, n), q ∈ live := fun q hq => List.mem_of_mem_erase hq
  have hld := live_erase_disj c hq h.liveDisj
  refine ⟨?_, ?_, ?_, ?_, ?_, ?_, ?_, ?_, ?_, ?_, ?_, ?_, ?_, ?_, ?_, ?_⟩
  · rw [hmem, hfc]; exact h.chains
  · exact h.cls
  · exact h.freeDisj
  · rw [hsp, hsf]; exact h.freeRem
  · exact fun b hb' q hq' => h.freeLive b hb' q (hme q hq')
  · rw [hb]; exact h.freeIn
  · exact h.liveDisj.sublist (List.erase_sublist _ _)
  · rw [hsp, hsf]; exact fun q hq' => h.liveRem q (hme q hq')
  · rw [hb]; exact fun q hq' => h.liveIn q (hme q hq')
  · rw [ho]
    intro q hq' hqf
    have h1 := h.liveBig q (hme q hq') hqf
    have h2 := hld q hq'
    have h3 : 0 < c.ALLOCROUND q.2 := ALLOCROUND_pos c hA (h.livePos q (hme q hq')).1
    refine List.mem_filter.2 ⟨h1, ?_⟩
    unfold Disj at h2
    simp only at h2
    simp only [ne_eq, decide_not, Bool.not_eq_eq_eq_not, Bool.not_true, decide_eq_false_iff_not]
    omega
  · exact fun q hq' => h.livePos q (hme q hq')
  · rw [hsp, hsf, hb]; exact h.remIn
  · rw [hsf]; exact h.remAl
  · rw [hb, ho]
    intro r hr
    obtain ⟨h1, h2, h3, h4⟩ := h.bulkOut r hr
    have h5 := h.bulkBig r hr _ hq hbig
    refine ⟨List.mem_filter.2 ⟨h1, ?_⟩, h2, h3, h4⟩
    unfold Disj at h5
    simp only at h5
    simp only [ne_eq, decide_not, Bool.not_eq_eq_eq_not, Bool.not_true, decide_eq_false_iff_not]
    omega
  · rw [hb]; exact fun r hr q hq' => h.bulkBig r hr q (hme q hq')
  · have h1 := h.tiling
    have h2 := sum_fast_erase c hq
    have h3 : ¬ c.ALLOCROUND n ≤ c.ALLOCFAST := not_le.2 hbig
    simp only [h3, if_false] at h2
    rw [hsf, hb]
    omega

theorem Inv.init {c : Config} {s : State} (hi : s.IsInitial) : Inv c s [] [] := by
  obtain ⟨h1, h2, h3, h4⟩ := hi
  refine ⟨?_, ?_, ?_, ?_, ?_, ?_, ?_, ?_, ?_, ?_, ?_, ?_, ?_, ?_, ?_, ?_⟩
  · intro m
    exact ⟨[], h3 m, List.nodup_nil, fun x => by simp⟩
  · intro b hb; cases hb
  · exact List.Pairwise.nil
  · intro b hb; cases hb
  · intro b hb; cases hb
  · intro b hb; cases hb
  · exact List.Pairwise.nil
  · intro b hb; cases hb
  · intro b hb; cases hb
  · intro b hb; cases hb
  · intro b hb; cases hb
  · exact Or.inl h2
  · rw [h2]; exact Nat.dvd_zero _
  · rw [h4]; intro r hr; cases hr
  · rw [h4]; intro r hr; cases hr
  · rw [h2, h4]; simp [bulk]

theorem allocHeap_inv {c : Config} (wf : c.WF) {s s' : State} {live fl : List (Nat × Nat)}
    {plat n p : Nat} (h : Inv c s live fl) (ha : allocHeap c plat n s = some (p, s'))
    (hok : PlatOK s'.log) :
    PlatOK s.log ∧ ∃ fl', Inv c s' (if n = 0 then live else (p, n) :: live) fl' := by
  have hA := wf.align_pos
  unfold allocHeap at ha
  by_cases hn0 : n = 0
  · simp only [hn0, if_true, Option.some.injEq, Prod.mk.injEq] at ha
    obtain ⟨rfl, rfl⟩ := ha
    exact ⟨hok, fl, by simpa [hn0] using h⟩
  · have hn : 0 < n := Nat.pos_of_ne_zero hn0
    simp only [hn0, if_false] at ha ⊢
    by_cases hfast : c.ALLOCROUND n ≤ c.ALLOCFAST
    · simp only [hfast, if_true] at ha
      by_cases hf : s.freeChains (c.ALLOCROUND n / c.ALIGN_SIZE) = 0
      · simp only [hf, ne_eq, not_true, if_false] at ha
        unfold allocate at ha
        by_cases hfit : c.ALLOCROUND n ≤ s.spacefree
        · simp only [hfit, if_true, Option.some.injEq, Prod.mk.injEq] at ha
          obtain ⟨rfl, rfl⟩ := ha
          simp only [PlatOK] at hok
          exact ⟨hok, fl, h.bump wf hn hfast hfit rfl rfl rfl rfl
            (by simp [bulk]) (by simp [outstanding])⟩
        · simp only [hfit, if_false] at ha
          by_cases hplat : plat = 0
          · simp [hplat] at ha
          · simp only [hplat, if_false, Option.some.injEq, Prod.mk.injEq] at ha
            obtain ⟨rfl, rfl⟩ := ha
            by_cases hck : c.sizeofChunk ≤ s.spacefree
            · have hdiv : s.spacefree / c.ALIGN_SIZE ≤ c.ALLOCFAST / c.ALIGN_SIZE :=
                Nat.div_le_div_right (by omega)
              simp only [hck, hdiv, if_true, PlatOK, outstanding] at hok ⊢
              have hmid : Inv c { s with
                  mem := Function.update s.mem s.spaceptr
                    (s.freeChains (s.spacefree / c.ALIGN_SIZE))
                  freeChains := Function.update s.freeChains
                    (s.spacefree / c.ALIGN_SIZE) s.spaceptr
                  spacefree := 0 } live ((s.spaceptr, s.spacefree / c.ALIGN_SIZE) :: fl) :=
                h.retire wf (lt_of_lt_of_le wf.chunk_pos hck) (by omega)
                  rfl rfl rfl rfl rfl rfl
              exact ⟨hok.2, _, hmid.region wf hn hfast rfl hplat hok.1 rfl rfl rfl rfl
                (by simp [bulk]) (by simp [outstanding])⟩
            · have h0 : s.spacefree = 0 := by
                obtain ⟨k, hk⟩ := h.remAl
                rcases Nat.eq_zero_or_pos k with hk0 | hk0
                · rw [hk, hk0]; rfl
                · have := Nat.le_mul_of_pos_right c.ALIGN_SIZE hk0
                  have := wf.chunk_le
                  omega
              simp only [hck, if_false, PlatOK, outstanding] at hok ⊢
              exact ⟨hok.2, fl, h.region wf hn hfast h0 hplat hok.1 rfl rfl rfl rfl
                (by simp [bulk]) (by simp [outstanding])⟩
      · simp only [hf, ne_eq, not_false_eq_true, if_true, Option.some.injEq,
          Prod.mk.injEq] at ha
        obtain ⟨rfl, rfl⟩ := ha
        simp only [PlatOK] at hok
        exact ⟨hok, _, h.pop wf hn hfast hf rfl rfl rfl rfl
          (by simp [bulk]) (by simp [outstanding])⟩
    · simp only [hfast, if_false] at ha
      by_cases hplat : plat = 0
      · simp [hplat] at ha
      · simp only [hplat, if_false, Option.some.injEq, Prod.mk.injEq] at ha
        obtain ⟨rfl, rfl⟩ := ha
        simp only [PlatOK, outstanding] at hok
        exact ⟨hok.2, fl, h.big hn (not_le.1 hfast) hplat hok.1 rfl rfl rfl rfl
          (by simp [bulk]) (by simp [outstanding])⟩

theorem freeHeap_inv {c : Config} (wf : c.WF) {s : State} {live fl : List (Nat × Nat)}
    {p n : Nat} (h : Inv c s live fl) (hq : (p, n) ∈ live) :
    ∃ fl', Inv c (freeHeap c p n s) (live.erase (p, n)) fl' := by
  have hp0 : p ≠ 0 := (h.livePos _ hq).2
  unfold freeHeap
  simp only [hp0, if_false]
  by_cases hfast : c.ALLOCROUND n ≤ c.ALLOCFAST
  · simp only [hfast, if_true]
    exact ⟨_, h.pushLive wf hq hfast rfl rfl rfl rfl (by simp [bulk]) (by simp [outstanding])⟩
  · simp only [hfast, if_false]
    exact ⟨fl, h.freeBig wf hq (not_le.1 hfast) rfl rfl rfl rfl (by simp [bulk])
      (by simp [outstanding])⟩

theorem freeHeap_platOK {c : Config} {s : State} {p n : Nat}
    (hok : PlatOK (freeHeap c p n s).log) : PlatOK s.log := by
  unfold freeHeap at hok
  split_ifs at hok
  · exact hok
  · simpa [PlatOK] using hok
  · simpa [PlatOK] using hok

theorem allocate_platOK {c : Config} {s s' : State} {plat n p : Nat}
    (ha : allocate c plat n s = some (p, s')) (hok : PlatOK s'.log) : PlatOK s.log := by
  unfold allocate at ha
  split_ifs at ha <;>
    simp only [Option.some.injEq, Prod.mk.injEq] at ha <;>
    obtain ⟨_, rfl⟩ := ha <;>
    simp only [PlatOK] at hok <;>
    first
      | exact hok
      | exact hok.2

theorem allocHeap_platOK {c : Config} {s s' : State} {plat n p : Nat}
    (ha : allocHeap c plat n s = some (p, s')) (hok : PlatOK s'.log) : PlatOK s.log := by
  unfold allocHeap at ha
  by_cases hn0 : n = 0
  · simp only [hn0, if_true, Option.some.injEq, Prod.mk.injEq] at ha
    obtain ⟨_, rfl⟩ := ha
    exact hok
  · simp only [hn0, if_false] at ha
    by_cases hfast : c.ALLOCROUND n ≤ c.ALLOCFAST
    · simp only [hfast, if_true] at ha
      by_cases hf : s.freeChains (c.ALLOCROUND n / c.ALIGN_SIZE) = 0
      · simp only [hf, ne_eq, not_true, if_false] at ha
        split at ha
        · cases ha
        · rename_i f s2 heq
          simp only [Option.some.injEq, Prod.mk.injEq] at ha
          obtain ⟨_, rfl⟩ := ha
          simp only [PlatOK] at hok
          simpa [PlatOK] using allocate_platOK heq hok
      · simp only [hf, ne_eq, not_false_eq_true, if_true, Option.some.injEq,
          Prod.mk.injEq] at ha
        obtain ⟨_, rfl⟩ := ha
        simpa [PlatOK] using hok
    · simp only [hfast, if_false] at ha
      by_cases hplat : plat = 0
      · simp [hplat] at ha
      · simp only [hplat, if_false, Option.some.injEq, Prod.mk.injEq] at ha
        obtain ⟨_, rfl⟩ := ha
        simp only [PlatOK] at hok
        exact hok.2

theorem inv_of_reach {c : Config} (wf : c.WF) {i s : State} {live : List (Nat × Nat)}
    (hr : Reach c i s live) : PlatOK s.log → ∃ fl, Inv c s live fl := by
  induction hr with
  | init hi => exact fun _ => ⟨[], Inv.init hi⟩
  | alloc _ ha ih =>
    intro hok
    obtain ⟨fl, h⟩ := ih (allocHeap_platOK ha hok)
    exact (allocHeap_inv wf h ha hok).2
  | free _ hq ih =>
    intro hok
    obtain ⟨fl, h⟩ := ih (freeHeap_platOK hok)
    exact freeHeap_inv wf h hq
  | freeNull _ ih =>
    intro hok
    simpa [freeHeap] using ih (by simpa [freeHeap] using hok)

theorem reach_sA : Reach cfg64 s0 sA [(4096, 64)] :=
  Reach.alloc (Reach.init ⟨rfl, rfl, fun _ => rfl, rfl⟩)
    (rfl : allocHeap cfg64 4096 64 s0 = some (4096, sA))

theorem allocHeap_counter {c : Config} (hA : 0 < c.ALIGN_SIZE) {s s' : State}
    {plat n p : Nat} (ha : allocHeap c plat n s = some (p, s')) (hn : 0 < n)
    (hs : s.spacefree = 0 ∨ s.spaceptr ≠ 0) :
    s'.heap = s.heap + (c.ALLOCROUND n : Nat) ∧ p ≠ 0 ∧
      (s'.spacefree = 0 ∨ s'.spaceptr ≠ 0) := by
  have hRpos : 0 < c.ALLOCROUND n := ALLOCROUND_pos c hA hn
  have hn0 : n ≠ 0 := Nat.pos_iff_ne_zero.1 hn
  unfold allocHeap at ha
  simp only [hn0, if_false] at ha
  by_cases hfast : c.ALLOCROUND n ≤ c.ALLOCFAST
  · simp only [hfast, if_true] at ha
    by_cases hf : s.freeChains (c.ALLOCROUND n / c.ALIGN_SIZE) = 0
    · simp only [hf, ne_eq, not_true, if_false] at ha
      unfold allocate at ha
      by_cases hfit : c.ALLOCROUND n ≤ s.spacefree
      · simp only [hfit, if_true, Option.some.injEq, Prod.mk.injEq] at ha
        obtain ⟨rfl, rfl⟩ := ha
        refine ⟨rfl, by omega, Or.inr ?_⟩
        simp only
        omega
      · simp only [hfit, if_false] at ha
        by_cases hplat : plat = 0
        · simp [hplat] at ha
        · simp only [hplat, if_false, Option.some.injEq, Prod.mk.injEq] at ha
          obtain ⟨rfl, rfl⟩ := ha
          refine ⟨?_, hplat, Or.inr ?_⟩
          · split_ifs <;> rfl
          · simp only
            omega
    · simp only [hf, ne_eq, not_false_eq_true, if_true, Option.some.injEq,
        Prod.mk.injEq] at ha
      obtain ⟨rfl, rfl⟩ := ha
      exact ⟨rfl, hf, hs⟩
  · simp only [hfast, if_false] at ha
    by_cases hplat : plat = 0
    · simp [hplat] at ha
    · simp only [hplat, if_false, Option.some.injEq, Prod.mk.injEq] at ha
      obtain ⟨rfl, rfl⟩ := ha
      exact ⟨rfl, hplat, hs⟩

theorem freeHeap_counter (c : Config) (s : State) {p : Nat} (n : Nat) (hp : p ≠ 0) :
    (freeHeap c p n s).heap = s.heap - (c.ALLOCROUND n : Nat) ∧
      (freeHeap c p n s).spacefree = s.spacefree ∧
      (freeHeap c p n s).spaceptr = s.spaceptr := by
  unfold freeHeap
  simp only [hp, if_false]
  split_ifs <;> exact ⟨rfl, rfl, rfl⟩

theorem counter_of_reach {c : Config} (hA : 0 < c.ALIGN_SIZE) {i s : State}
    {live : List (Nat × Nat)} (hr : Reach c i s live) :
    s.heap = i.heap + ((live.map (fun q => c.ALLOCROUND q.2)).sum : Nat) ∧
      (s.spacefree = 0 ∨ s.spaceptr ≠ 0) ∧ ∀ q ∈ live, q.1 ≠ 0 := by
  induction hr with
  | init hi => exact ⟨by simp, Or.inl hi.2.1, fun q hq => by cases hq⟩
  | @alloc s s' live plat n p _ ha ih =>
    obtain ⟨h1, h2, h3⟩ := ih
    by_cases hn0 : n = 0
    · have h4 := ha
      simp only [hn0, allocHeap, if_true, Option.some.injEq, Prod.mk.injEq] at h4
      obtain ⟨_, rfl⟩ := h4
      simp only [hn0, if_true]
      exact ⟨h1, h2, h3⟩
    · obtain ⟨h4, h5, h6⟩ := allocHeap_counter hA ha (Nat.pos_of_ne_zero hn0) h2
      simp only [hn0, if_false]
      refine ⟨?_, h6, ?_⟩
      · rw [h4, h1]
        simp only [List.map_cons, List.sum_cons]
        push_cast
        ring
      · intro q hq
        rcases List.mem_cons.1 hq with rfl | hq
        · exact h5
        · exact h3 q hq
  | @free s live p n _ hq ih =>
    obtain ⟨h1, h2, h3⟩ := ih
    obtain ⟨h4, h5, h6⟩ := freeHeap_counter c s n (h3 _ hq)
    refine ⟨?_, by rw [h5, h6]; exact h2, fun q hq' => h3 q (List.mem_of_mem_erase hq')⟩
    have h7 := sum_map_erase_pair (fun q : Nat × Nat => c.ALLOCROUND q.2) hq
    rw [h4, h1, h7]
    push_cast
    ring
  | freeNull _ ih => simpa [freeHeap] using ih

theorem allocate_platAligned {c : Config} {s s' : State} {plat n p al : Nat}
    (ha : allocate c plat n s = some (p, s')) (hok : PlatAligned al s'.log) :
    PlatAligned al s.log := by
  unfold allocate at ha
  split_ifs at ha <;>
    simp only [Option.some.injEq, Prod.mk.injEq] at ha <;>
    obtain ⟨_, rfl⟩ := ha <;>
    simp only [PlatAligned] at hok <;>
    first
      | exact hok
      | exact hok.2

theorem allocHeap_platAligned {c : Config} {s s' : State} {plat n p al : Nat}
    (ha : allocHeap c plat n s = some (p, s')) (hok : PlatAligned al s'.log) :
    PlatAligned al s.log := by
  unfold allocHeap at ha
  by_cases hn0 : n = 0
  · simp only [hn0, if_true, Option.some.injEq, Prod.mk.injEq] at ha
    obtain ⟨_, rfl⟩ := ha
    exact hok
  · simp only [hn0, if_false] at ha
    by_cases hfast : c.ALLOCROUND n ≤ c.ALLOCFAST
    · simp only [hfast, if_true] at ha
      by_cases hf : s.freeChains (c.ALLOCROUND n / c.ALIGN_SIZE) = 0
      · simp only [hf, ne_eq, not_true, if_false] at ha
        split at ha
        · cases ha
        · rename_i f s2 heq
          simp only [Option.some.injEq, Prod.mk.injEq] at ha
          obtain ⟨_, rfl⟩ := ha
          simp only [PlatAligned] at hok
          simpa [PlatAligned] using allocate_platAligned heq hok
      · simp only [hf, ne_eq, not_false_eq_true, if_true, Option.some.injEq,
          Prod.mk.injEq] at ha
        obtain ⟨_, rfl⟩ := ha
        simpa [PlatAligned] using hok
    · simp only [hfast, if_false] at ha
      by_cases hplat : plat = 0
      · simp [hplat] at ha
      · simp only [hplat, if_false, Option.some.injEq, Prod.mk.injEq] at ha
        obtain ⟨_, rfl⟩ := ha
        simp only [PlatAligned] at hok
        exact hok

theorem freeHeap_platAligned {c : Config} {s : State} {p n al : Nat}
    (hok : PlatAligned al (freeHeap c p n s).log) : PlatAligned al s.log := by
  unfold freeHeap at hok
  split_ifs at hok
  · exact hok
  · simpa [PlatAligned] using hok
  · simpa [PlatAligned] using hok

theorem AlignInv.pushAligned {c : Config} {s s' : State} {live live' : List (Nat × Nat)}
    (h : AlignInv c s live) {x m : Nat} (hx : c.ALIGN_SIZE ∣ x)
    (hmem : s'.mem = Function.update s.mem x (s.freeChains m))
    (hfc : s'.freeChains = Function.update s.freeChains m x)
    (hsp : c.ALIGN_SIZE ∣ s'.spaceptr) (hsf : c.ALIGN_SIZE ∣ s'.spacefree)
    (hlive : ∀ q ∈ live', q ∈ live) : AlignInv c s' live' := by
  obtain ⟨_, _, h3, W, hW0, hWh, hWc⟩ := h
  refine ⟨hsp, hsf, fun q hq => h3 q (hlive q hq), fun y => W y ∨ y = x, Or.inl hW0, ?_, ?_⟩
  · intro k
    rw [hfc]
    by_cases hk : k = m
    · subst hk
      simp
    · rw [Function.update_noteq hk]
      exact Or.inl (hWh k)
  · intro y hy
    rw [hmem]
    by_cases hyx : y = x
    · subst hyx
      refine ⟨hx, fun _ => ?_⟩
      simp only [Function.update_same]
      exact Or.inl (hWh m)
    · rw [Function.update_noteq hyx]
      rcases hy with hy | hy
      · exact ⟨(hWc y hy).1, fun h0 => Or.inl ((hWc y hy).2 h0)⟩
      · exact absurd hy hyx

theorem AlignInv.congr {c : Config} {s s' : State} {live live' : List (Nat × Nat)}
    (h : AlignInv c s live) (hmem : s'.mem = s.mem) (hfc : s'.freeChains = s.freeChains)
    (hsp : c.ALIGN_SIZE ∣ s'.spaceptr) (hsf : c.ALIGN_SIZE ∣ s'.spacefree)
    (hlive : ∀ q ∈ live', c.ALLOCROUND q.2 ≤ c.ALLOCFAST → c.ALIGN_SIZE ∣ q.1) :
    AlignInv c s' live' := by
  obtain ⟨_, _, _, W, hW0, hWh, hWc⟩ := h
  exact ⟨hsp, hsf, hlive, W, hW0, by rw [hfc]; exact hWh, by rw [hmem]; exact hWc⟩

theorem allocHeap_align {c : Config} (hdvd : c.ALIGN_SIZE ∣ c.ALLOCSIZE) {s s' : State}
    {live : List (Nat × Nat)} {plat n p : Nat} (h : AlignInv c s live)
    (ha : allocHeap c plat n s = some (p, s')) (hal : PlatAligned c.ALIGN_SIZE s'.log) :
    AlignInv c s' (if n = 0 then live else (p, n) :: live) ∧
      (c.ALLOCROUND n ≤ c.ALLOCFAST → c.ALIGN_SIZE ∣ p) := by
  have hR : c.ALIGN_SIZE ∣ c.ALLOCROUND n := ROUND_dvd _ _
  have hcons : ∀ {x : Nat}, (c.ALLOCROUND n ≤ c.ALLOCFAST → c.ALIGN_SIZE ∣ x) →
      ∀ q ∈ (x, n) :: live, c.ALLOCROUND q.2 ≤ c.ALLOCFAST → c.ALIGN_SIZE ∣ q.1 := by
    intro x hx q hq hqf
    rcases List.mem_cons.1 hq with rfl | hq
    · exact hx hqf
    · exact h.2.2.1 q hq hqf
  unfold allocHeap at ha
  by_cases hn0 : n = 0
  · simp only [hn0, if_true, Option.some.injEq, Prod.mk.injEq] at ha
    obtain ⟨rfl, rfl⟩ := ha
    exact ⟨by simpa [hn0] using h, fun _ => Nat.dvd_zero _⟩
  · simp only [hn0, if_false] at ha ⊢
    by_cases hfast : c.ALLOCROUND n ≤ c.ALLOCFAST
    · simp only [hfast, if_true] at ha
      by_cases hf : s.freeChains (c.ALLOCROUND n / c.ALIGN_SIZE) = 0
      · simp only [hf, ne_eq, not_true, if_false] at ha
        unfold allocate at ha
        by_cases hfit : c.ALLOCROUND n ≤ s.spacefree
        · simp only [hfit, if_true, Option.some.injEq, Prod.mk.injEq] at ha
          obtain ⟨rfl, rfl⟩ := ha
          exact ⟨h.congr rfl rfl (Nat.dvd_add h.1 hR) (Nat.dvd_sub' h.2.1 hR)
            (hcons fun _ => h.1), fun _ => h.1⟩
        · simp only [hfit, if_false] at ha
          by_cases hplat : plat = 0
          · simp [hplat] at ha
          · simp only [hplat, if_false, Option.some.injEq, Prod.mk.injEq] at ha
            obtain ⟨rfl, rfl⟩ := ha
            have hp : c.ALIGN_SIZE ∣ plat := by
              simp only [PlatAligned] at hal
              exact hal.1
            have hsp : c.ALIGN_SIZE ∣ plat + c.ALLOCROUND n := Nat.dvd_add hp hR
            have hsf : c.ALIGN_SIZE ∣ c.ALLOCSIZE - c.ALLOCROUND n := Nat.dvd_sub' hdvd hR
            refine ⟨?_, fun _ => hp⟩
            by_cases hck : c.sizeofChunk ≤ s.spacefree
            · by_cases hdiv : s.spacefree / c.ALIGN_SIZE ≤ c.ALLOCFAST / c.ALIGN_SIZE
              · simp only [hck, hdiv, if_true]
                have hmid : AlignInv c { s with
                    mem := Function.update s.mem s.spaceptr
                      (s.freeChains (s.spacefree / c.ALIGN_SIZE))
                    freeChains := Function.update s.freeChains
                      (s.spacefree / c.ALIGN_SIZE) s.spaceptr } live :=
                  h.pushAligned h.1 rfl rfl h.1 h.2.1 (fun _ hq => hq)
                exact hmid.congr rfl rfl hsp hsf (hcons fun _ => hp)
              · simp only [hck, hdiv, if_true, if_false]
                exact h.congr rfl rfl hsp hsf (hcons fun _ => hp)
            · simp only [hck, if_false]
              exact h.congr rfl rfl hsp hsf (hcons fun _ => hp)
      · simp only [hf, ne_eq, not_false_eq_true, if_true, Option.some.injEq,
          Prod.mk.injEq] at ha
        obtain ⟨rfl, rfl⟩ := ha
        obtain ⟨h1, h2, h3, W, hW0, hWh, hWc⟩ := h
        have hfa : c.ALIGN_SIZE ∣ s.freeChains (c.ALLOCROUND n / c.ALIGN_SIZE) :=
          (hWc _ (hWh _)).1
        refine ⟨⟨h1, h2, ?_, W, hW0, ?_, ?_⟩, fun _ => hfa⟩
        · intro q hq hqf
          rcases List.mem_cons.1 hq with rfl | hq
          · exact hfa
          · exact h3 q hq hqf
        · intro k
          simp only
          by_cases hk : k = c.ALLOCROUND n / c.ALIGN_SIZE
          · subst hk
            simp only [Function.update_same]
            exact (hWc _ (hWh _)).2 hf
          · rw [Function.update_noteq hk]
            exact hWh k
        · intro y hy
          refine ⟨(hWc y hy).1, fun hy0 => ?_⟩
          simp only
          by_cases hyf : y = s.freeChains (c.ALLOCROUND n / c.ALIGN_SIZE)
          · rw [hyf]
            simp only [Function.update_same]
            exact hW0
          · rw [Function.update_noteq hyf]
            exact (hWc y hy).2 hy0
    · simp only [hfast, if_false] at ha
      by_cases hplat : plat = 0
      · simp [hplat] at ha
      · simp only [hplat, if_false, Option.some.injEq, Prod.mk.injEq] at ha
        obtain ⟨rfl, rfl⟩ := ha
        exact ⟨h.congr rfl rfl h.1 h.2.1 (hcons fun hc => absurd hc hfast),
          fun hc => absurd hc hfast⟩

theorem freeHeap_align {c : Config} {s : State} {live : List (Nat × Nat)} {p n : Nat}
    (h : AlignInv c s live) (hq : (p, n) ∈ live) :
    AlignInv c (freeHeap c p n s) (live.erase (p, n)) := by
  unfold freeHeap
  split_ifs with hp hfast
  · exact h.congr rfl rfl h.1 h.2.1
      (fun q hq' => h.2.2.1 q (List.mem_of_mem_erase hq'))
  · exact h.pushAligned (h.2.2.1 _ hq hfast) rfl rfl h.1 h.2.1
      (fun q hq' => List.mem_of_mem_erase hq')
  · exact h.congr rfl rfl h.1 h.2.1
      (fun q hq' => h.2.2.1 q (List.mem_of_mem_erase hq'))

theorem align_of_reach {c : Config} (hdvd : c.ALIGN_SIZE ∣ c.ALLOCSIZE) {i s : State}
    {live : List (Nat × Nat)} (hr : Reach c i s live) :
    PlatAligned c.ALIGN_SIZE s.log → AlignInv c s live := by
  induction hr with
  | init hi =>
    intro _
    obtain ⟨h1, h2, h3, _⟩ := hi
    refine ⟨by rw [h1]; exact Nat.dvd_zero _, by rw [h2]; exact Nat.dvd_zero _,
      (fun q hq => by cases hq), fun x => x = 0, rfl, h3, ?_⟩
    intro x hx
    exact ⟨by rw [hx]; exact Nat.dvd_zero _, fun h0 => absurd hx h0⟩
  | alloc _ ha ih =>
    intro hal
    exact (allocHeap_align hdvd (ih (allocHeap_platAligned ha hal)) ha hal).1
  | free _ hq ih =>
    intro hal
    exact freeHeap_align (ih (freeHeap_platAligned hal)) hq
  | freeNull _ ih =>
    intro hal
    simpa [freeHeap] using ih (by simpa [freeHeap] using hal)

/-! ## Heap allocator: the claims -/

/-- C1: on the fast path, when `allocHeap(n)` returns `p`, then `freeHeap(p, n)` is called,
then `allocHeap(n)` again, the second call returns the same address `p`, whatever the
platform would answer: the free chain of a size class is a stack.  This holds in every
allocator state in which the first call returned a block, that is `p` is not `NULL`; and the
first call does return a block in every state whose bulk cursor is not `NULL` while bytes
remain in the region, as in all states reachable from the initial one. -/
theorem allocHeap_freeHeap_allocHeap (c : Config) (s s1 : State) (plat plat' n p : Nat)
    (hn : 0 < n) (hfast : c.ALLOCROUND n ≤ c.ALLOCFAST)
    (h1 : allocHeap c plat n s = some (p, s1)) :
    (p ≠ 0 → ∃ s3, allocHeap c plat' n (freeHeap c p n s1) = some (p, s3)) ∧
      (0 < c.ALIGN_SIZE → s.spacefree = 0 ∨ s.spaceptr ≠ 0 → p ≠ 0) := by
  have hn0 : n ≠ 0 := Nat.pos_iff_ne_zero.1 hn
  constructor
  · intro hp
    simp [allocHeap, freeHeap, hn0, hfast, hp]
  · intro hA hs
    exact (allocHeap_counter hA h1 hn hs).2.1

/-- C1, witness: a first block of 64 bytes from a fresh allocator, freed and asked again. -/
theorem allocHeap_freeHeap_allocHeap_witness :
    ∃ s3, allocHeap cfg64 0 64 (freeHeap cfg64 4096 64 sA) = some (4096, s3) :=
  (allocHeap_freeHeap_allocHeap cfg64 s0 sA 4096 0 64 4096 (by decide) (by decide) rfl).1
    (by decide)

/-- C4: `allocHeap(0)` returns `NULL` and leaves the allocator as it was: the usage counter,
the free chains, the bulk cursor, the heap marks and the event log are those of before, so
the lock was not taken. -/
theorem allocHeap_zero (c : Config) (plat : Nat) (s : State) :
    allocHeap c plat 0 s = some (0, s) := by
  simp [allocHeap]

/-- C7: the events of a call of `allocHeap` that returns, and of any call of `freeHeap`,
respect the lock: every access to the shared state happens while `L_ALLOC` is held, the lock
is taken at most once and released as often, and it is not held when the call returns. -/
theorem lock_discipline (c : Config) (s s' : State) (plat n p q k : Nat)
    (ha : allocHeap c plat n s = some (p, s')) :
    (∃ es, s'.log = es ++ s.log ∧ callOK es = true) ∧
      (∃ es, (freeHeap c q k s).log = es ++ s.log ∧ callOK es = true) := by
  constructor
  · unfold allocHeap at ha
    by_cases hn0 : n = 0
    · simp only [hn0, if_true, Option.some.injEq, Prod.mk.injEq] at ha
      obtain ⟨_, rfl⟩ := ha
      exact ⟨[], rfl, rfl⟩
    · simp only [hn0, if_false] at ha
      by_cases hfast : c.ALLOCROUND n ≤ c.ALLOCFAST
      · simp only [hfast, if_true] at ha
        by_cases hf : s.freeChains (c.ALLOCROUND n / c.ALIGN_SIZE) = 0
        · simp only [hf, ne_eq, not_true, if_false] at ha
          unfold allocate at ha
          by_cases hfit : c.ALLOCROUND n ≤ s.spacefree
          · simp only [hfit, if_true, Option.some.injEq, Prod.mk.injEq] at ha
            obtain ⟨_, rfl⟩ := ha
            exact ⟨[_, _, _, _, _, _, _, _, _, _], rfl, rfl⟩
          · simp only [hfit, if_false] at ha
            by_cases hplat : plat = 0
            · simp [hplat] at ha
            · simp only [hplat, if_false, Option.some.injEq, Prod.mk.injEq] at ha
              obtain ⟨_, rfl⟩ := ha
              by_cases hck : c.sizeofChunk ≤ s.spacefree
              · by_cases hdiv : s.spacefree / c.ALIGN_SIZE ≤ c.ALLOCFAST / c.ALIGN_SIZE
                · simp only [hck, hdiv, if_true]
                  exact ⟨[_, _, _, _, _, _, _, _, _, _, _, _, _, _, _, _, _], rfl, rfl⟩
                · simp only [hck, hdiv, if_true, if_false]
                  exact ⟨[_, _, _, _, _, _, _, _, _, _, _, _, _], rfl, rfl⟩
              · simp only [hck, if_false]
                exact ⟨[_, _, _, _, _, _, _, _, _, _, _, _], rfl, rfl⟩
        · simp only [hf, ne_eq, not_false_eq_true, if_true, Option.some.injEq,
            Prod.mk.injEq] at ha
          obtain ⟨_, rfl⟩ := ha
          exact ⟨[_, _, _, _, _, _, _], rfl, rfl⟩
      · simp only [hfast, if_false] at ha
        by_cases hplat : plat = 0
        · simp [hplat] at ha
        · simp only [hplat, if_false, Option.some.injEq, Prod.mk.injEq] at ha
          obtain ⟨_, rfl⟩ := ha
          exact ⟨[_, _, _, _, _, _], rfl, rfl⟩
  · unfold freeHeap
    by_cases hq : q = 0
    · simp only [hq, if_true]
      exact ⟨[], rfl, rfl⟩
    · simp only [hq, if_false]
      by_cases hfast : c.ALLOCROUND k ≤ c.ALLOCFAST
      · simp only [hfast, if_true]
        exact ⟨[_, _, _, _, _, _], rfl, rfl⟩
      · simp only [hfast, if_false]
        exact ⟨[_, _, _, _], rfl, rfl⟩

/-- C7, witness: the first allocation of a fresh allocator, which asks the platform for a
bulk region, and the release of that block. -/
theorem lock_discipline_witness :
    (∃ es, (stateOf (allocHeap cfg64 4096 64 s0) s0).log = es ++ s0.log ∧ callOK es = true) ∧
      (∃ es, (freeHeap cfg64 4096 64 s0).log = es ++ s0.log ∧ callOK es = true) :=
  lock_discipline cfg64 s0 (stateOf (allocHeap cfg64 4096 64 s0) s0) 4096 64 4096 4096 64 rfl

/-- C5: in every state reachable from the initial one, the usage counter equals its initial
value plus the sum of `ALLOCROUND(n)` over the live blocks; and `allocHeap(n)` followed by
`freeHeap(p, n)` of the block it returned restores the counter, on the fast path and on the
large path alike. -/
theorem usage_counter (c : Config) (hA : 0 < c.ALIGN_SIZE) {i s : State}
    {live : List (Nat × Nat)} (hr : Reach c i s live) :
    s.heap = i.heap + ((live.map (fun q => c.ALLOCROUND q.2)).sum : Nat) ∧
      ∀ plat n p s1, allocHeap c plat n s = some (p, s1) →
        (freeHeap c p n s1).heap = s.heap := by
  obtain ⟨h1, h2, _⟩ := counter_of_reach hA hr
  refine ⟨h1, ?_⟩
  intro plat n p s1 ha
  by_cases hn0 : n = 0
  · simp only [hn0, allocHeap, if_true, Option.some.injEq, Prod.mk.injEq] at ha
    obtain ⟨rfl, rfl⟩ := ha
    simp [freeHeap]
  · obtain ⟨h4, h5, _⟩ := allocHeap_counter hA ha (Nat.pos_of_ne_zero hn0) h2
    rw [(freeHeap_counter c s1 n h5).1, h4]
    ring

/-- C5, witness: one live block of 64 bytes. -/
theorem usage_counter_witness :
    sA.heap = s0.heap + (([((4096 : Nat), (64 : Nat))].map
        (fun q => cfg64.ALLOCROUND q.2)).sum : Nat) ∧
      ∀ plat n p s1, allocHeap cfg64 plat n sA = some (p, s1) →
        (freeHeap cfg64 p n s1).heap = sA.heap :=
  usage_counter cfg64 (by decide) reach_sA

/-- Alignment and rounding in unbounded numbers: the fast-path address is a multiple of
`ALIGN_SIZE`, `ALLOCROUND(n)` is the least multiple of `ALIGN_SIZE` that is at least `n`, a
fresh block moves the cursor by `ALLOCROUND(n)`, a reused block is the head of its chain. -/
theorem alignment_unbounded (c : Config) (hA : 0 < c.ALIGN_SIZE)
    (hdvd : c.ALIGN_SIZE ∣ c.ALLOCSIZE) {i s s' : State} {live : List (Nat × Nat)}
    {plat n p : Nat} (hr : Reach c i s live) (ha : allocHeap c plat n s = some (p, s'))
    (hal : PlatAligned c.ALIGN_SIZE s'.log) (hn : 0 < n)
    (hfast : c.ALLOCROUND n ≤ c.ALLOCFAST) :
    c.ALIGN_SIZE ∣ p ∧
      (c.ALIGN_SIZE ∣ c.ALLOCROUND n ∧ n ≤ c.ALLOCROUND n ∧
        ∀ k, c.ALIGN_SIZE ∣ k → n ≤ k → c.ALLOCROUND n ≤ k) ∧
      (s.freeChains (c.ALLOCROUND n / c.ALIGN_SIZE) = 0 →
        s'.spaceptr = p + c.ALLOCROUND n ∧ (p = s.spaceptr ∨ p = plat)) ∧
      (s.freeChains (c.ALLOCROUND n / c.ALIGN_SIZE) ≠ 0 →
        p = s.freeChains (c.ALLOCROUND n / c.ALIGN_SIZE) ∧
          c.ALLOCROUND n / c.ALIGN_SIZE * c.ALIGN_SIZE = c.ALLOCROUND n) ∧
      (c.WF → PlatOK s'.log → ∃ fl, Inv c s' ((p, n) :: live) fl) := by
  have hn0 : n ≠ 0 := Nat.pos_iff_ne_zero.1 hn
  have hinv := align_of_reach hdvd hr (allocHeap_platAligned ha hal)
  refine ⟨(allocHeap_align hdvd hinv ha hal).2 hfast,
    ⟨ROUND_dvd _ _, ROUND_ge n hA, fun k hk hnk => ROUND_least n hA hk hnk⟩, ?_, ?_, ?_⟩
  · intro hf
    have h2 := ha
    simp only [allocHeap, hn0, if_false, hfast, if_true, hf, ne_eq, not_true] at h2
    unfold allocate at h2
    by_cases hfit : c.ALLOCROUND n ≤ s.spacefree
    · simp only [hfit, if_true, Option.some.injEq, Prod.mk.injEq] at h2
      obtain ⟨rfl, rfl⟩ := h2
      exact ⟨rfl, Or.inl rfl⟩
    · simp only [hfit, if_false] at h2
      by_cases hplat : plat = 0
      · simp [hplat] at h2
      · simp only [hplat, if_false, Option.some.injEq, Prod.mk.injEq] at h2
        obtain ⟨rfl, rfl⟩ := h2
        exact ⟨rfl, Or.inr rfl⟩
  · intro hf
    have h2 := ha
    simp only [allocHeap, hn0, if_false, hfast, if_true, hf, ne_eq, not_false_eq_true,
      Option.some.injEq, Prod.mk.injEq] at h2
    exact ⟨h2.1.symm, ALLOCROUND_div_mul c n⟩
  · intro wf hok
    have h3 := inv_of_reach wf (Reach.alloc hr ha) hok
    simpa [hn0] using h3

/-! ## Tagged pointers: auxiliary facts and the claims -/

theorem unsignedOffset_of_le (L : Layout) {p ts : Nat} (hp : p < 2 ^ L.bits)
    (hb : L.base_addresses (ts &&& L.STG_MASK) ≤ p) :
    unsignedOffset L p ts = p - L.base_addresses (ts &&& L.STG_MASK) := by
  unfold unsignedOffset
  generalize L.base_addresses (ts &&& L.STG_MASK) = b at *
  generalize 2 ^ L.bits = M at *
  have hb' : b % M = b := Nat.mod_eq_of_lt (lt_of_le_of_lt hb hp)
  have hp' : p % M = p := Nat.mod_eq_of_lt hp
  rw [hp', hb']
  have h1 : p + (M - b) = (p - b) + M := by omega
  rw [h1, Nat.add_mod_right]
  exact Nat.mod_eq_of_lt (by omega)

theorem unsignedOffset_of_lt (L : Layout) {p ts : Nat}
    (hb : L.base_addresses (ts &&& L.STG_MASK) < 2 ^ L.bits)
    (hp : p < L.base_addresses (ts &&& L.STG_MASK)) :
    unsignedOffset L p ts = 2 ^ L.bits - (L.base_addresses (ts &&& L.STG_MASK) - p) := by
  unfold unsignedOffset
  generalize L.base_addresses (ts &&& L.STG_MASK) = b at *
  generalize 2 ^ L.bits = M at *
  have hb' : b % M = b := Nat.mod_eq_of_lt hb
  have hp' : p % M = p := Nat.mod_eq_of_lt (lt_trans hp hb)
  rw [hp', hb']
  have h1 : p + (M - b) = M - (b - p) := by omega
  rw [h1]
  exact Nat.mod_eq_of_lt (by omega)

theorem consPtr_eq (L : Layout) (p ts : Nat) :
    consPtr L p ts =
      if unsignedOffset L p ts < L.MAXTAGGEDPTR then
        some (((unsignedOffset L p ts <<< 5) % 2 ^ L.bits) ||| ts)
      else none := rfl

theorem tag_word (L : Layout) (hbits : 5 ≤ L.bits) {v ts : Nat} (hv : v < 2 ^ (L.bits - 5))
    (hts : ts < 32) :
    ((v <<< 5) % 2 ^ L.bits) ||| ts = 32 * v + ts := by
  have hpow : 2 ^ L.bits = 2 ^ (L.bits - 5) * 32 := by
    rw [show (32 : Nat) = 2 ^ 5 by norm_num, ← pow_add]
    congr 1
    omega
  have hlt : v <<< 5 < 2 ^ L.bits := by
    rw [Nat.shiftLeft_eq, hpow]
    norm_num
    exact hv
  rw [Nat.mod_eq_of_lt hlt, Nat.shiftLeft_eq]
  have h2 := Nat.mul_add_lt_is_or (i := 5) (b := ts) (by norm_num; exact hts) v
  norm_num at h2 ⊢
  rw [Nat.mul_comm v 32]
  exact h2.symm

theorem and_31 (w : Nat) : w &&& 0x1f = w % 32 := by
  have h := Nat.and_pow_two_sub_one_eq_mod w 5
  norm_num at h
  exact h

theorem and_mask (L : Layout) (hmask : L.STG_MASK < 32) {w ts : Nat}
    (h : w &&& 0x1f = ts) : w &&& L.STG_MASK = ts &&& L.STG_MASK := by
  have h1 : L.STG_MASK &&& 0x1f = L.STG_MASK := by
    rw [and_31]
    exact Nat.mod_eq_of_lt hmask
  have h2 : 0x1f &&& L.STG_MASK = L.STG_MASK := by
    rw [Nat.and_comm]
    exact h1
  calc w &&& L.STG_MASK = w &&& (0x1f &&& L.STG_MASK) := by rw [h2]
    _ = (w &&& 0x1f) &&& L.STG_MASK := (Nat.and_assoc _ _ _).symm
    _ = ts &&& L.STG_MASK := by rw [h]

theorem consPtr_decode (L : Layout) (hbits : 5 ≤ L.bits)
    (hmax : L.MAXTAGGEDPTR ≤ 2 ^ (L.bits - 5)) (hmask : L.STG_MASK < 32) {p ts : Nat}
    (hts : ts < 32) (hp : p < 2 ^ L.bits) (hbase : L.base_addresses (ts &&& L.STG_MASK) ≤ p)
    (hoff : p - L.base_addresses (ts &&& L.STG_MASK) < L.MAXTAGGEDPTR) :
    ∃ w, consPtr L p ts = some w ∧ w &&& 0x1f = ts ∧
      (w >>> 5) + L.base_addresses (w &&& L.STG_MASK) = p := by
  have hv := unsignedOffset_of_le L hp hbase
  have hw := tag_word L hbits (lt_of_lt_of_le hoff hmax) hts
  refine ⟨32 * (p - L.base_addresses (ts &&& L.STG_MASK)) + ts, ?_, ?_, ?_⟩
  · rw [consPtr_eq, hv, if_pos hoff, hw]
  · rw [and_31]
    omega
  · have h1 : (32 * (p - L.base_addresses (ts &&& L.STG_MASK)) + ts) &&& 0x1f = ts := by
      rw [and_31]
      omega
    rw [and_mask L hmask h1, Nat.shiftRight_eq_div_pow]
    norm_num
    omega

/-- C8: for a tag and storage value `ts < 32` and an address `p` at or above the base address
of its storage class with an offset below `MAXTAGGEDPTR`, `consPtr(p, ts)` returns a word `w`
that decodes back exactly: `w & 0x1f` is `ts` and `(w >> 5) + base_addresses[w & STG_MASK]` is
`p`; hence no other in-range pair of address and class is encoded as the same word. -/
theorem consPtr_roundtrip (L : Layout) (hbits : 5 ≤ L.bits)
    (hmax : L.MAXTAGGEDPTR ≤ 2 ^ (L.bits - 5)) (hmask : L.STG_MASK < 32) (p ts : Nat)
    (hts : ts < 32) (hp : p < 2 ^ L.bits) (hbase : L.base_addresses (ts &&& L.STG_MASK) ≤ p)
    (hoff : p - L.base_addresses (ts &&& L.STG_MASK) < L.MAXTAGGEDPTR) :
    ∃ w, consPtr L p ts = some w ∧ w &&& 0x1f = ts ∧
      (w >>> 5) + L.base_addresses (w &&& L.STG_MASK) = p ∧
      ∀ p' ts', ts' < 32 → p' < 2 ^ L.bits →
        L.base_addresses (ts' &&& L.STG_MASK) ≤ p' →
        p' - L.base_addresses (ts' &&& L.STG_MASK) < L.MAXTAGGEDPTR →
        consPtr L p' ts' = some w → p' = p ∧ ts' = ts := by
  obtain ⟨w, h1, h2, h3⟩ := consPtr_decode L hbits hmax hmask hts hp hbase hoff
  refine ⟨w, h1, h2, h3, ?_⟩
  intro p' ts' hts' hp' hbase' hoff' heq
  obtain ⟨w', h1', h2', h3'⟩ := consPtr_decode L hbits hmax hmask hts' hp' hbase' hoff'
  rw [heq] at h1'
  cases h1'
  exact ⟨h3'.symm.trans h3, h2'.symm.trans h2⟩

/-- C8, witness: a string reference to address `0x20000` of the global stack. -/
theorem consPtr_roundtrip_witness :
    ∃ w, consPtr layout64 0x20000 0x0d = some w ∧ w &&& 0x1f = 0x0d ∧
      (w >>> 5) + layout64.base_addresses (w &&& layout64.STG_MASK) = 0x20000 ∧
      ∀ p' ts', ts' < 32 → p' < 2 ^ layout64.bits →
        layout64.base_addresses (ts' &&& layout64.STG_MASK) ≤ p' →
        p' - layout64.base_addresses (ts' &&& layout64.STG_MASK) < layout64.MAXTAGGEDPTR →
        consPtr layout64 p' ts' = some w → p' = 0x20000 ∧ ts' = 0x0d :=
  consPtr_roundtrip layout64 (by decide) (by decide) (by decide) 0x20000 0x0d (by decide)
    (by decide) (by decide) (by decide)

/-- C9, as stated, fails: with 32-bit words, `MAXTAGGEDPTR = 2^27 - 1` and a base address of
`0xF9000000`, the address `0x100` lies below the base, yet the unsigned subtraction wraps to
the offset `0x07000100`, the assertion holds and a word is returned. -/
theorem consPtr_below_base_accepted :
    0x100 < layout32.base_addresses (0x08 &&& layout32.STG_MASK) ∧
      consPtr layout32 0x100 0x08 = some 0xE0002008 := by
  decide

/-- C9, amended: `consPtr(p, ts)` is rejected whenever the offset computed in unsigned
arithmetic is `MAXTAGGEDPTR` or more; this is so for every `p` at or above the base whose
offset is `MAXTAGGEDPTR` or more, and for every `p` below the base by at most
`2 ^ bits - MAXTAGGEDPTR`; and a word that is returned holds the whole offset above its five
low bits, so that the shift has dropped nothing. -/
theorem consPtr_rejects (L : Layout) (hbits : 5 ≤ L.bits)
    (hmax : L.MAXTAGGEDPTR ≤ 2 ^ (L.bits - 5)) (p ts : Nat) (hts : ts < 32) :
    (L.MAXTAGGEDPTR ≤ unsignedOffset L p ts → consPtr L p ts = none) ∧
      (p < 2 ^ L.bits → L.base_addresses (ts &&& L.STG_MASK) ≤ p →
        L.MAXTAGGEDPTR ≤ p - L.base_addresses (ts &&& L.STG_MASK) → consPtr L p ts = none) ∧
      (L.base_addresses (ts &&& L.STG_MASK) < 2 ^ L.bits →
        p < L.base_addresses (ts &&& L.STG_MASK) →
        L.base_addresses (ts &&& L.STG_MASK) - p ≤ 2 ^ L.bits - L.MAXTAGGEDPTR →
        consPtr L p ts = none) ∧
      ∀ w, consPtr L p ts = some w →
        unsignedOffset L p ts < L.MAXTAGGEDPTR ∧ w >>> 5 = unsignedOffset L p ts ∧
          w &&& 0x1f = ts := by
  have hrej : L.MAXTAGGEDPTR ≤ unsignedOffset L p ts → consPtr L p ts = none := by
    intro h
    rw [consPtr_eq, if_neg (not_lt.2 h)]
  refine ⟨hrej, ?_, ?_, ?_⟩
  · intro hp hb h
    exact hrej (by rw [unsignedOffset_of_le L hp hb]; exact h)
  · intro hb hp h
    refine hrej ?_
    rw [unsignedOffset_of_lt L hb hp]
    omega
  · intro w hw
    rw [consPtr_eq] at hw
    by_cases hv : unsignedOffset L p ts < L.MAXTAGGEDPTR
    · rw [if_pos hv, tag_word L hbits (lt_of_lt_of_le hv hmax) hts] at hw
      cases hw
      refine ⟨hv, ?_, ?_⟩
      · rw [Nat.shiftRight_eq_div_pow]
        norm_num
        omega
      · rw [and_31]
        omega
    · rw [if_neg hv] at hw
      cases hw

/-- C9, witness of the amended claim: with 64-bit words and the base at `0x10000`, the
address `2^59` bytes above the base is rejected. -/
theorem consPtr_rejects_witness :
    (layout64.MAXTAGGEDPTR ≤ unsignedOffset layout64 (0x10000 + 2 ^ 59) 0x0d →
        consPtr layout64 (0x10000 + 2 ^ 59) 0x0d = none) ∧
      (0x10000 + 2 ^ 59 < 2 ^ layout64.bits →
        layout64.base_addresses (0x0d &&& layout64.STG_MASK) ≤ 0x10000 + 2 ^ 59 →
        layout64.MAXTAGGEDPTR ≤
          0x10000 + 2 ^ 59 - layout64.base_addresses (0x0d &&& layout64.STG_MASK) →
        consPtr layout64 (0x10000 + 2 ^ 59) 0x0d = none) ∧
      (layout64.base_addresses (0x0d &&& layout64.STG_MASK) < 2 ^ layout64.bits →
        0x10000 + 2 ^ 59 < layout64.base_addresses (0x0d &&& layout64.STG_MASK) →
        layout64.base_addresses (0x0d &&& layout64.STG_MASK) - (0x10000 + 2 ^ 59)
          ≤ 2 ^ layout64.bits - layout64.MAXTAGGEDPTR →
        consPtr layout64 (0x10000 + 2 ^ 59) 0x0d = none) ∧
      ∀ w, consPtr layout64 (0x10000 + 2 ^ 59) 0x0d = some w →
        unsignedOffset layout64 (0x10000 + 2 ^ 59) 0x0d < layout64.MAXTAGGEDPTR ∧
          w >>> 5 = unsignedOffset layout64 (0x10000 + 2 ^ 59) 0x0d ∧ w &&& 0x1f = 0x0d :=
  consPtr_rejects layout64 (by decide) (by decide) (0x10000 + 2 ^ 59) 0x0d (by decide)

/-! ## Strings on the global stack: auxiliary facts and the claims -/

theorem storeBytes_outside (mem : Nat → Nat) :
    ∀ (bs : List Nat) (a x : Nat), x < a ∨ a + bs.length ≤ x → storeBytes mem a bs x = mem x
  | [], _, _, _ => rfl
  | b :: bs, a, x, h => by
      have hne : x ≠ a := by
        simp only [List.length_cons] at h
        omega
      have ih := storeBytes_outside mem bs (a + 1) x (by
        simp only [List.length_cons] at h
        omega)
      simp only [storeBytes, Function.update_noteq hne, ih]

theorem loadBytes_congr {m1 m2 : Nat → Nat} :
    ∀ (k a : Nat), (∀ x, a ≤ x → x < a + k → m1 x = m2 x) →
      loadBytes m1 a k = loadBytes m2 a k
  | 0, _, _ => rfl
  | k + 1, a, h => by
      simp only [loadBytes]
      rw [h a (le_refl _) (by omega),
        loadBytes_congr k (a + 1) (fun x h1 h2 => h x (by omega) (by omega))]

theorem loadBytes_storeBytes (mem : Nat → Nat) :
    ∀ (bs : List Nat) (a : Nat), loadBytes (storeBytes mem a bs) a bs.length = bs
  | [], _ => rfl
  | b :: bs, a => by
      simp only [storeBytes, List.length_cons, loadBytes, Function.update_same]
      have h : loadBytes (Function.update (storeBytes mem (a + 1) bs) a b) (a + 1) bs.length
          = loadBytes (storeBytes mem (a + 1) bs) (a + 1) bs.length :=
        loadBytes_congr bs.length (a + 1)
          (fun x h1 _ => Function.update_noteq (by omega) _ _)
      rw [h, loadBytes_storeBytes mem bs (a + 1)]

theorem toBytesLE_length : ∀ (k v : Nat), (toBytesLE k v).length = k
  | 0, _ => rfl
  | k + 1, v => by simp [toBytesLE, toBytesLE_length k]

theorem ofBytesLE_toBytesLE : ∀ (k v : Nat), ofBytesLE (toBytesLE k v) = v % 256 ^ k
  | 0, v => by simp [toBytesLE, ofBytesLE, Nat.mod_one]
  | k + 1, v => by
      simp only [toBytesLE, ofBytesLE, ofBytesLE_toBytesLE k]
      rw [pow_succ', Nat.mod_mul]

theorem wordBytes_length (L : Layout) (v : Nat) : (wordBytes L v).length = L.wordSize := by
  unfold wordBytes
  split_ifs <;> simp [toBytesLE_length]

theorem wordOfBytes_wordBytes (L : Layout) {v : Nat} (hv : v < 2 ^ L.bits) :
    wordOfBytes L (wordBytes L v) = v := by
  have h256 : (256 : Nat) ^ L.wordSize = 2 ^ L.bits := by
    rw [Layout.bits, pow_mul]
    norm_num
  have h1 : ofBytesLE (toBytesLE L.wordSize v) = v := by
    rw [ofBytesLE_toBytesLE, h256]
    exact Nat.mod_eq_of_lt hv
  unfold wordOfBytes wordBytes
  split_ifs <;> simp [h1]

theorem loadWord_storeWord (L : Layout) (mem : Nat → Nat) (a : Nat) {v : Nat}
    (hv : v < 2 ^ L.bits) : loadWord L (storeWord L mem a v) a = v := by
  unfold loadWord storeWord
  have h := loadBytes_storeBytes mem (wordBytes L v) a
  rw [wordBytes_length] at h
  rw [h, wordOfBytes_wordBytes L hv]

theorem loadWord_storeBytes (L : Layout) (mem : Nat → Nat) (bs : List Nat) {a b : Nat}
    (h : a + L.wordSize ≤ b) : loadWord L (storeBytes mem b bs) a = loadWord L mem a := by
  unfold loadWord
  rw [loadBytes_congr L.wordSize a
    (fun x _ h2 => storeBytes_outside mem bs b x (Or.inl (by omega)))]

theorem loadWord_storeWord_other (L : Layout) (mem : Nat → Nat) (v : Nat) {a b : Nat}
    (h : a + L.wordSize ≤ b) : loadWord L (storeWord L mem b v) a = loadWord L mem a :=
  loadWord_storeBytes L mem _ h

theorem string_words (W l : Nat) (hW : 0 < W) :
    l < (l + W) / W * W ∧ (l + W) / W * W ≤ l + W ∧ 1 ≤ (l + W) / W := by
  have h1 := Nat.div_add_mod (l + W) W
  have h2 := Nat.mod_lt (l + W) hW
  have h3 : (l + W) / W * W = W * ((l + W) / W) := Nat.mul_comm _ _
  exact ⟨by omega, by omega, Nat.div_pos (by omega) hW⟩

/-! ## Stack reservation and stack overflow: the claims -/

/-- C13: when the global stack has room for `n` words, `allocGlobal(n)` returns the old top
and leaves the top `n` words higher, so not lower than before; the growth hook is not called
(the list of calls is unchanged), and the base, the limit and the memory of the stack are
those of before. -/
theorem allocGlobal_room (L : Layout) (grow : LD → LD) (n : Nat) (ld : LD)
    (hroom : n ≤ roomStack ld / L.wordSize) :
    ∃ ld', allocGlobal L grow n ld = Res.ret ld.gTop ld' ∧
      ld'.gTop = ld.gTop + n * L.wordSize ∧ ld.gTop ≤ ld'.gTop ∧
      ld'.gBase = ld.gBase ∧ ld'.gMax = ld.gMax ∧ ld'.calls = ld.calls ∧
      ld'.mem = ld.mem := by
  refine ⟨{ ld with gTop := ld.gTop + n * L.wordSize }, ?_, rfl, Nat.le_add_right _ _, rfl,
    rfl, rfl, rfl⟩
  unfold allocGlobal
  rw [if_neg (not_lt.2 hroom)]

/-- C13, witness: three words on an empty stack of 512 words. -/
theorem allocGlobal_room_witness :
    ∃ ld', allocGlobal layout64 id 3 ld0 = Res.ret ld0.gTop ld' ∧
      ld'.gTop = ld0.gTop + 3 * layout64.wordSize ∧ ld0.gTop ≤ ld'.gTop ∧
      ld'.gBase = ld0.gBase ∧ ld'.gMax = ld0.gMax ∧ ld'.calls = ld0.calls ∧
      ld'.mem = ld0.mem :=
  allocGlobal_room layout64 id 3 ld0 (by decide)

/-- C14: when the global stack has room for fewer than `n` words, `allocGlobal(n)` calls the
growth hook once (the hook itself adds nothing to the list of calls).  If there is room
afterwards, it returns the top that the hook left and advances it by `n` words.  If there is
still no room, the call ends in the state that one `outOfStack` for the global stack with
`STACK_OVERFLOW_FATAL` leaves: aborted, with the top where the hook left it, `LD->outofstack`
naming the global stack, and one warning and one `pl_abort` after the one `growStacks`; it
returns nothing to the caller. -/
theorem allocGlobal_no_room (L : Layout) (grow : LD → LD) (n : Nat) (ld : LD)
    (hroom : roomStack ld / L.wordSize < n) (hgrow : ∀ x, (grow x).calls = x.calls) :
    (n ≤ roomStack (grow { ld with calls := Ext.growStacks :: ld.calls }) / L.wordSize →
      ∃ ld', allocGlobal L grow n ld
          = Res.ret (grow { ld with calls := Ext.growStacks :: ld.calls }).gTop ld' ∧
        ld'.gTop = (grow { ld with calls := Ext.growStacks :: ld.calls }).gTop
          + n * L.wordSize ∧
        ld'.calls = Ext.growStacks :: ld.calls) ∧
      (roomStack (grow { ld with calls := Ext.growStacks :: ld.calls }) / L.wordSize < n →
        ∃ ld', allocGlobal L grow n ld = Res.stop Stop.aborted ld' ∧
          outOfStack StackId.global Overflow.STACK_OVERFLOW_FATAL
              (grow { ld with calls := Ext.growStacks :: ld.calls })
            = Res.stop Stop.aborted ld' ∧
          ld'.gTop = (grow { ld with calls := Ext.growStacks :: ld.calls }).gTop ∧
          ld'.outofstack = some StackId.global ∧
          ld'.calls
            = Ext.pl_abort :: Ext.warning StackId.global :: Ext.growStacks :: ld.calls ∧
          ∀ r ld'', allocGlobal L grow n ld ≠ Res.ret r ld'') := by
  constructor
  · intro h2
    refine ⟨{ grow { ld with calls := Ext.growStacks :: ld.calls } with
      gTop := (grow { ld with calls := Ext.growStacks :: ld.calls }).gTop
        + n * L.wordSize }, ?_, rfl, ?_⟩
    · unfold allocGlobal
      rw [if_pos hroom]
      simp only [if_neg (not_lt.2 h2)]
    · simp only [hgrow]
  · intro h2
    have hcall : allocGlobal L grow n ld
        = Res.stop Stop.aborted
            { grow { ld with calls := Ext.growStacks :: ld.calls } with
              trim_stack_requested := true
              outofstack := some StackId.global
              calls := Ext.pl_abort :: Ext.warning StackId.global ::
                (grow { ld with calls := Ext.growStacks :: ld.calls }).calls } := by
      unfold allocGlobal
      rw [if_pos hroom]
      simp only [if_pos h2, outOfStack]
    refine ⟨_, hcall, rfl, rfl, rfl, ?_, ?_⟩
    · simp only [hgrow]
    · intro r ld'' hret
      rw [hcall] at hret
      cases hret

/-- C14, witness: a thousand words on a stack of 512 words that the hook cannot grow; the
call aborts after one `growStacks`, one warning and one `pl_abort`. -/
theorem allocGlobal_no_room_witness :
    ∃ ld', allocGlobal layout64 id 1000 ld0 = Res.stop Stop.aborted ld' ∧
      outOfStack StackId.global Overflow.STACK_OVERFLOW_FATAL
          (id { ld0 with calls := Ext.growStacks :: ld0.calls })
        = Res.stop Stop.aborted ld' ∧
      ld'.gTop = (id { ld0 with calls := Ext.growStacks :: ld0.calls }).gTop ∧
      ld'.outofstack = some StackId.global ∧
      ld'.calls
        = Ext.pl_abort :: Ext.warning StackId.global :: Ext.growStacks :: ld0.calls ∧
      ∀ r ld'', allocGlobal layout64 id 1000 ld0 ≠ Res.ret r ld'' :=
  (allocGlobal_no_room layout64 id 1000 ld0 (by decide) (fun _ => rfl)).2 (by decide)

/-- C15: `outOfStack(s, how)` returns to its caller exactly when `how` is
`STACK_OVERFLOW_SIGNAL`, and then `LD->outofstack` is `s`; under `STACK_OVERFLOW_FATAL` it
warns about `s` and aborts, under `STACK_OVERFLOW_SIGNAL_IMMEDIATELY` it builds the resource
error for `s` and throws it. -/
theorem outOfStack_policies (s : StackId) (how : Overflow) (ld : LD) :
    ((∃ ld', outOfStack s how ld = Res.ret () ld') ↔
        how = Overflow.STACK_OVERFLOW_SIGNAL) ∧
      (∃ ld', outOfStack s Overflow.STACK_OVERFLOW_SIGNAL ld = Res.ret () ld' ∧
        ld'.outofstack = some s) ∧
      (∃ ld', outOfStack s Overflow.STACK_OVERFLOW_FATAL ld = Res.stop Stop.aborted ld' ∧
        ld'.outofstack = some s ∧
        ld'.calls = Ext.pl_abort :: Ext.warning s :: ld.calls) ∧
      (∃ ld', outOfStack s Overflow.STACK_OVERFLOW_SIGNAL_IMMEDIATELY ld
          = Res.stop Stop.thrown ld' ∧
        ld'.calls = Ext.PL_throw :: Ext.PL_unify_term s :: ld.calls) := by
  refine ⟨?_, ⟨_, rfl, rfl⟩, ⟨_, rfl, rfl, rfl⟩, ⟨_, rfl, rfl⟩⟩
  constructor
  · rintro ⟨ld', h⟩
    cases how
    · simp [outOfStack] at h
    · simp [outOfStack] at h
    · rfl
  · rintro rfl
    exact ⟨_, rfl⟩

/-- C16, as stated, fails: with a garbage collection requested, `outOfStack` for the global
stack under `STACK_OVERFLOW_SIGNAL` returns and the request is still pending. -/
theorem outOfStack_signal_keeps_gc_request :
    ∃ ld', outOfStack StackId.global Overflow.STACK_OVERFLOW_SIGNAL ldGC = Res.ret () ld' ∧
      ld'.gc_requested = true :=
  ⟨_, rfl, rfl⟩

/-- C16, amended: under `STACK_OVERFLOW_SIGNAL`, `outOfStack(s, how)` returns with
`gc_status.requested` as it was before the call, having set `LD->trim_stack_requested` and
`LD->outofstack`; it is under `STACK_OVERFLOW_SIGNAL_IMMEDIATELY` that the request is
cleared, before the error is thrown. -/
theorem outOfStack_gc_request (s : StackId) (ld : LD) :
    (∃ ld', outOfStack s Overflow.STACK_OVERFLOW_SIGNAL ld = Res.ret () ld' ∧
        ld'.gc_requested = ld.gc_requested ∧ ld'.trim_stack_requested = true ∧
        ld'.outofstack = some s) ∧
      (∃ ld', outOfStack s Overflow.STACK_OVERFLOW_SIGNAL_IMMEDIATELY ld
          = Res.stop Stop.thrown ld' ∧
        ld'.gc_requested = false ∧ ld'.outofstack = none) :=
  ⟨⟨_, rfl, rfl, rfl, rfl⟩, ⟨_, rfl, rfl, rfl⟩⟩

/-! ## Heap allocator: platform failure -/

theorem storeWord_outside (L : Layout) (mem : Nat → Nat) (a v x : Nat)
    (h : x < a ∨ a + L.wordSize ≤ x) : storeWord L mem a v x = mem x := by
  unfold storeWord
  exact storeBytes_outside mem _ a x (by rw [wordBytes_length]; exact h)

theorem loadWord_congr (L : Layout) {m1 m2 : Nat → Nat} (a : Nat)
    (h : ∀ x, a ≤ x → x < a + L.wordSize → m1 x = m2 x) :
    loadWord L m1 a = loadWord L m2 a := by
  unfold loadWord
  rw [loadBytes_congr L.wordSize a h]

theorem setVars_outside (L : Layout) :
    ∀ (k a : Nat) (mem : Nat → Nat) (x : Nat),
      x < a + L.wordSize ∨ a + L.wordSize + k * L.wordSize ≤ x →
      setVars L k a mem x = mem x
  | 0, _, _, _, _ => rfl
  | k + 1, a, mem, x, h => by
      have e : (k + 1) * L.wordSize = k * L.wordSize + L.wordSize := Nat.succ_mul _ _
      simp only [setVars, setVar]
      rw [setVars_outside L k (a + L.wordSize) _ x (by omega),
        storeWord_outside L mem (a + L.wordSize) 0 x (by omega)]

theorem loadWord_setVars (L : Layout) :
    ∀ (k a : Nat) (mem : Nat → Nat) (i : Nat), 1 ≤ i → i ≤ k →
      loadWord L (setVars L k a mem) (a + i * L.wordSize) = 0
  | 0, _, _, i, h1, h2 => by omega
  | k + 1, a, mem, i, h1, h2 => by
      simp only [setVars, setVar]
      by_cases hi : i = 1
      · subst hi
        rw [one_mul, loadWord_congr L (a + L.wordSize)
          (fun x _ hx => setVars_outside L k (a + L.wordSize) _ x (Or.inl hx))]
        exact loadWord_storeWord L mem (a + L.wordSize) (Nat.pow_pos (by norm_num))
      · obtain ⟨j, rfl⟩ : ∃ j, i = j + 1 := ⟨i - 1, by omega⟩
        have h := loadWord_setVars L k (a + L.wordSize)
          (storeWord L mem (a + L.wordSize) 0) j (by omega) (by omega)
        have e : a + (j + 1) * L.wordSize = a + L.wordSize + j * L.wordSize := by
          rw [Nat.succ_mul]
          omega
        rw [e]
        exact h

/-- C17: for a functor word `f` of arity `a` and a global stack with room for `1 + a` words
whose top `consPtr` can tag, `globalFunctor(f)` returns `consPtr(old gTop,
TAG_COMPOUND|STG_GLOBAL)`, leaves `gTop` exactly `1 + a` words higher, has `f` in the word at
the old top and `0`, the unbound variable, in each of the `a` words that follow, and leaves
every byte outside these `1 + a` words, so every word below the old top, as it was. -/
theorem globalFunctor_cell (L : Layout) (grow : LD → LD) (f : Nat) (ld : LD)
    (hf : f < 2 ^ L.bits)
    (hroom : 1 + L.arityFunctor f ≤ roomStack ld / L.wordSize) (r : Nat)
    (hc : consPtr L ld.gTop (L.TAG_COMPOUND ||| L.STG_GLOBAL) = some r) :
    ∃ ld', globalFunctor L grow f ld = Res.ret r ld' ∧
      ld'.gTop = ld.gTop + (1 + L.arityFunctor f) * L.wordSize ∧
      loadWord L ld'.mem ld.gTop = f ∧
      (∀ i, 1 ≤ i → i ≤ L.arityFunctor f →
        loadWord L ld'.mem (ld.gTop + i * L.wordSize) = 0) ∧
      (∀ x, x < ld.gTop ∨ ld.gTop + (1 + L.arityFunctor f) * L.wordSize ≤ x →
        ld'.mem x = ld.mem x) ∧
      (∀ a, a + L.wordSize ≤ ld.gTop → loadWord L ld'.mem a = loadWord L ld.mem a) := by
  have halloc : allocGlobal L grow (1 + L.arityFunctor f) ld
      = Res.ret ld.gTop { ld with gTop := ld.gTop + (1 + L.arityFunctor f) * L.wordSize } := by
    unfold allocGlobal
    rw [if_neg (not_lt.2 hroom)]
  have hout : ∀ x, x < ld.gTop ∨ ld.gTop + (1 + L.arityFunctor f) * L.wordSize ≤ x →
      setVars L (L.arityFunctor f) ld.gTop (storeWord L ld.mem ld.gTop f) x = ld.mem x := by
    intro x hx
    have e : (1 + L.arityFunctor f) * L.wordSize
        = L.wordSize + L.arityFunctor f * L.wordSize := by
      rw [Nat.add_mul, one_mul]
    rw [setVars_outside L _ _ _ x (by omega), storeWord_outside L _ _ _ x (by omega)]
  simp only [globalFunctor, halloc, hc]
  refine ⟨_, rfl, rfl, ?_, ?_, hout, ?_⟩
  · show loadWord L (setVars L (L.arityFunctor f) ld.gTop (storeWord L ld.mem ld.gTop f))
      ld.gTop = f
    rw [loadWord_congr L ld.gTop
      (fun x _ hx => setVars_outside L _ ld.gTop _ x (Or.inl hx))]
    exact loadWord_storeWord L ld.mem ld.gTop hf
  · intro i h1 h2
    exact loadWord_setVars L _ ld.gTop _ i h1 h2
  · intro a ha
    exact loadWord_congr L a (fun x _ hx => hout x (Or.inl (by omega)))

/-- C17, witness: a functor of arity two on an empty stack with 64-bit words. -/
theorem globalFunctor_cell_witness :
    ∃ ld', globalFunctor layout64 id 261 ld0 = Res.ret 0x20000e ld' ∧
      ld'.gTop = ld0.gTop + (1 + layout64.arityFunctor 261) * layout64.wordSize ∧
      loadWord layout64 ld'.mem ld0.gTop = 261 ∧
      (∀ i, 1 ≤ i → i ≤ layout64.arityFunctor 261 →
        loadWord layout64 ld'.mem (ld0.gTop + i * layout64.wordSize) = 0) ∧
      (∀ x, x < ld0.gTop ∨
          ld0.gTop + (1 + layout64.arityFunctor 261) * layout64.wordSize ≤ x →
        ld'.mem x = ld0.mem x) ∧
      (∀ a, a + layout64.wordSize ≤ ld0.gTop →
        loadWord layout64 ld'.mem a = loadWord layout64 ld0.mem a) :=
  globalFunctor_cell layout64 id 261 ld0 (by decide) (by decide) 0x20000e (by decide)

/-! ## Floats on the global stack: auxiliary facts and the claim -/

theorem consPtr_address (L : Layout) (hW : 0 < L.wordSize)
    (hmax : L.MAXTAGGEDPTR ≤ 2 ^ (L.bits - 5)) (hmask : L.STG_MASK < 32) {p ts : Nat}
    (hts : ts < 32) (hp : p < 2 ^ L.bits) (hbase : L.base_addresses (ts &&& L.STG_MASK) ≤ p)
    (hoff : p - L.base_addresses (ts &&& L.STG_MASK) < L.MAXTAGGEDPTR) :
    ∃ w, consPtr L p ts = some w ∧ w &&& 0x1f = ts ∧ addressIndirect L w = p := by
  have hbits : 5 ≤ L.bits := by
    unfold Layout.bits
    omega
  obtain ⟨w, hc, ht, hdec⟩ := consPtr_decode L hbits hmax hmask hts hp hbase hoff
  refine ⟨w, hc, ht, ?_⟩
  unfold addressIndirect valPtr
  rw [hdec]
  exact Nat.mod_eq_of_lt hp

theorem doubleBytes_length (L : Layout) (d : Nat) : (doubleBytes L d).length = 8 := by
  unfold doubleBytes
  split_ifs <;> simp [toBytesLE_length]

theorem doubleOfBytes_doubleBytes (L : Layout) {d : Nat} (hd : d < 2 ^ 64) :
    doubleOfBytes L (doubleBytes L d) = d := by
  have h1 : ofBytesLE (toBytesLE 8 d) = d := by
    rw [ofBytesLE_toBytesLE]
    exact Nat.mod_eq_of_lt (by norm_num; exact hd)
  unfold doubleOfBytes doubleBytes
  split_ifs <;> simp [h1]

theorem fword_covers (L : Layout) (hW : 0 < L.wordSize) : 8 ≤ WORDS_PER_DOUBLE L * L.wordSize :=
  ROUND_ge 8 hW

/-- C12: for every 64-bit pattern `d` of a finite double (the zeros and the subnormals
included), on a platform that passes finite doubles by value with all their bits, when the
global stack has room for `2 + WORDS_PER_DOUBLE` words and its top lies in the taggable
range, `globalReal(d)` returns a reference `r` and `valReal(r)` is `d`, bit for bit; the
object takes exactly `2 + WORDS_PER_DOUBLE` stack words, and `WORDS_PER_DOUBLE` is 1 with
words of 8 bytes and 2 with words of 4 bytes. -/
theorem valReal_globalReal (L : Layout) (grow : LD → LD) (d : Nat) (ld : LD)
    (hW : 0 < L.wordSize) (hd : d < 2 ^ 64) (hfin : finiteDouble d)
    (hpass : ∀ x, x < 2 ^ 64 → finiteDouble x → L.passDouble x = x)
    (hmax : L.MAXTAGGEDPTR ≤ 2 ^ (L.bits - 5))
    (hmask : L.STG_MASK < 32) (htag : L.TAG_FLOAT ||| L.STG_GLOBAL < 32)
    (hroom : 2 + WORDS_PER_DOUBLE L ≤ roomStack ld / L.wordSize)
    (htop : ld.gTop < 2 ^ L.bits)
    (hbase : L.base_addresses ((L.TAG_FLOAT ||| L.STG_GLOBAL) &&& L.STG_MASK) ≤ ld.gTop)
    (hoff : ld.gTop - L.base_addresses ((L.TAG_FLOAT ||| L.STG_GLOBAL) &&& L.STG_MASK)
      < L.MAXTAGGEDPTR) :
    ∃ r ld', globalReal L grow d ld = Res.ret r ld' ∧
      valReal L ld' r = d ∧
      ld'.gTop = ld.gTop + (2 + WORDS_PER_DOUBLE L) * L.wordSize ∧
      (L.wordSize = 8 → WORDS_PER_DOUBLE L = 1) ∧
      (L.wordSize = 4 → WORDS_PER_DOUBLE L = 2) := by
  obtain ⟨w, hc, _, haddr⟩ := consPtr_address L hW hmax hmask htag htop hbase hoff
  have halloc : allocGlobal L grow (2 + WORDS_PER_DOUBLE L) ld
      = Res.ret ld.gTop { ld with gTop := ld.gTop + (2 + WORDS_PER_DOUBLE L) * L.wordSize } := by
    unfold allocGlobal
    rw [if_neg (not_lt.2 hroom)]
  have hcov := fword_covers L hW
  have hlen : (fwordOfDouble L d).length = WORDS_PER_DOUBLE L * L.wordSize := by
    unfold fwordOfDouble
    rw [List.length_append, doubleBytes_length, List.length_replicate]
    omega
  simp only [globalReal, halloc, hc]
  refine ⟨w, _, rfl, ?_, rfl, ?_, ?_⟩
  · unfold valReal valIndirectP
    simp only [haddr]
    rw [hpass d hd hfin]
    have h1 : loadBytes
        (storeWord L
          (storeBytes
            (storeWord L ld.mem ld.gTop (L.mkIndHdr (WORDS_PER_DOUBLE L) L.TAG_FLOAT))
            (ld.gTop + L.wordSize) (fwordOfDouble L d))
          (ld.gTop + L.wordSize + WORDS_PER_DOUBLE L * L.wordSize)
          (L.mkIndHdr (WORDS_PER_DOUBLE L) L.TAG_FLOAT))
        (ld.gTop + L.wordSize) (WORDS_PER_DOUBLE L * L.wordSize) = fwordOfDouble L d := by
      rw [loadBytes_congr (WORDS_PER_DOUBLE L * L.wordSize) (ld.gTop + L.wordSize)
        (fun x _ hx => storeWord_outside L _ _ _ x (Or.inl hx))]
      have h2 := loadBytes_storeBytes
        (storeWord L ld.mem ld.gTop (L.mkIndHdr (WORDS_PER_DOUBLE L) L.TAG_FLOAT))
        (fwordOfDouble L d) (ld.gTop + L.wordSize)
      rwa [hlen] at h2
    rw [h1]
    unfold fwordOfDouble
    rw [List.take_left' (doubleBytes_length L d), doubleOfBytes_doubleBytes L hd]
    exact hpass d hd hfin
  · intro h8
    unfold WORDS_PER_DOUBLE
    rw [h8]
  · intro h4
    unfold WORDS_PER_DOUBLE
    rw [h4]

theorem layout32_passDouble (x : Nat) (hfin : finiteDouble x) : layout32.passDouble x = x := by
  unfold finiteDouble at hfin
  show (if (x / 2 ^ 52) % 2048 = 2047 ∧ x % 2 ^ 52 ≠ 0 then x ||| 2 ^ 51 else x) = x
  rw [if_neg (fun h => hfin h.1)]

/-- C12, witness: the pattern of negative zero with words of 8 bytes, and the pattern of the
least subnormal with words of 4 bytes on a platform that quiets NaNs. -/
theorem valReal_globalReal_witness :
    (∃ r ld', globalReal layout64 id 0x8000000000000000 ld0 = Res.ret r ld' ∧
      valReal layout64 ld' r = 0x8000000000000000 ∧
      ld'.gTop = ld0.gTop + (2 + WORDS_PER_DOUBLE layout64) * layout64.wordSize ∧
      (layout64.wordSize = 8 → WORDS_PER_DOUBLE layout64 = 1) ∧
      (layout64.wordSize = 4 → WORDS_PER_DOUBLE layout64 = 2)) ∧
    (∃ r ld', globalReal layout32 id 1 ld32 = Res.ret r ld' ∧
      valReal layout32 ld' r = 1 ∧
      ld'.gTop = ld32.gTop + (2 + WORDS_PER_DOUBLE layout32) * layout32.wordSize ∧
      (layout32.wordSize = 8 → WORDS_PER_DOUBLE layout32 = 1) ∧
      (layout32.wordSize = 4 → WORDS_PER_DOUBLE layout32 = 2)) :=
  ⟨valReal_globalReal layout64 id 0x8000000000000000 ld0 (by decide) (by decide) (by decide)
      (fun _ _ _ => rfl) (by decide) (by decide) (by decide) (by decide) (by decide)
      (by decide) (by decide),
    valReal_globalReal layout32 id 1 ld32 (by decide) (by decide) (by decide)
      (fun x _ h => layout32_passDouble x h) (by decide) (by decide) (by decide) (by decide)
      (by decide) (by decide) (by decide)⟩

/-- Outside the finite doubles the bits need not come back: where a `double` passed by value
has its signalling NaNs quieted, the pattern `0x7ff0000000000001` is read back as
`0x7ff8000000000001`. -/
theorem globalReal_signalling_nan :
    ∃ r ld', globalReal layout32 id 0x7ff0000000000001 ld32 = Res.ret r ld' ∧
      valReal layout32 ld' r = 0x7ff8000000000001 := by
  refine ⟨_, _, rfl, ?_⟩
  decide

/-! ## Indirect objects: auxiliary facts -/

theorem ROUND_of_dvd {n a : Nat} (ha : 0 < a) (h : a ∣ n) : ROUND n a = n :=
  le_antisymm (ROUND_least n ha h (le_refl _)) (ROUND_ge n ha)

theorem freeHeap_spacefree (c : Config) (p n : Nat) (s : State) :
    (freeHeap c p n s).spacefree = s.spacefree := by
  unfold freeHeap
  split_ifs <;> rfl

theorem allocHeap_spacefree {c : Config} (wf : c.WF) {s s' : State} {plat n p : Nat}
    (ha : allocHeap c plat n s = some (p, s'))
    (h : c.ALIGN_SIZE ∣ s.spacefree ∧ s.spacefree ≤ c.ALLOCSIZE) :
    c.ALIGN_SIZE ∣ s'.spacefree ∧ s'.spacefree ≤ c.ALLOCSIZE := by
  have hR : c.ALIGN_SIZE ∣ c.ALLOCROUND n := ROUND_dvd _ _
  unfold allocHeap at ha
  by_cases hn0 : n = 0
  · simp only [hn0, if_true, Option.some.injEq, Prod.mk.injEq] at ha
    obtain ⟨_, rfl⟩ := ha
    exact h
  · simp only [hn0, if_false] at ha
    by_cases hfast : c.ALLOCROUND n ≤ c.ALLOCFAST
    · simp only [hfast, if_true] at ha
      by_cases hf : s.freeChains (c.ALLOCROUND n / c.ALIGN_SIZE) = 0
      · simp only [hf, ne_eq, not_true, if_false] at ha
        unfold allocate at ha
        by_cases hfit : c.ALLOCROUND n ≤ s.spacefree
        · simp only [hfit, if_true, Option.some.injEq, Prod.mk.injEq] at ha
          obtain ⟨_, rfl⟩ := ha
          exact ⟨Nat.dvd_sub' h.1 hR, le_trans (Nat.sub_le _ _) h.2⟩
        · simp only [hfit, if_false] at ha
          by_cases hplat : plat = 0
          · simp [hplat] at ha
          · simp only [hplat, if_false, Option.some.injEq, Prod.mk.injEq] at ha
            obtain ⟨_, rfl⟩ := ha
            exact ⟨Nat.dvd_sub' wf.size_dvd hR, Nat.sub_le _ _⟩
      · simp only [hf, ne_eq, not_false_eq_true, if_true, Option.some.injEq,
          Prod.mk.injEq] at ha
        obtain ⟨_, rfl⟩ := ha
        exact h
    · simp only [hfast, if_false] at ha
      by_cases hplat : plat = 0
      · simp [hplat] at ha
      · simp only [hplat, if_false, Option.some.injEq, Prod.mk.injEq] at ha
        obtain ⟨_, rfl⟩ := ha
        exact h

theorem spacefree_of_reach {c : Config} (wf : c.WF) {i s : State}
    {live : List (Nat × Nat)} (hr : Reach c i s live) :
    c.ALIGN_SIZE ∣ s.spacefree ∧ s.spacefree ≤ c.ALLOCSIZE := by
  induction hr with
  | init hi =>
    rw [hi.2.1]
    exact ⟨Nat.dvd_zero _, Nat.zero_le _⟩
  | alloc _ ha ih => exact allocHeap_spacefree wf ha ih
  | free _ _ ih =>
    rw [freeHeap_spacefree]
    exact ih
  | freeNull _ ih =>
    rw [freeHeap_spacefree]
    exact ih

theorem allocate_miss (c : Config) (plat n : Nat) (s : State) (hmiss : s.spacefree < n)
    (hplat : plat ≠ 0) :
    ∃ s', allocate c plat n s = some (plat, s') ∧
      s'.spacefree = c.ALLOCSIZE - n ∧ s'.spaceptr = plat + n ∧
      (c.sizeofChunk ≤ s.spacefree →
        s.spacefree / c.ALIGN_SIZE ≤ c.ALLOCFAST / c.ALIGN_SIZE →
        s'.freeChains
            = Function.update s.freeChains (s.spacefree / c.ALIGN_SIZE) s.spaceptr ∧
          s'.mem
            = Function.update s.mem s.spaceptr (s.freeChains (s.spacefree / c.ALIGN_SIZE)) ∧
          s'.log = Ev.access Var.spacefree :: Ev.access Var.spaceptr ::
            Ev.access Var.spacefree :: Ev.Allocate c.ALLOCSIZE plat ::
            Ev.access Var.freeChains :: Ev.access Var.chunk :: Ev.access Var.freeChains ::
            Ev.access Var.spaceptr :: Ev.access Var.spacefree :: Ev.access Var.spacefree ::
            Ev.access Var.spacefree :: s.log) ∧
      (¬ (c.sizeofChunk ≤ s.spacefree ∧
          s.spacefree / c.ALIGN_SIZE ≤ c.ALLOCFAST / c.ALIGN_SIZE) →
        s'.freeChains = s.freeChains ∧ s'.mem = s.mem) := by
  unfold allocate
  simp only [not_le.2 hmiss, if_false, hplat]
  refine ⟨_, rfl, rfl, rfl, ?_, ?_⟩
  · intro h1 h2
    rw [if_pos h1, if_pos h2]
    exact ⟨rfl, rfl, rfl⟩
  · intro h
    by_cases h1 : c.sizeofChunk ≤ s.spacefree
    · have h2 : ¬ s.spacefree / c.ALIGN_SIZE ≤ c.ALLOCFAST / c.ALIGN_SIZE :=
        fun h2 => h ⟨h1, h2⟩
      rw [if_pos h1, if_neg h2]
      exact ⟨rfl, rfl⟩
    · rw [if_neg h1]
      exact ⟨rfl, rfl⟩

theorem allocHeap_miss (c : Config) (plat n : Nat) (s : State) (hn : n ≠ 0)
    (hfast : c.ALLOCROUND n ≤ c.ALLOCFAST)
    (hf : s.freeChains (c.ALLOCROUND n / c.ALIGN_SIZE) = 0)
    (hmiss : s.spacefree < c.ALLOCROUND n) (hplat : plat ≠ 0) :
    ∃ s', allocHeap c plat n s = some (plat, s') ∧
      (c.sizeofChunk ≤ s.spacefree →
        s.spacefree / c.ALIGN_SIZE ≤ c.ALLOCFAST / c.ALIGN_SIZE →
        s'.freeChains
            = Function.update s.freeChains (s.spacefree / c.ALIGN_SIZE) s.spaceptr ∧
          s'.mem
            = Function.update s.mem s.spaceptr (s.freeChains (s.spacefree / c.ALIGN_SIZE))) ∧
      (¬ (c.sizeofChunk ≤ s.spacefree ∧
          s.spacefree / c.ALIGN_SIZE ≤ c.ALLOCFAST / c.ALIGN_SIZE) →
        s'.freeChains = s.freeChains ∧ s'.mem = s.mem) := by
  obtain ⟨s2, h2, _, _, hd, hk⟩ := allocate_miss c plat (c.ALLOCROUND n)
    { s with
      heap := s.heap + (c.ALLOCROUND n : Nat)
      log := Ev.access Var.freeChains :: Ev.access Var.heap :: Ev.lock :: s.log } hmiss hplat
  unfold allocHeap
  simp only [hn, if_false, hfast, if_true, hf, ne_eq, not_true, h2]
  refine ⟨_, rfl, ?_, ?_⟩
  · intro h1 h3
    exact ⟨(hd h1 h3).1, (hd h1 h3).2.1⟩
  · intro h
    exact hk h

theorem cfgSmall_wf : cfgSmall.WF := ⟨by decide, by decide, by decide, by decide⟩

theorem reach_sC2 : Reach cfgSmall s0 sC2 [(4144, 48), (4096, 48)] :=
  Reach.alloc
    (Reach.alloc (Reach.init ⟨rfl, rfl, fun _ => rfl, rfl⟩)
      (rfl : allocHeap cfgSmall 4096 48 s0 = some (4096, sC1)))
    (rfl : allocHeap cfgSmall 0 48 sC1 = some (4144, sC2))

/-! ## Heap allocator: the remainder of a bulk region, the claims -/

/-- C21: when `allocate(n)` misses the region (`spacefree < n`) and the platform answers, a
remainder `r = spacefree` with `r >= sizeof(struct chunk)` and
`r/ALIGN_SIZE <= ALLOCFAST/ALIGN_SIZE` is pushed first: the old `spaceptr` becomes the head of
`freeChains[r/ALIGN_SIZE]` with the old head as its `next`, no other chain changes, and the
events of the push precede the request for the new region.  A remainder that fails one of
the two tests is pushed onto no chain.  In every state reachable from the initial one, when
such a miss happens inside `allocHeap(k)`, an `allocHeap(r)` that follows at once returns
exactly the old `spaceptr`. -/
theorem remainder_donation (c : Config) (plat n : Nat) (s : State)
    (hmiss : s.spacefree < n) (hplat : plat ≠ 0) :
    (c.sizeofChunk ≤ s.spacefree →
      s.spacefree / c.ALIGN_SIZE ≤ c.ALLOCFAST / c.ALIGN_SIZE →
      ∃ s', allocate c plat n s = some (plat, s') ∧
        s'.freeChains (s.spacefree / c.ALIGN_SIZE) = s.spaceptr ∧
        s'.mem s.spaceptr = s.freeChains (s.spacefree / c.ALIGN_SIZE) ∧
        (∀ m, m ≠ s.spacefree / c.ALIGN_SIZE → s'.freeChains m = s.freeChains m) ∧
        s'.log = Ev.access Var.spacefree :: Ev.access Var.spaceptr ::
          Ev.access Var.spacefree :: Ev.Allocate c.ALLOCSIZE plat ::
          Ev.access Var.freeChains :: Ev.access Var.chunk :: Ev.access Var.freeChains ::
          Ev.access Var.spaceptr :: Ev.access Var.spacefree :: Ev.access Var.spacefree ::
          Ev.access Var.spacefree :: s.log) ∧
    (¬ (c.sizeofChunk ≤ s.spacefree ∧
        s.spacefree / c.ALIGN_SIZE ≤ c.ALLOCFAST / c.ALIGN_SIZE) →
      ∃ s', allocate c plat n s = some (plat, s') ∧
        s'.freeChains = s.freeChains ∧ s'.mem = s.mem) ∧
    (∀ (i : State) (live : List (Nat × Nat)) (k plat2 : Nat), c.WF → Reach c i s live →
      k ≠ 0 → c.ALLOCROUND k = n → n ≤ c.ALLOCFAST →
      s.freeChains (c.ALLOCROUND k / c.ALIGN_SIZE) = 0 → c.sizeofChunk ≤ s.spacefree →
      ∃ s', allocHeap c plat k s = some (plat, s') ∧
        ∃ s'', allocHeap c plat2 s.spacefree s' = some (s.spaceptr, s'')) := by
  obtain ⟨s1, h1, _, _, hd, hk⟩ := allocate_miss c plat n s hmiss hplat
  refine ⟨?_, ?_, ?_⟩
  · intro hc hr
    obtain ⟨hf, hm, hl⟩ := hd hc hr
    refine ⟨s1, h1, ?_, ?_, ?_, hl⟩
    · rw [hf, Function.update_same]
    · rw [hm, Function.update_same]
    · intro m hne
      rw [hf, Function.update_noteq hne]
  · intro h
    exact ⟨s1, h1, hk h⟩
  · intro i live k plat2 wf hreach hk0 hkn hfast hf hc
    subst hkn
    have hA := wf.align_pos
    have hal := (spacefree_of_reach wf hreach).1
    have hr0 : s.spacefree ≠ 0 := by
      have := wf.chunk_pos
      omega
    have hptr : s.spaceptr ≠ 0 := by
      rcases (counter_of_reach hA hreach).2.1 with h | h
      · exact absurd h hr0
      · exact h
    have hle : s.spacefree ≤ c.ALLOCFAST := by omega
    have hdiv : s.spacefree / c.ALIGN_SIZE ≤ c.ALLOCFAST / c.ALIGN_SIZE :=
      Nat.div_le_div_right hle
    obtain ⟨s', h2, hpush, _⟩ := allocHeap_miss c plat k s hk0 hfast hf hmiss hplat
    obtain ⟨hfc, _⟩ := hpush hc hdiv
    have hRr : c.ALLOCROUND s.spacefree = s.spacefree := ROUND_of_dvd hA hal
    have hhead : s'.freeChains (s.spacefree / c.ALIGN_SIZE) = s.spaceptr := by
      rw [hfc, Function.update_same]
    refine ⟨s', h2, ?_⟩
    unfold allocHeap
    simp only [hr0, if_false, hRr, hle, if_true, hhead, ne_eq, hptr, not_false_eq_true]
    exact ⟨_, rfl⟩

/-- C21, witness: the small allocator with 32 bytes left at 4192 is asked for 48 bytes; the
32 bytes go to chain 4, and `allocHeap(32)` then returns 4192. -/
theorem remainder_donation_witness :
    (∃ s', allocate cfgSmall 8192 48 sC2 = some (8192, s') ∧
        s'.freeChains (sC2.spacefree / cfgSmall.ALIGN_SIZE) = sC2.spaceptr ∧
        s'.mem sC2.spaceptr = sC2.freeChains (sC2.spacefree / cfgSmall.ALIGN_SIZE) ∧
        (∀ m, m ≠ sC2.spacefree / cfgSmall.ALIGN_SIZE →
          s'.freeChains m = sC2.freeChains m) ∧
        s'.log = Ev.access Var.spacefree :: Ev.access Var.spaceptr ::
          Ev.access Var.spacefree :: Ev.Allocate cfgSmall.ALLOCSIZE 8192 ::
          Ev.access Var.freeChains :: Ev.access Var.chunk :: Ev.access Var.freeChains ::
          Ev.access Var.spaceptr :: Ev.access Var.spacefree :: Ev.access Var.spacefree ::
          Ev.access Var.spacefree :: sC2.log) ∧
      ∃ s', allocHeap cfgSmall 8192 48 sC2 = some (8192, s') ∧
        ∃ s'', allocHeap cfgSmall 0 sC2.spacefree s' = some (sC2.spaceptr, s'') :=
  ⟨(remainder_donation cfgSmall 8192 48 sC2 (by decide) (by decide)).1 (by decide)
      (by decide),
    (remainder_donation cfgSmall 8192 48 sC2 (by decide) (by decide)).2.2 s0 _ 48 0
      cfgSmall_wf reach_sC2 (by decide) (by decide) (by decide) (by decide) (by decide)⟩

/-- C25: in every state reachable from the initial one, with a chunk fitting an alignment
unit, bulk regions of a whole number of alignment units and at least as large as the largest
fast-path block, `spacefree` is a multiple of `ALIGN_SIZE` and at most `ALLOCSIZE`.  Whenever
`allocHeap(n)` reaches `allocate` and the rounded request misses the region, the test
`spacefree/ALIGN_SIZE <= ALLOCFAST/ALIGN_SIZE` succeeds, so the branch that drops a remainder
of at least `sizeof(struct chunk)` bytes is not taken; a remainder below
`sizeof(struct chunk)` is 0 bytes; and when the platform answers, a remainder that is not 0
is pushed on its chain, while with a remainder of 0 the chains are left as they were. -/
theorem remainder_never_dropped (c : Config) (wf : c.WF) {i s : State}
    {live : List (Nat × Nat)} (hr : Reach c i s live) :
    c.ALIGN_SIZE ∣ s.spacefree ∧ s.spacefree ≤ c.ALLOCSIZE ∧
      ∀ plat n, n ≠ 0 → c.ALLOCROUND n ≤ c.ALLOCFAST →
        s.freeChains (c.ALLOCROUND n / c.ALIGN_SIZE) = 0 → s.spacefree < c.ALLOCROUND n →
        s.spacefree / c.ALIGN_SIZE ≤ c.ALLOCFAST / c.ALIGN_SIZE ∧
          ¬ (c.sizeofChunk ≤ s.spacefree ∧
            ¬ s.spacefree / c.ALIGN_SIZE ≤ c.ALLOCFAST / c.ALIGN_SIZE) ∧
          (s.spacefree < c.sizeofChunk → s.spacefree = 0) ∧
          (plat ≠ 0 → ∃ s', allocHeap c plat n s = some (plat, s') ∧
            (s.spacefree ≠ 0 →
              s'.freeChains (s.spacefree / c.ALIGN_SIZE) = s.spaceptr ∧
                s'.mem s.spaceptr = s.freeChains (s.spacefree / c.ALIGN_SIZE)) ∧
            (s.spacefree = 0 → s'.freeChains = s.freeChains ∧ s'.mem = s.mem)) := by
  obtain ⟨hal, hle⟩ := spacefree_of_reach wf hr
  have hA := wf.align_pos
  refine ⟨hal, hle, ?_⟩
  intro plat n hn hfast hf hmiss
  have hdiv : s.spacefree / c.ALIGN_SIZE ≤ c.ALLOCFAST / c.ALIGN_SIZE :=
    Nat.div_le_div_right (by omega)
  have hsmall : s.spacefree < c.sizeofChunk → s.spacefree = 0 := fun h =>
    Nat.eq_zero_of_dvd_of_lt hal (lt_of_lt_of_le h wf.chunk_le)
  refine ⟨hdiv, fun h => h.2 hdiv, hsmall, ?_⟩
  intro hplat
  obtain ⟨s', h2, hpush, hkeep⟩ := allocHeap_miss c plat n s hn hfast hf hmiss hplat
  refine ⟨s', h2, ?_, ?_⟩
  · intro h0
    have hc : c.sizeofChunk ≤ s.spacefree := by
      by_contra hlt
      exact h0 (hsmall (not_le.1 hlt))
    obtain ⟨hfc, hm⟩ := hpush hc hdiv
    exact ⟨by rw [hfc, Function.update_same], by rw [hm, Function.update_same]⟩
  · intro h0
    apply hkeep
    intro h
    have := wf.chunk_pos
    omega

/-- C25, witness: the small allocator with 32 bytes left, asked for 48 bytes. -/
theorem remainder_never_dropped_witness :
    cfgSmall.ALIGN_SIZE ∣ sC2.spacefree ∧ sC2.spacefree ≤ cfgSmall.ALLOCSIZE ∧
      sC2.spacefree / cfgSmall.ALIGN_SIZE ≤ cfgSmall.ALLOCFAST / cfgSmall.ALIGN_SIZE ∧
      ∃ s', allocHeap cfgSmall 8192 48 sC2 = some (8192, s') ∧
        s'.freeChains (sC2.spacefree / cfgSmall.ALIGN_SIZE) = sC2.spaceptr ∧
        s'.mem sC2.spaceptr = sC2.freeChains (sC2.spacefree / cfgSmall.ALIGN_SIZE) :=
  ⟨(remainder_never_dropped cfgSmall cfgSmall_wf reach_sC2).1,
    (remainder_never_dropped cfgSmall cfgSmall_wf reach_sC2).2.1,
    ((remainder_never_dropped cfgSmall cfgSmall_wf reach_sC2).2.2 8192 48 (by decide)
      (by decide) (by decide) (by decide)).1,
    (((remainder_never_dropped cfgSmall cfgSmall_wf reach_sC2).2.2 8192 48 (by decide)
      (by decide) (by decide) (by decide)).2.2.2 (by decide)).imp
      (fun _ h => ⟨h.1, h.2.1 (by decide)⟩)⟩

/-! ## Heap allocator: free-chain indices, auxiliary facts and the claim -/

theorem update_ne_eq {f : Nat → Nat} {a v m : Nat} (h : Function.update f a v m ≠ f m) :
    m = a := by
  by_contra hne
  exact h (Function.update_noteq hne _ _)

theorem allocate_idx {c : Config} {plat k q : Nat} {s s' : State}
    (ha : allocate c plat k s = some (q, s')) :
    (∃ es, s'.log = es ++ s.log ∧
        es.count (Ev.access Var.freeChains) = (allocateIdx c k s).length) ∧
      ∀ m, s'.freeChains m ≠ s.freeChains m → m ∈ allocateIdx c k s := by
  unfold allocate at ha
  unfold allocateIdx
  by_cases hfit : k ≤ s.spacefree
  · simp only [hfit, if_true, Option.some.injEq, Prod.mk.injEq] at ha
    obtain ⟨_, rfl⟩ := ha
    simp only [hfit, if_true]
    exact ⟨⟨[_, _, _, _], rfl, rfl⟩, fun m hm => absurd rfl hm⟩
  · simp only [hfit, if_false] at ha ⊢
    by_cases hplat : plat = 0
    · simp [hplat] at ha
    · simp only [hplat, if_false, Option.some.injEq, Prod.mk.injEq] at ha
      obtain ⟨_, rfl⟩ := ha
      by_cases hck : c.sizeofChunk ≤ s.spacefree
      · by_cases hdiv : s.spacefree / c.ALIGN_SIZE ≤ c.ALLOCFAST / c.ALIGN_SIZE
        · simp only [hck, hdiv, if_true]
          refine ⟨⟨[_, _, _, _, _, _, _, _, _, _, _], rfl, rfl⟩, fun m hm => ?_⟩
          rw [update_ne_eq hm]
          exact List.mem_cons_self _ _
        · simp only [hck, hdiv, if_true, if_false]
          exact ⟨⟨[_, _, _, _, _, _, _], rfl, rfl⟩, fun m hm => absurd rfl hm⟩
      · simp only [hck, if_false]
        exact ⟨⟨[_, _, _, _, _, _], rfl, rfl⟩, fun m hm => absurd rfl hm⟩

theorem allocHeap_idx {c : Config} {plat n q : Nat} {s s' : State}
    (ha : allocHeap c plat n s = some (q, s')) :
    (∃ es, s'.log = es ++ s.log ∧
        es.count (Ev.access Var.freeChains) = (allocHeapIdx c n s).length) ∧
      ∀ m, s'.freeChains m ≠ s.freeChains m → m ∈ allocHeapIdx c n s := by
  unfold allocHeap at ha
  unfold allocHeapIdx
  by_cases hn0 : n = 0
  · simp only [hn0, if_true, Option.some.injEq, Prod.mk.injEq] at ha ⊢
    obtain ⟨_, rfl⟩ := ha
    exact ⟨⟨[], rfl, rfl⟩, fun m hm => absurd rfl hm⟩
  · simp only [hn0, if_false] at ha ⊢
    by_cases hfast : c.ALLOCROUND n ≤ c.ALLOCFAST
    · simp only [hfast, if_true] at ha ⊢
      by_cases hf : s.freeChains (c.ALLOCROUND n / c.ALIGN_SIZE) = 0
      · simp only [hf, ne_eq, not_true, if_false] at ha ⊢
        cases hal : allocate c plat (c.ALLOCROUND n)
            { s with
              heap := s.heap + (c.ALLOCROUND n : Nat)
              log := Ev.access Var.freeChains :: Ev.access Var.heap :: Ev.lock :: s.log } with
        | none => simp [hal] at ha
        | some r =>
          obtain ⟨f, s2⟩ := r
          simp only [hal, Option.some.injEq, Prod.mk.injEq] at ha
          obtain ⟨_, rfl⟩ := ha
          obtain ⟨⟨es, hes, hcount⟩, hch⟩ := allocate_idx hal
          refine ⟨⟨Ev.unlock :: Ev.access Var.marks :: Ev.access Var.marks ::
            (es ++ [Ev.access Var.freeChains, Ev.access Var.heap, Ev.lock]), ?_, ?_⟩,
            fun m hm => List.mem_cons_of_mem _ (hch m hm)⟩
          · show Ev.unlock :: Ev.access Var.marks :: Ev.access Var.marks :: s2.log = _
            rw [hes]
            simp
          · have hc2 : (allocateIdx c (c.ALLOCROUND n)
                { s with
                  heap := s.heap + (c.ALLOCROUND n : Nat)
                  log := Ev.access Var.freeChains :: Ev.access Var.heap :: Ev.lock ::
                    s.log }).length
                = (allocateIdx c (c.ALLOCROUND n) s).length := rfl
            rw [hc2] at hcount
            simp [List.count_cons, hcount]
      · simp only [hf, ne_eq, not_false_eq_true, if_true, Option.some.injEq,
          Prod.mk.injEq] at ha ⊢
        obtain ⟨_, rfl⟩ := ha
        refine ⟨⟨[_, _, _, _, _, _, _], rfl, rfl⟩, fun m hm => ?_⟩
        rw [update_ne_eq hm]
        exact List.mem_cons_self _ _
    · simp only [hfast, if_false] at ha ⊢
      by_cases hplat : plat = 0
      · simp [hplat] at ha
      · simp only [hplat, if_false, Option.some.injEq, Prod.mk.injEq] at ha
        obtain ⟨_, rfl⟩ := ha
        exact ⟨⟨[_, _, _, _, _, _], rfl, rfl⟩, fun m hm => absurd rfl hm⟩

theorem freeHeap_idx (c : Config) (p n : Nat) (s : State) :
    (∃ es, (freeHeap c p n s).log = es ++ s.log ∧
        es.count (Ev.access Var.freeChains) = (freeHeapIdx c p n).length) ∧
      ∀ m, (freeHeap c p n s).freeChains m ≠ s.freeChains m → m ∈ freeHeapIdx c p n := by
  unfold freeHeap freeHeapIdx
  by_cases hp : p = 0
  · simp only [hp, if_true]
    exact ⟨⟨[], rfl, rfl⟩, fun m hm => absurd rfl hm⟩
  · simp only [hp, if_false]
    by_cases hfast : c.ALLOCROUND n ≤ c.ALLOCFAST
    · simp only [hfast, if_true]
      refine ⟨⟨[_, _, _, _, _, _], rfl, rfl⟩, fun m hm => ?_⟩
      rw [update_ne_eq hm]
      exact List.mem_cons_self _ _
    · simp only [hfast, if_false]
      exact ⟨⟨[_, _, _, _], rfl, rfl⟩, fun m hm => absurd rfl hm⟩

theorem mem_allocateIdx {c : Config} {k m : Nat} {s : State} (h : m ∈ allocateIdx c k s) :
    m ≤ c.ALLOCFAST / c.ALIGN_SIZE := by
  unfold allocateIdx at h
  split_ifs at h with h1 h2 h3
  · cases h
  · simp only [List.mem_cons, List.mem_singleton, or_self, List.not_mem_nil, or_false] at h
    rw [h]
    exact h3
  · cases h
  · cases h

/-- C24: with `0 < sizeof(Chunk) <= ALIGN_SIZE`, every index at which `allocHeap`, `freeHeap`
and `allocate` read or write `freeChains` (the rounded `n` divided by `ALIGN_SIZE` on the
fast path, `spacefree/ALIGN_SIZE` for a donated remainder) is at most
`ALLOCFAST/ALIGN_SIZE`, hence below the array length `ALLOCFAST/sizeof(Chunk) + 1`.  The
indices listed are those the calls use: a call logs as many accesses to `freeChains` as the
list is long, and it changes `freeChains` at listed indices only. -/
theorem freeChains_index_bound (c : Config) (h0 : 0 < c.sizeofChunk)
    (hle : c.sizeofChunk ≤ c.ALIGN_SIZE) (s : State) (plat n p k : Nat) :
    (∀ m, m ∈ allocHeapIdx c n s ∨ m ∈ freeHeapIdx c p n ∨ m ∈ allocateIdx c k s →
        m ≤ c.ALLOCFAST / c.ALIGN_SIZE ∧ m < c.ALLOCFAST / c.sizeofChunk + 1) ∧
      (∀ q s', allocHeap c plat n s = some (q, s') →
        (∃ es, s'.log = es ++ s.log ∧
          es.count (Ev.access Var.freeChains) = (allocHeapIdx c n s).length) ∧
        ∀ m, s'.freeChains m ≠ s.freeChains m → m ∈ allocHeapIdx c n s) ∧
      ((∃ es, (freeHeap c p n s).log = es ++ s.log ∧
          es.count (Ev.access Var.freeChains) = (freeHeapIdx c p n).length) ∧
        ∀ m, (freeHeap c p n s).freeChains m ≠ s.freeChains m → m ∈ freeHeapIdx c p n) ∧
      (∀ q s', allocate c plat k s = some (q, s') →
        (∃ es, s'.log = es ++ s.log ∧
          es.count (Ev.access Var.freeChains) = (allocateIdx c k s).length) ∧
        ∀ m, s'.freeChains m ≠ s.freeChains m → m ∈ allocateIdx c k s) := by
  have key : ∀ m, m ≤ c.ALLOCFAST / c.ALIGN_SIZE →
      m ≤ c.ALLOCFAST / c.ALIGN_SIZE ∧ m < c.ALLOCFAST / c.sizeofChunk + 1 :=
    fun m h => ⟨h, Nat.lt_succ_of_le (le_trans h (Nat.div_le_div_left hle h0))⟩
  refine ⟨?_, fun q s' ha => allocHeap_idx ha, freeHeap_idx c p n s,
    fun q s' ha => allocate_idx ha⟩
  intro m hm
  apply key
  rcases hm with hm | hm | hm
  · unfold allocHeapIdx at hm
    split_ifs at hm with h1 h2 h3
    · cases hm
    · simp only [List.mem_cons, List.mem_singleton, or_self, List.not_mem_nil,
        or_false] at hm
      rw [hm]
      exact Nat.div_le_div_right h2
    · rcases List.mem_cons.1 hm with hm | hm
      · rw [hm]
        exact Nat.div_le_div_right h2
      · exact mem_allocateIdx hm
    · cases hm
  · unfold freeHeapIdx at hm
    split_ifs at hm with h1 h2
    · cases hm
    · simp only [List.mem_cons, List.mem_singleton, or_self, List.not_mem_nil,
        or_false] at hm
      rw [hm]
      exact Nat.div_le_div_right h2
    · cases hm
  · exact mem_allocateIdx hm

/-- C24, witness: the small allocator with 32 bytes left, asked for 48 bytes; the indices
used are 6 for the request and 4, twice, for the remainder, below the array length 9. -/
theorem freeChains_index_bound_witness :
    allocHeapIdx cfgSmall 48 sC2 = [6, 4, 4] ∧
      (∀ m, m ∈ allocHeapIdx cfgSmall 48 sC2 ∨ m ∈ freeHeapIdx cfgSmall 4096 48 ∨
          m ∈ allocateIdx cfgSmall 48 sC2 →
        m ≤ cfgSmall.ALLOCFAST / cfgSmall.ALIGN_SIZE ∧
          m < cfgSmall.ALLOCFAST / cfgSmall.sizeofChunk + 1) :=
  ⟨by decide,
    (freeChains_index_bound cfgSmall (by decide) (by decide) sC2 8192 48 4096 48).1⟩

/-! ## Heap allocator: a state with a large block -/

theorem strdup_append_zero :
    ∀ (o rest : List Nat), (∀ b ∈ o, b ≠ 0) → strdup (o ++ 0 :: rest) = o
  | [], _, _ => by simp [strdup]
  | b :: o, rest, h => by
      have hb : b ≠ 0 := h b (List.mem_cons_self _ _)
      have ih := strdup_append_zero o rest (fun x hx => h x (List.mem_cons_of_mem _ hx))
      unfold strdup at ih ⊢
      simp only [List.cons_append, List.takeWhile_cons, hb, ne_eq, not_false_eq_true,
        decide_True, if_true, ih]

theorem get_group_size_ex_some {CHAR_MAX g : Nat} {t : GTerm}
    (h : get_group_size_ex CHAR_MAX t = some g) :
    ∃ i : Int, t = GTerm.int i ∧ 0 < i ∧ i < (CHAR_MAX : Int) ∧ g = i.toNat ∧ g ≠ 0 := by
  cases t with
  | int i =>
    simp only [get_group_size_ex] at h
    split_ifs at h with hi
    simp only [Option.some.injEq] at h
    refine ⟨i, rfl, hi.1, hi.2, h.symm, ?_⟩
    rw [← h]
    omega
  | repeat1 arg => simp [get_group_size_ex] at h
  | var => simp [get_group_size_ex] at h

theorem grouping_loop_last (CHAR_MAX : Nat) :
    ∀ (str : List Nat) (out : List GTerm), grouping_loop CHAR_MAX str = some out →
      out.getLast? = some GTerm.var ∨
        ∃ a, str.getLast? = some a ∧ out.getLast? = some (GTerm.repeat1 (GTerm.int a))
  | [], out, h => by simp [grouping_loop] at h
  | [a], out, h => by
      simp only [grouping_loop, Option.some.injEq] at h
      subst h
      exact Or.inr ⟨a, rfl, rfl⟩
  | a :: b :: rest, out, h => by
      simp only [grouping_loop] at h
      split_ifs at h with h1 h2
      · simp only [Option.some.injEq] at h
        subst h
        obtain ⟨hb, hrest⟩ := h1
        subst hb
        subst hrest
        exact Or.inr ⟨b, rfl, rfl⟩
      · simp only [Option.some.injEq] at h
        subst h
        exact Or.inl rfl
      · cases hl : grouping_loop CHAR_MAX (b :: rest) with
        | none => simp [hl] at h
        | some l =>
          simp only [hl, Option.map_some', Option.some.injEq] at h
          subst h
          have ih := grouping_loop_last CHAR_MAX (b :: rest) l hl
          cases l with
          | nil =>
            rcases ih with ih | ⟨_, _, ih⟩ <;> simp at ih
          | cons y ys =>
            rw [List.getLast?_cons_cons, List.getLast?_cons_cons]
            exact ih

theorem set_grouping_loop_last (CHAR_MAX MAX_GROUPING : Nat) (hCM : 0 < CHAR_MAX) :
    ∀ (t : List GTerm) (o stored : List Nat),
      set_grouping_loop CHAR_MAX MAX_GROUPING t o = some stored → (∀ b ∈ o, b ≠ 0) →
      t ≠ [] →
      (∃ g, t.getLast? = some (GTerm.int g)) ∨
        ∃ g : Int, g < (CHAR_MAX : Int) ∧
          t.getLast? = some (GTerm.repeat1 (GTerm.int g)) ∧
          stored.getLast? = some CHAR_MAX
  | [], _, _, _, _, hne => absurd rfl hne
  | head :: tail, o, stored, h, ho, _ => by
      unfold set_grouping_loop at h
      by_cases hlen : o.length + 2 ≥ MAX_GROUPING
      · rw [if_pos hlen] at h
        cases h
      · rw [if_neg hlen] at h
        cases head with
        | repeat1 arg =>
          simp only at h
          cases hg : get_group_size_ex CHAR_MAX arg with
          | none => simp [hg] at h
          | some g =>
            obtain ⟨i, rfl, _, hi2, _, hg0⟩ := get_group_size_ex_some hg
            simp only [hg] at h
            by_cases htail : tail = []
            · rw [if_pos htail] at h
              simp only [Option.some.injEq] at h
              subst htail
              refine Or.inr ⟨i, hi2, rfl, ?_⟩
              have hnz : ∀ b ∈ o ++ [g, CHAR_MAX], b ≠ 0 := by
                intro b hb
                rcases List.mem_append.1 hb with hb | hb
                · exact ho b hb
                · simp only [List.mem_cons, List.mem_singleton, List.not_mem_nil,
                    or_false] at hb
                  rcases hb with rfl | rfl
                  · exact hg0
                  · exact Nat.pos_iff_ne_zero.1 hCM
              rw [strdup_append_zero _ [] hnz] at h
              rw [← h]
              simp
            · rw [if_neg htail] at h
              cases h
        | int i =>
          simp only at h
          cases hg : get_group_size_ex CHAR_MAX (GTerm.int i) with
          | none => simp [hg] at h
          | some g =>
            obtain ⟨_, _, _, _, _, hg0⟩ := get_group_size_ex_some hg
            simp only [hg] at h
            cases tail with
            | nil => exact Or.inl ⟨i, rfl⟩
            | cons y ys =>
              have ih := set_grouping_loop_last CHAR_MAX MAX_GROUPING hCM (y :: ys)
                (o ++ [g]) stored h (by
                  intro b hb
                  rcases List.mem_append.1 hb with hb | hb
                  · exact ho b hb
                  · rw [List.mem_singleton.1 hb]
                    exact hg0) (List.cons_ne_nil _ _)
              rw [List.getLast?_cons_cons]
              exact ih
        | var =>
          simp [get_group_size_ex] at h

/-- C26: the round trip does not hold in the code: for every non-empty list that
`set_grouping` accepts, the list that `locale_grouping_property` produces from the grouping
string stored is not the list given.  `set_grouping` stores `repeat(g)` as `g` followed by
`CHAR_MAX` and ends a list without `repeat` with nothing, while `locale_grouping_property`
reads a string that ends after `g` as `repeat(g)`. -/
theorem grouping_roundtrip_fails (CHAR_MAX MAX_GROUPING : Nat) (hCM : 0 < CHAR_MAX)
    (t : List GTerm) (stored : List Nat)
    (hset : set_grouping CHAR_MAX MAX_GROUPING t = some stored) (hne : t ≠ []) :
    locale_grouping_property CHAR_MAX (some stored) ≠ some t := by
  intro heq
  cases stored with
  | nil => simp [locale_grouping_property] at heq
  | cons a rest =>
    have hloop : grouping_loop CHAR_MAX (a :: rest) = some t := heq
    have hw := set_grouping_loop_last CHAR_MAX MAX_GROUPING hCM t [] (a :: rest) hset
      (fun b hb => by cases hb) hne
    rcases grouping_loop_last CHAR_MAX (a :: rest) t hloop with hv | ⟨x, hx1, hx2⟩
    · rcases hw with ⟨g, hg⟩ | ⟨g, _, hg, _⟩
      · rw [hg] at hv
        cases hv
      · rw [hg] at hv
        cases hv
    · rcases hw with ⟨g, hg⟩ | ⟨g, hlt, hg, hlast⟩
      · rw [hg] at hx2
        cases hx2
      · rw [hg] at hx2
        rw [hlast] at hx1
        simp only [Option.some.injEq, GTerm.repeat1.injEq, GTerm.int.injEq] at hx1 hx2
        rw [hx2, ← hx1] at hlt
        exact lt_irrefl _ hlt

/-- C26, witness: the list `[3]` is stored as the string with the one byte 3, which is read
back as `[repeat(3)]`. -/
theorem grouping_roundtrip_fails_witness :
    set_grouping 127 10 [GTerm.int 3] = some [3] ∧
      locale_grouping_property 127 (some [3]) = some [GTerm.repeat1 (GTerm.int 3)] ∧
      locale_grouping_property 127 (some [3]) ≠ some [GTerm.int 3] :=
  ⟨by decide, by decide, grouping_roundtrip_fails 127 10 (by decide) [GTerm.int 3] [3]
    (by decide) (by decide)⟩

theorem grouping_repeat_example :
    set_grouping 127 10 [GTerm.repeat1 (GTerm.int 3)] = some [3, 127] ∧
      locale_grouping_property 127 (some [3, 127])
        = some [GTerm.int 3, GTerm.repeat1 (GTerm.int 127)] ∧
      set_grouping 127 10 [GTerm.int 3, GTerm.int 3] = some [3, 3] ∧
      locale_grouping_property 127 (some [3, 3]) = some [GTerm.repeat1 (GTerm.int 3)] :=
  ⟨by decide, by decide, by decide, by decide⟩

/-! ## Strings on the global stack: the length read back -/

theorem toSigned_natCast {b n : Nat} (hb : 1 ≤ b) (h : n < 2 ^ (b - 1)) :
    toSigned b (n : Int) = n := by
  obtain ⟨k, rfl⟩ : ∃ k, b = k + 1 := ⟨b - 1, by omega⟩
  simp only [Nat.add_sub_cancel] at h
  unfold toSigned
  simp only [Nat.add_sub_cancel]
  have hP : (0 : Int) < 2 ^ k := by positivity
  have hn : (n : Int) < 2 ^ k := by exact_mod_cast h
  rw [pow_succ, Int.emod_eq_of_lt (by omega) (by omega)]
  omega

theorem sizeString_value (L : Layout) (grow : LD → LD) (l : Nat) (s : List Nat)
    (ld : LD) (hW : 0 < L.wordSize) (hmax : L.MAXTAGGEDPTR ≤ 2 ^ (L.bits - 5))
    (hmask : L.STG_MASK < 32) (htag : L.TAG_STRING ||| L.STG_GLOBAL < 32)
    (hroom : 2 + (l + L.wordSize) / L.wordSize ≤ roomStack ld / L.wordSize)
    (htop : ld.gTop < 2 ^ L.bits)
    (hbase : L.base_addresses ((L.TAG_STRING ||| L.STG_GLOBAL) &&& L.STG_MASK) ≤ ld.gTop)
    (hoff : ld.gTop - L.base_addresses ((L.TAG_STRING ||| L.STG_GLOBAL) &&& L.STG_MASK)
      < L.MAXTAGGEDPTR)
    (hhdr : L.mkStrHdr ((l + L.wordSize) / L.wordSize)
      ((l + L.wordSize) / L.wordSize * L.wordSize - l) < 2 ^ L.bits)
    (hws : L.wsizeofInd (L.mkStrHdr ((l + L.wordSize) / L.wordSize)
      ((l + L.wordSize) / L.wordSize * L.wordSize - l)) = (l + L.wordSize) / L.wordSize)
    (hpad : L.padHdr (L.mkStrHdr ((l + L.wordSize) / L.wordSize)
      ((l + L.wordSize) / L.wordSize * L.wordSize - l))
      = (l + L.wordSize) / L.wordSize * L.wordSize - l) :
    ∃ r ld', globalNString L grow l s ld = Res.ret r ld' ∧
      sizeString L ld' r
        = toSigned L.intBits
            ((toSigned L.intBits (((l + L.wordSize) / L.wordSize : Nat) : Int) * (L.wordSize : Int)
              - toSigned L.intBits (((l + L.wordSize) / L.wordSize * L.wordSize - l : Nat) : Int))
              % 2 ^ L.bits) ∧
      ld'.gTop = ld.gTop + (2 + (l + L.wordSize) / L.wordSize) * L.wordSize := by
  obtain ⟨hw1, hw2, hw3⟩ := string_words L.wordSize l hW
  obtain ⟨w, hc, _, haddr⟩ := consPtr_address L hW hmax hmask htag htop hbase hoff
  have halloc : allocGlobal L grow (2 + (l + L.wordSize) / L.wordSize) ld
      = Res.ret ld.gTop
          { ld with gTop := ld.gTop + (2 + (l + L.wordSize) / L.wordSize) * L.wordSize } := by
    unfold allocGlobal
    rw [if_neg (not_lt.2 hroom)]
  simp only [globalNString, halloc, hc]
  refine ⟨w, _, rfl, ?_, rfl⟩
  unfold sizeString
  simp only [haddr]
  rw [loadWord_storeWord_other L, loadWord_storeBytes L, loadWord_storeWord_other L,
    loadWord_storeWord L _ _ hhdr, hws, hpad]
  · omega
  · exact le_refl _
  · omega

/-- C10, as stated, fails: on a 64-bit machine with an `int` of 32 bits, for a string of
`2 ^ 31` bytes `sizeString(globalNString(l, s))` is `-2 ^ 31`, not `l`. -/
theorem sizeString_truncates :
    ∃ r ld', globalNString layout64 id (2 ^ 31) (List.replicate (2 ^ 31) 0) ldWide
        = Res.ret r ld' ∧
      sizeString layout64 ld' r = -(2 : Int) ^ 31 ∧
      sizeString layout64 ld' r ≠ ((2 ^ 31 : Nat) : Int) := by
  obtain ⟨r, ld', h1, h2, _⟩ := sizeString_value layout64 id (2 ^ 31)
    (List.replicate (2 ^ 31) 0) ldWide (by decide) (by decide) (by decide) (by decide)
    (by decide) (by decide) (by decide) (by decide) (by decide) (by decide) (by decide)
  refine ⟨r, ld', h1, ?_, ?_⟩
  · rw [h2]
    decide
  · rw [h2]
    decide

/-- C10, amended: when the global stack has room and its top lies in the taggable range, the
header built by `mkStrHdr` is a word from which `wsizeofInd` and `padHdr` read the word count
and the pad count back, a word has at least two bytes and fewer than `INT_MAX`, and
`l <= INT_MAX`, then `globalNString(l, s)` returns a reference `r` with `sizeString(r) == l`,
for every byte sequence; the object takes `2 + lw` stack words with
`lw = (l + sizeof(word)) / sizeof(word)`, three words when `l == 0`, and the pad count is a
whole word when `l` is a multiple of the word size. -/
theorem sizeString_globalNString (L : Layout) (grow : LD → LD) (l : Nat) (s : List Nat)
    (ld : LD) (hW : 2 ≤ L.wordSize) (hint : 1 ≤ L.intBits) (hib : L.intBits ≤ L.bits)
    (hWi : L.wordSize < 2 ^ (L.intBits - 1)) (hl : l < 2 ^ (L.intBits - 1))
    (hmax : L.MAXTAGGEDPTR ≤ 2 ^ (L.bits - 5))
    (hmask : L.STG_MASK < 32) (htag : L.TAG_STRING ||| L.STG_GLOBAL < 32)
    (hroom : 2 + (l + L.wordSize) / L.wordSize ≤ roomStack ld / L.wordSize)
    (htop : ld.gTop < 2 ^ L.bits)
    (hbase : L.base_addresses ((L.TAG_STRING ||| L.STG_GLOBAL) &&& L.STG_MASK) ≤ ld.gTop)
    (hoff : ld.gTop - L.base_addresses ((L.TAG_STRING ||| L.STG_GLOBAL) &&& L.STG_MASK)
      < L.MAXTAGGEDPTR)
    (hhdr : L.mkStrHdr ((l + L.wordSize) / L.wordSize)
      ((l + L.wordSize) / L.wordSize * L.wordSize - l) < 2 ^ L.bits)
    (hws : L.wsizeofInd (L.mkStrHdr ((l + L.wordSize) / L.wordSize)
      ((l + L.wordSize) / L.wordSize * L.wordSize - l)) = (l + L.wordSize) / L.wordSize)
    (hpad : L.padHdr (L.mkStrHdr ((l + L.wordSize) / L.wordSize)
      ((l + L.wordSize) / L.wordSize * L.wordSize - l))
      = (l + L.wordSize) / L.wordSize * L.wordSize - l) :
    ∃ r ld', globalNString L grow l s ld = Res.ret r ld' ∧
      sizeString L ld' r = (l : Int) ∧
      ld'.gTop = ld.gTop + (2 + (l + L.wordSize) / L.wordSize) * L.wordSize ∧
      (l = 0 → 2 + (l + L.wordSize) / L.wordSize = 3) ∧
      (L.wordSize ∣ l → (l + L.wordSize) / L.wordSize * L.wordSize - l = L.wordSize) := by
  have hW0 : 0 < L.wordSize := by omega
  obtain ⟨hw1, hw2, hw3⟩ := string_words L.wordSize l hW0
  obtain ⟨r, ld', hret, hval, htop'⟩ := sizeString_value L grow l s ld hW0 hmax hmask htag
    hroom htop hbase hoff hhdr hws hpad
  refine ⟨r, ld', hret, ?_, htop', ?_, ?_⟩
  · have h2 : (l + L.wordSize) / L.wordSize * 2 ≤ (l + L.wordSize) / L.wordSize * L.wordSize :=
      Nat.mul_le_mul_left _ hW
    have hlw : (l + L.wordSize) / L.wordSize < 2 ^ (L.intBits - 1) := by omega
    have hpd : (l + L.wordSize) / L.wordSize * L.wordSize - l < 2 ^ (L.intBits - 1) := by omega
    have hcast : ((((l + L.wordSize) / L.wordSize : Nat) : Int) * (L.wordSize : Int)
        - (((l + L.wordSize) / L.wordSize * L.wordSize - l : Nat) : Int)) = (l : Int) := by
      rw [Nat.cast_sub (le_of_lt hw1)]
      push_cast
      ring
    have hpow : (2 : Nat) ^ (L.intBits - 1) ≤ 2 ^ L.bits :=
      Nat.pow_le_pow_right (by norm_num) (by omega)
    have hlt : (l : Int) < 2 ^ L.bits := by
      have : l < 2 ^ L.bits := lt_of_lt_of_le hl hpow
      exact_mod_cast this
    rw [hval, toSigned_natCast hint hlw, toSigned_natCast hint hpd, hcast,
      Int.emod_eq_of_lt (Int.natCast_nonneg l) hlt, toSigned_natCast hint hl]
  · intro h0
    subst h0
    simp [Nat.div_self hW0]
  · rintro ⟨k, rfl⟩
    have h1 : (L.wordSize * k + L.wordSize) / L.wordSize = k + 1 := by
      rw [show L.wordSize * k + L.wordSize = L.wordSize * (k + 1) by ring]
      exact Nat.mul_div_cancel_left _ hW0
    rw [h1]
    have h2 : (k + 1) * L.wordSize = L.wordSize * k + L.wordSize := by ring
    omega

/-- C10, witness of the amended claim: a string of eight bytes on a 64-bit machine, where
the pad is a whole word. -/
theorem sizeString_globalNString_witness :
    ∃ r ld', globalNString layout64 id 8 [97, 98, 99, 100, 101, 102, 103, 104] ld0
        = Res.ret r ld' ∧
      sizeString layout64 ld' r = ((8 : Nat) : Int) ∧
      ld'.gTop = ld0.gTop + (2 + (8 + layout64.wordSize) / layout64.wordSize)
        * layout64.wordSize ∧
      (8 = 0 → 2 + (8 + layout64.wordSize) / layout64.wordSize = 3) ∧
      (layout64.wordSize ∣ 8 →
        (8 + layout64.wordSize) / layout64.wordSize * layout64.wordSize - 8
          = layout64.wordSize) :=
  sizeString_globalNString layout64 id 8 [97, 98, 99, 100, 101, 102, 103, 104] ld0
    (by decide) (by decide) (by decide) (by decide) (by decide) (by decide) (by decide)
    (by decide) (by decide) (by decide) (by decide) (by decide) (by decide) (by decide)
    (by decide)

/-! ## Heap allocator: the operations in `size_t`, auxiliary facts -/

theorem sizeT_ROUND_eq {M p n : Nat} (h : p + n - 1 ≤ M) : SizeT.ROUND M p n = ROUND p n := by
  unfold SizeT.ROUND ROUND
  rw [Nat.mod_eq_of_lt (Nat.lt_succ_of_le h)]
  exact Nat.mod_eq_of_lt (Nat.lt_succ_of_le (le_trans (Nat.div_mul_le_self _ _) h))

theorem sizeT_ALLOCROUND_eq {c : Config} {M n : Nat} (h : n + c.ALIGN_SIZE - 1 ≤ M) :
    SizeT.ALLOCROUND c M n = c.ALLOCROUND n :=
  sizeT_ROUND_eq h

theorem sizeT_allocHeap_eq {c : Config} {M n : Nat} (h : n + c.ALIGN_SIZE - 1 ≤ M)
    (plat : Nat) (s : State) : SizeT.allocHeap c M plat n s = allocHeap c plat n s := by
  unfold SizeT.allocHeap allocHeap
  rw [sizeT_ALLOCROUND_eq h]

theorem sizeT_freeHeap_eq {c : Config} {M n : Nat} (h : n + c.ALIGN_SIZE - 1 ≤ M)
    (p : Nat) (s : State) : SizeT.freeHeap c M p n s = freeHeap c p n s := by
  unfold SizeT.freeHeap freeHeap
  rw [sizeT_ALLOCROUND_eq h]

theorem sizeT_freeHeap_null (c : Config) (M n : Nat) (s : State) :
    SizeT.freeHeap c M 0 n s = freeHeap c 0 n s := by
  unfold SizeT.freeHeap freeHeap
  rw [if_pos rfl, if_pos rfl]

theorem reach_of_sizeT {c : Config} {M : Nat} {i s : State} {live : List (Nat × Nat)}
    (hr : SizeT.Reach c M i s live) : Reach c i s live := by
  induction hr with
  | init h => exact Reach.init h
  | alloc _ hw ha ih =>
    rw [sizeT_allocHeap_eq hw] at ha
    exact Reach.alloc ih ha
  | free _ hw hm ih =>
    rw [sizeT_freeHeap_eq hw]
    exact Reach.free ih hm
  | freeNull _ ih =>
    rw [sizeT_freeHeap_null]
    exact Reach.freeNull ih

theorem sizeT_reach_sA : SizeT.Reach cfg64 (2 ^ 64 - 1) s0 sA [(4096, 64)] :=
  SizeT.Reach.alloc (SizeT.Reach.init ⟨rfl, rfl, fun _ => rfl, rfl⟩) (by decide)
    (rfl : SizeT.allocHeap cfg64 (2 ^ 64 - 1) 4096 64 s0 = some (4096, sA))

/-- C6, as stated, fails where the rounding wraps in `size_t`: with `SIZE_MAX = 2^64 - 1`, in
the state after one request of 64 bytes, `allocHeap(SIZE_MAX)` rounds its size to 0, takes
the fast path and returns the cursor 4160, aligned and not `NULL`, without moving the cursor
or taking a byte from the bulk region.  The block reserved is of 0 bytes, which is not at
least `n`, and the next request, of 8 bytes, is given the same address. -/
theorem allocHeap_wrapped_rounding :
    SizeT.Reach cfg64 (2 ^ 64 - 1) s0 sA [(4096, 64)] ∧
      SizeT.ALLOCROUND cfg64 (2 ^ 64 - 1) (2 ^ 64 - 1) = 0 ∧
      SizeT.ALLOCROUND cfg64 (2 ^ 64 - 1) (2 ^ 64 - 1) ≤ cfg64.ALLOCFAST ∧
      ¬ (2 ^ 64 - 1 ≤ SizeT.ALLOCROUND cfg64 (2 ^ 64 - 1) (2 ^ 64 - 1)) ∧
      ∃ s', SizeT.allocHeap cfg64 (2 ^ 64 - 1) 0 (2 ^ 64 - 1) sA = some (4160, s') ∧
        cfg64.ALIGN_SIZE ∣ 4160 ∧ s'.spaceptr = sA.spaceptr ∧ s'.spacefree = sA.spacefree ∧
        ∃ s'', SizeT.allocHeap cfg64 (2 ^ 64 - 1) 0 8 s' = some (4160, s'') :=
  ⟨sizeT_reach_sA, by decide, by decide, by decide, _, rfl, by decide, rfl, rfl, _, rfl⟩

/-- C6, amended: for a request of `n > 0` bytes whose rounding does not wrap in `size_t`,
`n + ALIGN_SIZE - 1 <= SIZE_MAX`, in a state reached by such requests, with a positive
alignment that divides the bulk-region size and a platform that returns aligned bulk regions:
every address that `allocHeap(n)` returns on the fast path is a multiple of `ALIGN_SIZE`;
`ALLOCROUND(n)` is the least multiple of `ALIGN_SIZE` that is at least `n`; a fresh block is
cut from the bulk region by moving the cursor from `p` to `p + ALLOCROUND(n)`, a reused block
is the head of the chain of class `ALLOCROUND(n) / ALIGN_SIZE`, whose nodes stand for
`ALLOCROUND(n)` bytes; and under the assumptions of the ownership invariant the new live
block owns its `ALLOCROUND(n)` bytes. -/
theorem alignment_and_rounding (c : Config) (SIZE_MAX : Nat) (hA : 0 < c.ALIGN_SIZE)
    (hdvd : c.ALIGN_SIZE ∣ c.ALLOCSIZE) {i s s' : State} {live : List (Nat × Nat)}
    {plat n p : Nat} (hr : SizeT.Reach c SIZE_MAX i s live)
    (hw : n + c.ALIGN_SIZE - 1 ≤ SIZE_MAX)
    (ha : SizeT.allocHeap c SIZE_MAX plat n s = some (p, s'))
    (hal : PlatAligned c.ALIGN_SIZE s'.log) (hn : 0 < n)
    (hfast : SizeT.ALLOCROUND c SIZE_MAX n ≤ c.ALLOCFAST) :
    c.ALIGN_SIZE ∣ p ∧
      (c.ALIGN_SIZE ∣ SizeT.ALLOCROUND c SIZE_MAX n ∧ n ≤ SizeT.ALLOCROUND c SIZE_MAX n ∧
        ∀ k, c.ALIGN_SIZE ∣ k → n ≤ k → SizeT.ALLOCROUND c SIZE_MAX n ≤ k) ∧
      (s.freeChains (SizeT.ALLOCROUND c SIZE_MAX n / c.ALIGN_SIZE) = 0 →
        s'.spaceptr = p + SizeT.ALLOCROUND c SIZE_MAX n ∧ (p = s.spaceptr ∨ p = plat)) ∧
      (s.freeChains (SizeT.ALLOCROUND c SIZE_MAX n / c.ALIGN_SIZE) ≠ 0 →
        p = s.freeChains (SizeT.ALLOCROUND c SIZE_MAX n / c.ALIGN_SIZE) ∧
          SizeT.ALLOCROUND c SIZE_MAX n / c.ALIGN_SIZE * c.ALIGN_SIZE
            = SizeT.ALLOCROUND c SIZE_MAX n) ∧
      (c.WF → PlatOK s'.log → ∃ fl, Inv c s' ((p, n) :: live) fl) := by
  rw [sizeT_allocHeap_eq hw] at ha
  rw [sizeT_ALLOCROUND_eq hw] at hfast ⊢
  exact alignment_unbounded c hA hdvd (reach_of_sizeT hr) ha hal hn hfast

/-- C6, witness: the first block of a fresh allocator, cut from the bulk region at 4096. -/
theorem alignment_and_rounding_witness :
    cfg64.ALIGN_SIZE ∣ 4096 ∧
      (cfg64.ALIGN_SIZE ∣ SizeT.ALLOCROUND cfg64 (2 ^ 64 - 1) 64 ∧
        64 ≤ SizeT.ALLOCROUND cfg64 (2 ^ 64 - 1) 64 ∧
        ∀ k, cfg64.ALIGN_SIZE ∣ k → 64 ≤ k →
          SizeT.ALLOCROUND cfg64 (2 ^ 64 - 1) 64 ≤ k) ∧
      (s0.freeChains (SizeT.ALLOCROUND cfg64 (2 ^ 64 - 1) 64 / cfg64.ALIGN_SIZE) = 0 →
        sA.spaceptr = 4096 + SizeT.ALLOCROUND cfg64 (2 ^ 64 - 1) 64 ∧
          (4096 = s0.spaceptr ∨ 4096 = 4096)) ∧
      (s0.freeChains (SizeT.ALLOCROUND cfg64 (2 ^ 64 - 1) 64 / cfg64.ALIGN_SIZE) ≠ 0 →
        4096 = s0.freeChains (SizeT.ALLOCROUND cfg64 (2 ^ 64 - 1) 64 / cfg64.ALIGN_SIZE) ∧
          SizeT.ALLOCROUND cfg64 (2 ^ 64 - 1) 64 / cfg64.ALIGN_SIZE * cfg64.ALIGN_SIZE
            = SizeT.ALLOCROUND cfg64 (2 ^ 64 - 1) 64) ∧
      (cfg64.WF → PlatOK sA.log → ∃ fl, Inv cfg64 sA [(4096, 64)] fl) :=
  alignment_and_rounding cfg64 (2 ^ 64 - 1) (by decide) (by decide)
    (SizeT.Reach.init ⟨rfl, rfl, fun _ => rfl, rfl⟩) (by decide)
    (rfl : SizeT.allocHeap cfg64 (2 ^ 64 - 1) 4096 64 s0 = some (4096, sA))
    (by simp [sA, stateOf, allocHeap, allocate, cfg64, s0, Config.ALLOCROUND, ROUND,
      PlatAligned]; decide)
    (by decide) (by decide)

/-! ## Heap allocator: platform failure in `size_t` -/

end PlAlloc
